import Mathlib

/-!
# MiniWebserver: a shallow embedding and its verified properties

The C++ sources (`cache.cpp`, `http_parser.cpp`, `router.cpp`, `threadpool.cpp`,
`server.cpp`) are translated function by function.  A `std::string` is a list of
characters, a `std::list` is a `List`, a `std::unordered_map` is an association
list with unique keys (`AList`), and mutable objects are passed explicitly.
-/

namespace MiniWebserver

/-- A `std::string`: a finite sequence of characters. -/
abbrev Str := List Char

/-! ## `cache.h`, `cache.cpp` -/

/-- The data members of `class LRUCache` (`cache.h` lines 15-17).  The iterator
that `map_` stores next to each value designates the node of `order_` that holds
the same key; list nodes are never overwritten, so the iterator is represented by
the key itself. -/
structure LRUCache where
  capacity_ : Nat
  order_ : List Str
  map_ : AList (fun _ : Str => Str)

namespace LRUCache

/-- The constructor `LRUCache::LRUCache(capacity)`: both containers start empty. -/
def init (capacity : Nat) : LRUCache :=
  { capacity_ := capacity, order_ := [], map_ := ∅ }

/-- The call `order_.splice(order_.begin(), order_, it)` where `it` is the node
holding `key`: that node is unlinked and relinked at the front. -/
def spliceFront (order : List Str) (key : Str) : List Str :=
  key :: order.erase key

/-- `LRUCache::get` (`cache.cpp` lines 5-13).  The first component is the value
written to the out-parameter on a hit (`some v`, the function returns `true`)
or `none` on a miss (the function returns `false`). -/
def get (c : LRUCache) (key : Str) : Option Str × LRUCache :=
  match c.map_.lookup key with
  | none => (none, c)
  | some v => (some v, { c with order_ := spliceFront c.order_ key })

/-- The eviction block of `LRUCache::put` (`cache.cpp` lines 23-27).  Calling
`order_.back()` on an empty list is undefined in C++; this can only happen with
capacity `0`, and the embedding then leaves the cache as it is. -/
def evictIfFull (c : LRUCache) : LRUCache :=
  if c.capacity_ ≤ c.map_.entries.length then
    match c.order_.getLast? with
    | some last => { c with map_ := c.map_.erase last, order_ := c.order_.dropLast }
    | none => c
  else c

/-- `LRUCache::put` (`cache.cpp` lines 15-30). -/
def put (c : LRUCache) (key value : Str) : LRUCache :=
  match c.map_.lookup key with
  | some _ =>
      { c with map_ := c.map_.replace key value, order_ := spliceFront c.order_ key }
  | none =>
      let c1 := evictIfFull c
      { c1 with order_ := key :: c1.order_, map_ := c1.map_.insert key value }

/-- The predicate of the cache invariant: the index holds at most `capacity_`
entries, the recency list has no duplicate, and index and recency list hold the
same keys. -/
def Inv (c : LRUCache) : Prop :=
  c.map_.entries.length ≤ c.capacity_ ∧ c.order_.Nodup ∧ ∀ k, k ∈ c.map_ ↔ k ∈ c.order_

end LRUCache

/-- One operation of a client of the cache. -/
inductive CacheOp where
  | get (key : Str)
  | put (key value : Str)

namespace LRUCache

/-- The cache after one client operation. -/
def apply (c : LRUCache) : CacheOp → LRUCache
  | .get k => (c.get k).2
  | .put k v => c.put k v

/-- The keys an operation touches in cache `c`: a `put` touches its key, a `get`
touches its key exactly when it hits. -/
def touches (c : LRUCache) : CacheOp → List Str
  | .get k => if (c.get k).1.isSome then [k] else []
  | .put k _ => [k]

/-- One operation on a cache paired with the log of touched keys, most recent
touch first. -/
def stepLogged (s : LRUCache × List Str) (op : CacheOp) : LRUCache × List Str :=
  (s.1.apply op, s.1.touches op ++ s.2)

/-- A sequence of operations applied from left to right to an initially empty
cache of capacity `N`, together with the touch log. -/
def runLogged (N : Nat) (ops : List CacheOp) : LRUCache × List Str :=
  ops.foldl stepLogged (init N, [])

/-- The cache states reachable from the empty cache of capacity `N`. -/
def Reachable (N : Nat) (c : LRUCache) : Prop :=
  ∃ ops : List CacheOp, (runLogged N ops).1 = c

end LRUCache

/-- The distinct keys of a touch log (most recent first), ordered by their most
recent touch. -/
def mostRecentDistinct : List Str → List Str
  | [] => []
  | k :: older => k :: (mostRecentDistinct older).filter (fun x => !decide (x = k))

/-- A cache with its touch log is good for capacity `N` when it has that capacity,
satisfies the invariant, and its recency list is the `N` most recently touched
distinct keys. -/
def LRUCache.Good (N : Nat) (s : LRUCache × List Str) : Prop :=
  s.1.capacity_ = N ∧ s.1.Inv ∧ s.1.order_ = (mostRecentDistinct s.2).take N

/-! ## `http_parser.cpp` -/

/-- `std::isspace` in the "C" locale: space, `\t`, `\n`, `\v`, `\f`, `\r`. -/
def isspace (c : Char) : Bool :=
  c = ' ' || c = '\t' || c = '\n' || c = '\x0b' || c = '\x0c' || c = '\r'

/-- `std::tolower` in the "C" locale: `A`..`Z` go to `a`..`z`, all else is fixed. -/
def tolower (c : Char) : Char :=
  if 65 ≤ c.toNat ∧ c.toNat ≤ 90 then Char.ofNat (c.toNat + 32) else c

/-- `trim` (`http_parser.cpp` lines 7-13): `start` moves right over white space,
then `end` moves left over white space while `end > start`. -/
def trim (s : Str) : Str :=
  ((s.dropWhile isspace).reverse.dropWhile isspace).reverse

/-- `std::string::find(pattern)`: the least index at which `pat` occurs in `s`,
`none` for `npos`. -/
def find (pat : Str) : Str → Option Nat
  | [] => if pat = [] then some 0 else none
  | c :: cs => if pat.isPrefixOf (c :: cs) then some 0 else (find pat cs).map (· + 1)

/-- The string literal `"\r\n\r\n"` that ends the header block. -/
def CRLFCRLF : Str := ['\r', '\n', '\r', '\n']

/-- `std::string::find(ch)` for one character. -/
def findChar (ch : Char) : Str → Option Nat
  | [] => none
  | c :: cs => if c = ch then some 0 else (findChar ch cs).map (· + 1)

/-- The results of calling `std::getline(iss, line)` on a string stream until it
fails: the text is cut at each `\n`; a final piece without `\n` is a line unless
it is empty. -/
def getlines : Str → List Str
  | [] => []
  | c :: cs =>
    if c = '\n' then [] :: getlines cs
    else match getlines cs with
      | [] => [[c]]
      | l :: ls => (c :: l) :: ls

/-- The statement `if (!line.empty() && line.back() == '\r') line.pop_back();`. -/
def popCR (line : Str) : Str :=
  if line.getLast? = some '\r' then line.dropLast else line

/-- The extraction `stream >> str`: skip white space, read the longest run of
other characters; it fails when that run is empty.  The result is the token and
the rest of the stream. -/
def extract (s : Str) : Option (Str × Str) :=
  let s1 := s.dropWhile isspace
  if s1 = [] then none
  else some (s1.takeWhile (fun c => !isspace c), s1.dropWhile (fun c => !isspace c))

/-- Modelled from the spec: `struct HttpRequest` is declared in `http_parser.h`,
which is not among the sources.  The spec gives a request as method, path,
version and a mapping from lower-cased header name to trimmed value. -/
structure HttpRequest where
  method : Str
  path : Str
  version : Str
  headers : AList (fun _ : Str => Str)

/-- The request `HttpRequest http_req;` as `handle_client` declares it. -/
def HttpRequest.empty : HttpRequest :=
  { method := [], path := [], version := [], headers := ∅ }

/-- The header loop of `parse_http_request` (lines 30-40) over the remaining
lines of the stream. -/
def headerLoop : List Str → AList (fun _ : Str => Str) → AList (fun _ : Str => Str)
  | [], headers => headers
  | line :: rest, headers =>
    if popCR line = [] then headers
    else match findChar ':' (popCR line) with
      | none => headerLoop rest headers
      | some pos =>
        headerLoop rest
          (headers.insert ((trim ((popCR line).take pos)).map tolower)
            (trim ((popCR line).drop (pos + 1))))

/-- `parse_http_request` (`http_parser.cpp` lines 15-43).  `none` stands for the
result `false`; `some r` is the request object after a result `true`, `out` being
the object the caller passed in. -/
def parse_http_request (raw : Str) (out : HttpRequest) : Option HttpRequest :=
  match find CRLFCRLF raw with
  | none => none
  | some header_end =>
    match getlines (raw.take header_end) with
    | [] => none
    | line :: rest =>
      match extract (popCR line) with
      | none => none
      | some (method, s1) =>
        match extract s1 with
        | none => none
        | some (path, s2) =>
          match extract s2 with
          | none => none
          | some (version, _) =>
            some { method := method, path := path, version := version,
                   headers := headerLoop rest out.headers }

/-! ### The parser as the specification words it -/

/-- The header block: the text before the first `\r\n\r\n`. -/
def headerBlock (raw : Str) : Option Str :=
  (find CRLFCRLF raw).map (fun n => raw.take n)

/-- White-space separated tokens: the non-empty pieces between white space. -/
def tokens (s : Str) : List Str :=
  (s.splitOnP isspace).filter (fun t => !t.isEmpty)

/-- The lines of a block: the pieces between `\n`, each without a final `\r`. -/
def specLines (block : Str) : List Str :=
  (block.splitOn '\n').map popCR

/-- The first line of a block. -/
def firstLine (block : Str) : Str :=
  (specLines block).headD []

/-- The header lines: those after the request line and before the first blank
line. -/
def headerLines (block : Str) : List Str :=
  (specLines block).tail.takeWhile (fun l => !l.isEmpty)

/-- The name and value of a header line: the text left and right of the first
colon; `none` for a line without a colon. -/
def splitHeader (line : Str) : Option (Str × Str) :=
  if ':' ∈ line then
    some (line.takeWhile (fun c => !decide (c = ':')),
          (line.dropWhile (fun c => !decide (c = ':'))).tail)
  else none

/-- The assignments `map[lowercase(trim(name))] := trim(value)` the header lines
give rise to, in order; lines without a colon are skipped. -/
def headerEntries (lines : List Str) : List (Str × Str) :=
  lines.filterMap (fun l => (splitHeader l).map
    (fun nv => ((trim nv.1).map tolower, trim nv.2)))

/-- The header map the specification describes: the assignments carried out in
order on the map `init`. -/
def specHeaders (init : AList (fun _ : Str => Str)) (lines : List Str) :
    AList (fun _ : Str => Str) :=
  (headerEntries lines).foldl (fun m e => m.insert e.1 e.2) init

/-- The value of the last assignment to key `k` in a list of assignments. -/
def lastAssigned (k : Str) (es : List (Str × Str)) : Option Str :=
  (es.reverse.find? (fun e => decide (e.1 = k))).map (fun e => e.2)

/-- No upper-case letter `A`..`Z` occurs in the string. -/
def LowerCase (s : Str) : Prop :=
  ∀ c ∈ s, ¬ (65 ≤ c.toNat ∧ c.toNat ≤ 90)

/-- The string neither starts nor ends with a white-space character. -/
def Trimmed (s : Str) : Prop :=
  (∀ c, s.head? = some c → isspace c = false) ∧
  (∀ c, s.getLast? = some c → isspace c = false)

/-- The line end `\r\n`. -/
def CRLF : Str := ['\r', '\n']

/-- No white-space character occurs in the string. -/
def NoSpace (s : Str) : Prop :=
  ∀ c ∈ s, isspace c = false

/-- A block of header lines, each one followed by `\r\n`. -/
def headerText (lines : List Str) : Str :=
  (lines.map (fun l => l ++ CRLF)).flatten

/-- The request line `M P V` as it is re-serialized: the three parts separated by
single spaces. -/
def requestLine (M P V : Str) : Str :=
  M ++ [' '] ++ P ++ [' '] ++ V

/-- A raw request: the request line, `\r\n`, the header lines and a final `\r\n`. -/
def requestText (M P V : Str) (lines : List Str) : Str :=
  requestLine M P V ++ CRLF ++ headerText lines ++ CRLF

/-! ## `router.cpp`

A `std::filesystem::path` is represented by its pathname string in the generic
format (POSIX: `/` is the only separator and there is no root name). -/

/-- One step of `lexically_normal` (C++ [fs.path.generic], normalization rules
4 to 6) on the next piece between separators.  The state is the list of
filenames kept so far and whether a separator follows the last of them.  An
empty piece or a dot leaves only the separator; a dot-dot removes a preceding
filename that is not dot-dot, is dropped directly under the root directory, and
is kept otherwise. -/
def normalStep (rooted : Bool) (acc : List Str × Bool) (name : Str) : List Str × Bool :=
  if name = [] ∨ name = ['.'] then (acc.1, true)
  else if name = ['.', '.'] then
    match acc.1.getLast? with
    | some top =>
      if top = ['.', '.'] then (acc.1 ++ [name], false) else (acc.1.dropLast, true)
    | none => if rooted then (acc.1, true) else ([name], false)
  else (acc.1 ++ [name], false)

/-- The pathname of a normal form: the root directory if any, the filenames
separated by `/`, and a final `/` when a separator follows a last filename other
than dot-dot (rule 7). -/
def renderPath (rooted : Bool) (names : List Str) (trailing : Bool) : Str :=
  (if rooted then ['/'] else []) ++ ['/'].intercalate names ++
    (if trailing ∧ names ≠ [] ∧ names.getLast? ≠ some ['.', '.'] then ['/'] else [])

/-- `path::lexically_normal()`: the empty path stays empty (rule 1), and a normal
form without any element is a dot (rule 8). -/
def lexically_normal (p : Str) : Str :=
  if p = [] then []
  else
    let rooted : Bool := p.head? = some '/'
    let acc := (p.splitOn '/').foldl (normalStep rooted) ([], false)
    let s := renderPath rooted acc.1 acc.2
    if s = [] then ['.'] else s

/-- `path::relative_path()`: the pathname without its root directory. -/
def relative_path (p : Str) : Str :=
  p.dropWhile (fun c => decide (c = '/'))

/-- `operator/` of `std::filesystem::path`: an absolute right operand replaces
the left one, as does any right operand when the left one is empty; otherwise a
separator is added unless the left operand already ends with one. -/
def pathAppend (lhs rhs : Str) : Str :=
  if rhs.head? = some '/' ∨ lhs = [] then rhs
  else if lhs.getLast? = some '/' then lhs ++ rhs
  else lhs ++ '/' :: rhs

/-- `path::filename()`: the text after the last separator. -/
def filename (p : Str) : Str :=
  (p.reverse.takeWhile (fun c => !decide (c = '/'))).reverse

/-- `path::extension()`: the part of the filename from its last dot on; empty for
the filenames dot and dot-dot, for a filename without a dot, and for a filename
whose only dot is its first character. -/
def extension (p : Str) : Str :=
  let f := filename p
  if f = ['.'] ∨ f = ['.', '.'] ∨ '.' ∉ f then []
  else
    let e := (f.reverse.takeWhile (fun c => !decide (c = '.'))).reverse
    if e.length + 1 = f.length then [] else '.' :: e

/-- `get_mime_type` (`router.cpp` lines 8-20). -/
def get_mime_type (path : Str) : Str :=
  let ext := extension path
  if ext = ".html".toList ∨ ext = ".htm".toList then "text/html".toList
  else if ext = ".css".toList then "text/css".toList
  else if ext = ".js".toList then "application/javascript".toList
  else if ext = ".json".toList then "application/json".toList
  else if ext = ".png".toList then "image/png".toList
  else if ext = ".jpg".toList ∨ ext = ".jpeg".toList then "image/jpeg".toList
  else if ext = ".gif".toList then "image/gif".toList
  else if ext = ".txt".toList then "text/plain".toList
  else "application/octet-stream".toList

/-- The file system as the router sees it: `fs::exists`, `fs::is_directory`, and
opening a file for reading, which yields its whole content or fails.  The two
status queries are the answers of calls that return; `StatFileSystem` adds the
calls that throw. -/
structure FileSystem where
  exists_ : Str → Bool
  is_directory : Str → Bool
  open_read : Str → Option Str

/-- A query the router sends to the file system, with the path it names. -/
inductive FsCall where
  | exists_ (p : Str)
  | is_directory (p : Str)
  | open_read (p : Str)
  deriving DecidableEq

/-- The path a file-system query names. -/
def FsCall.path : FsCall → Str
  | .exists_ p => p
  | .is_directory p => p
  | .open_read p => p

/-- What a call of `Router::handle` leaves behind: the returned body, the two
out-parameters, the cache afterwards, the file-system queries in the order they
were made, and the number of calls of `LRUCache::get` and `LRUCache::put`. -/
structure RouterResult where
  body : Str
  status_code : Int
  content_type : Str
  cache : LRUCache
  fsCalls : List FsCall
  cacheCalls : Nat

/-- `Router::serve_file` (`router.cpp` lines 46-73), for status queries that
return; `Throwing.serve_file` adds the exception they can throw. -/
def serve_file (root_ : Str) (fs : FileSystem) (cache_ : LRUCache) (rel_path : Str) :
    RouterResult :=
  let full := pathAppend root_ (relative_path rel_path)
  if fs.exists_ full = false then
    { body := "Not Found\n".toList, status_code := 404, content_type := "text/plain".toList,
      cache := cache_, fsCalls := [.exists_ full], cacheCalls := 0 }
  else if fs.is_directory full = true then
    { body := "Not Found\n".toList, status_code := 404, content_type := "text/plain".toList,
      cache := cache_, fsCalls := [.exists_ full, .is_directory full], cacheCalls := 0 }
  else
    match cache_.get full with
    | (some data, cache1) =>
      { body := data, status_code := 200, content_type := get_mime_type full,
        cache := cache1, fsCalls := [.exists_ full, .is_directory full], cacheCalls := 1 }
    | (none, cache1) =>
      match fs.open_read full with
      | none =>
        { body := "Internal Server Error\n".toList, status_code := 500,
          content_type := "text/plain".toList, cache := cache1,
          fsCalls := [.exists_ full, .is_directory full, .open_read full], cacheCalls := 1 }
      | some data =>
        { body := data, status_code := 200, content_type := get_mime_type full,
          cache := cache1.put full data,
          fsCalls := [.exists_ full, .is_directory full, .open_read full], cacheCalls := 2 }

/-- The string literal `".."` that `Router::handle` searches for. -/
def DOTDOT : Str := ['.', '.']

/-- The path `Router::handle` works on (`router.cpp` lines 32-33): the empty path
stands for `/`, and `/` stands for `/index.html`. -/
def defaultPath (reqPath : Str) : Str :=
  let path := if reqPath = [] then "/".toList else reqPath
  if path = "/".toList then "/index.html".toList else path

/-- `Router::handle` (`router.cpp` lines 25-44). -/
def handle (root_ : Str) (fs : FileSystem) (cache_ : LRUCache) (req : HttpRequest) :
    RouterResult :=
  if req.method ≠ "GET".toList then
    { body := "Method Not Allowed\n".toList, status_code := 405,
      content_type := "text/plain".toList, cache := cache_, fsCalls := [], cacheCalls := 0 }
  else
    let rel := lexically_normal (defaultPath req.path)
    if (find DOTDOT rel).isSome then
      { body := "Forbidden\n".toList, status_code := 403,
        content_type := "text/plain".toList, cache := cache_, fsCalls := [], cacheCalls := 0 }
    else serve_file root_ fs cache_ rel

/-- The answer `403 Forbidden` given without any file-system query, without any
cache call, and with the cache `cache_` left as it was. -/
def Forbidden (res : RouterResult) (cache_ : LRUCache) : Prop :=
  res.status_code = 403 ∧ res.content_type = "text/plain".toList ∧
  res.body = "Forbidden\n".toList ∧ res.fsCalls = [] ∧ res.cacheCalls = 0 ∧
  res.cache = cache_

/-- A file system in which no path exists. -/
def FileSystem.vacant : FileSystem :=
  { exists_ := fun _ => false, is_directory := fun _ => false, open_read := fun _ => none }

/-- A `GET` request for the path `p`. -/
def getRequest (p : Str) : HttpRequest :=
  { method := "GET".toList, path := p, version := "HTTP/1.0".toList, headers := ∅ }

/-! ## `threadpool.cpp`

The queue and the stop flag are only touched under `mutex_`, so every critical
section is one atomic step of the pool. -/

/-- Where a worker thread stands in `worker_loop`: blocked in `cv_.wait` (or about
to enter it), running the task it took (line 40), or returned (line 36). -/
inductive Worker (α : Type) where
  | waiting
  | running (task : α)
  | exited
  deriving DecidableEq

/-- The members of `ThreadPool` together with three history lists that the C++
object does not store: the tasks pushed by `enqueue`, the tasks moved out of the
queue by workers, and the tasks whose call has returned, each in order of
occurrence.  The front of `tasks_` is the head of the list. -/
structure ThreadPool (α : Type) where
  workers_ : List (Worker α)
  tasks_ : List α
  stop_ : Bool
  enqueued : List α
  taken : List α
  executed : List α

/-- What can happen to a pool: a call of `enqueue`, worker `i` leaving
`cv_.wait`, the task of worker `i` returning, and the destructor setting
`stop_` (lines 12-15). -/
inductive PoolEvent (α : Type) where
  | enqueue (task : α)
  | wake (i : Nat)
  | finish (i : Nat)
  | shutdown

namespace ThreadPool

variable {α : Type}

/-- The constructor (`threadpool.cpp` lines 4-9): `n_threads` workers, one if
`n_threads` is zero, an empty queue and `stop_ = false`. -/
def init (n_threads : Nat) : ThreadPool α :=
  { workers_ := List.replicate (if n_threads = 0 then 1 else n_threads) Worker.waiting,
    tasks_ := [], stop_ := false, enqueued := [], taken := [], executed := [] }

/-- One atomic step.  `enqueue` pushes at the back (lines 24-25).  A waiting worker
leaves `cv_.wait` only if `stop_ || !tasks_.empty()`; it then returns if the
queue is empty (line 36) and otherwise moves the front task out (lines 37-38).
`none` means that the event cannot happen in this state. -/
def step (p : ThreadPool α) : PoolEvent α → Option (ThreadPool α)
  | .enqueue t =>
    some { p with tasks_ := p.tasks_ ++ [t], enqueued := p.enqueued ++ [t] }
  | .wake i =>
    match p.workers_[i]? with
    | some .waiting =>
      match p.tasks_ with
      | t :: rest =>
        some { p with tasks_ := rest, workers_ := p.workers_.set i (.running t),
                      taken := p.taken ++ [t] }
      | [] =>
        if p.stop_ then some { p with workers_ := p.workers_.set i .exited } else none
    | _ => none
  | .finish i =>
    match p.workers_[i]? with
    | some (.running t) =>
      some { p with workers_ := p.workers_.set i .waiting, executed := p.executed ++ [t] }
    | _ => none
  | .shutdown => some { p with stop_ := true }

/-- A sequence of steps; `none` if one of them cannot happen. -/
def run (p : ThreadPool α) : List (PoolEvent α) → Option (ThreadPool α)
  | [] => some p
  | e :: es => (p.step e).bind (fun q => q.run es)

/-- The tasks that workers are running. -/
def runningTasks (ws : List (Worker α)) : List α :=
  ws.filterMap (fun w => match w with
    | .running t => some t
    | _ => none)

/-- Every worker thread has returned from `worker_loop`. -/
def AllExited (p : ThreadPool α) : Prop :=
  ∀ w ∈ p.workers_, w = Worker.exited

/-- The invariant of the pool: taken tasks followed by the queue are the
enqueued tasks; the returned calls and the running ones are the taken tasks;
there is a worker; and a worker has only returned if `stop_` is set. -/
def PoolInv (p : ThreadPool α) : Prop :=
  p.taken ++ p.tasks_ = p.enqueued ∧
  (p.executed ++ runningTasks p.workers_).Perm p.taken ∧
  p.workers_ ≠ [] ∧
  (Worker.exited ∈ p.workers_ → p.stop_ = true)

end ThreadPool

/-! ## `server.cpp`

The global variables are gathered in one record that is passed along.  Values of
type `size_t` are natural numbers below `2 ^ 64`; `fetch_add` wraps around. -/

/-- `struct RequestLogEntry` (`server.cpp` lines 21-27). -/
structure RequestLogEntry where
  time : Str
  client : Str
  path : Str
  status : Int
  bytes : Nat
  deriving DecidableEq

/-- `MAX_RECENT_LOGS` (`server.cpp` line 30). -/
def MAX_RECENT_LOGS : Nat := 100

/-- The number of values of `size_t`. -/
def SIZE_MOD : Nat := 2 ^ 64

/-- The request path of the metrics endpoint. -/
def ADMIN_METRICS : Str := "/admin/metrics".toList

/-- The request path of the health endpoint. -/
def ADMIN_HEALTH : Str := "/admin/health".toList

/-- The global variables of `server.cpp` (lines 29-44) and the text written to
`std::cout`. -/
structure Metrics where
  g_recent_logs : List RequestLogEntry
  g_total_requests : Nat
  g_status_200 : Nat
  g_status_400 : Nat
  g_status_403 : Nat
  g_status_404 : Nat
  g_status_405 : Nat
  g_status_500 : Nat
  g_bytes_sent : Nat
  g_active_connections : Int
  g_peak_connections : Int
  cout : Str

/-- The globals at program start. -/
def Metrics.init : Metrics :=
  { g_recent_logs := [], g_total_requests := 0, g_status_200 := 0, g_status_400 := 0,
    g_status_403 := 0, g_status_404 := 0, g_status_405 := 0, g_status_500 := 0,
    g_bytes_sent := 0, g_active_connections := 0, g_peak_connections := 0, cout := [] }

/-- The text `operator<<` writes for an unsigned number. -/
def decimal (n : Nat) : Str :=
  (Nat.repr n).toList

/-- The text `operator<<` writes for an `int`. -/
def decimalInt : Int → Str
  | Int.ofNat n => decimal n
  | Int.negSucc n => '-' :: decimal (n + 1)

/-- The `switch (status)` of `log_request` (`server.cpp` lines 83-91). -/
def countStatus (g : Metrics) (status : Int) : Metrics :=
  if status = 200 then { g with g_status_200 := (g.g_status_200 + 1) % SIZE_MOD }
  else if status = 400 then { g with g_status_400 := (g.g_status_400 + 1) % SIZE_MOD }
  else if status = 403 then { g with g_status_403 := (g.g_status_403 + 1) % SIZE_MOD }
  else if status = 404 then { g with g_status_404 := (g.g_status_404 + 1) % SIZE_MOD }
  else if status = 405 then { g with g_status_405 := (g.g_status_405 + 1) % SIZE_MOD }
  else if status = 500 then { g with g_status_500 := (g.g_status_500 + 1) % SIZE_MOD }
  else g

/-- `log_request` (`server.cpp` lines 61-96); `ts` is what `now_str()` returns. -/
def log_request (g : Metrics) (client path : Str) (status : Int) (bytes : Nat) (ts : Str) :
    Metrics :=
  if path = ADMIN_METRICS then g
  else
    let pushed := g.g_recent_logs ++
      [{ time := ts, client := client, path := path, status := status, bytes := bytes }]
    let logs := if pushed.length > MAX_RECENT_LOGS then pushed.tail else pushed
    let g1 := { g with g_recent_logs := logs,
                       g_total_requests := (g.g_total_requests + 1) % SIZE_MOD,
                       g_bytes_sent := (g.g_bytes_sent + bytes) % SIZE_MOD }
    let g2 := countStatus g1 status
    { g2 with cout := g2.cout ++ "[".toList ++ ts ++ "] ".toList ++ client ++ " \"".toList ++
        path ++ "\" ".toList ++ decimalInt status ++ " ".toList ++ decimal bytes ++ ['\n'] }

/-- The constructor of `ConnectionGuard` (`server.cpp` lines 101-107). -/
def ConnectionGuard.enter (g : Metrics) : Metrics :=
  let curr := g.g_active_connections + 1
  { g with g_active_connections := curr,
           g_peak_connections := if curr > g.g_peak_connections then curr
                                 else g.g_peak_connections }

/-- The destructor of `ConnectionGuard` (`server.cpp` lines 108-110). -/
def ConnectionGuard.leave (g : Metrics) : Metrics :=
  { g with g_active_connections := g.g_active_connections - 1 }

/-- One object of the `recent` array in `build_metrics_json` (lines 162-168). -/
def recentJson (e : RequestLogEntry) : Str :=
  "\x7b".toList ++ "\"time\":\"".toList ++ e.time ++ "\",".toList ++
    "\"client\":\"".toList ++ e.client ++ "\",".toList ++
    "\"path\":\"".toList ++ e.path ++ "\",".toList ++
    "\"status\":".toList ++ decimalInt e.status ++ ",".toList ++
    "\"bytes\":".toList ++ decimal e.bytes ++ "\x7d".toList

/-- `build_metrics_json` (`server.cpp` lines 114-173); `uptime` is the number of
seconds between `g_start_time` and `steady_clock::now()`. -/
def build_metrics_json (g : Metrics) (uptime : Int) : Str :=
  let uptime_sec := if uptime < 0 then 0 else uptime
  "\x7b".toList ++
  "\"total_requests\":".toList ++ decimal g.g_total_requests ++ ",".toList ++
  "\"uptime_seconds\":".toList ++ decimalInt uptime_sec ++ ",".toList ++
  "\"active_connections\":".toList ++ decimalInt g.g_active_connections ++ ",".toList ++
  "\"peak_connections\":".toList ++ decimalInt g.g_peak_connections ++ ",".toList ++
  "\"bytes_sent\":".toList ++ decimal g.g_bytes_sent ++ ",".toList ++
  "\"status_counts\":\x7b".toList ++
  "\"200\":".toList ++ decimal g.g_status_200 ++ ",".toList ++
  "\"400\":".toList ++ decimal g.g_status_400 ++ ",".toList ++
  "\"403\":".toList ++ decimal g.g_status_403 ++ ",".toList ++
  "\"404\":".toList ++ decimal g.g_status_404 ++ ",".toList ++
  "\"405\":".toList ++ decimal g.g_status_405 ++ ",".toList ++
  "\"500\":".toList ++ decimal g.g_status_500 ++
  "\x7d,".toList ++
  "\"recent\":[".toList ++
  [','].intercalate (g.g_recent_logs.map recentJson) ++
  "]".toList ++ "\x7d".toList

/-- What one call of `::recv` on the connection yields: some bytes (an empty
buffer stands for the result `0`) or an error (a negative result). -/
inductive Recv where
  | data (bytes : Str)
  | error

/-- The read loop of `handle_client` (`server.cpp` lines 226-230) over the
results the successive `recv` calls yield; a connection that yields nothing more
counts as closed (`recv` returns `0`).  The result is the accumulated buffer,
whether the last `recv` reported an error (`recvd < 0`), and the results not
asked for. -/
def recvLoop : List Recv → Str → Str × Bool × List Recv
  | [], req => (req, false, [])
  | Recv.error :: rest, req => (req, true, rest)
  | Recv.data bytes :: rest, req =>
    if bytes = [] then (req, false, rest)
    else if (find CRLFCRLF (req ++ bytes)).isSome then (req ++ bytes, false, rest)
    else if (req ++ bytes).length > 64 * 1024 then (req ++ bytes, false, rest)
    else recvLoop rest (req ++ bytes)

/-- The status text `handle_client` chooses (`server.cpp` lines 295-304). -/
def statusText (status : Int) : Str :=
  if status = 200 then "OK".toList
  else if status = 400 then "Bad Request".toList
  else if status = 403 then "Forbidden".toList
  else if status = 404 then "Not Found".toList
  else if status = 405 then "Method Not Allowed".toList
  else if status = 500 then "Internal Server Error".toList
  else "Unknown".toList

/-- The members of `HttpServer` that `handle_client` uses, and the globals. -/
structure Server where
  root_dir_ : Str
  cache_ : LRUCache
  g : Metrics

/-- The constructor of `HttpServer` (`server.cpp` lines 176-182): a cache of
capacity 100. -/
def Server.init (root_dir : Str) : Server :=
  { root_dir_ := root_dir, cache_ := LRUCache.init 100, g := Metrics.init }

/-- What the surroundings supply during one call of `handle_client`: the results
of `recv`, the file system, the time stamp `now_str()` returns, and the uptime in
seconds. -/
structure ClientIO where
  recvs : List Recv
  fs : FileSystem
  now : Str
  uptime : Int

/-- The outcome of `handle_client`: the server afterwards and the buffers handed
to `::send`, in order. -/
structure ClientResult where
  server : Server
  sent : List Str

/-- The two `::send` calls for a header and a body; the body is only sent when it
is not empty. -/
def sendHeaderBody (header body : Str) : List Str :=
  if body = [] then [header] else [header, body]

/-- `HttpServer::handle_client` (`server.cpp` lines 218-320).  The guard is
entered first and left on every path. -/
def handle_client (s : Server) (client_ip : Str) (io : ClientIO) : ClientResult :=
  let g1 := ConnectionGuard.enter s.g
  let read := recvLoop io.recvs []
  if read.2.1 = true then
    { server := { s with g := ConnectionGuard.leave g1 }, sent := [] }
  else
    match parse_http_request read.1 HttpRequest.empty with
    | none =>
      let body := "Bad Request\n".toList
      let out := "HTTP/1.0 400 Bad Request\r\n".toList ++
        "Content-Length: ".toList ++ decimal body.length ++ "\r\n".toList ++
        "Content-Type: text/plain\r\n".toList ++
        "Connection: close\r\n\r\n".toList ++ body
      let g2 := log_request g1 client_ip "-".toList 400 out.length io.now
      { server := { s with g := ConnectionGuard.leave g2 }, sent := [out] }
    | some http_req =>
      if http_req.path = ADMIN_METRICS then
        let body := build_metrics_json g1 io.uptime
        let header := "HTTP/1.0 200 OK\r\n".toList ++
          "Content-Length: ".toList ++ decimal body.length ++ "\r\n".toList ++
          "Content-Type: application/json\r\n".toList ++
          "Connection: close\r\n\r\n".toList
        let g2 := log_request g1 client_ip http_req.path 200
          (header.length + body.length) io.now
        { server := { s with g := ConnectionGuard.leave g2 },
          sent := sendHeaderBody header body }
      else if http_req.path = ADMIN_HEALTH then
        let body := "OK\n".toList
        let out := "HTTP/1.0 200 OK\r\n".toList ++
          "Content-Length: ".toList ++ decimal body.length ++ "\r\n".toList ++
          "Content-Type: text/plain\r\n".toList ++
          "Connection: close\r\n\r\n".toList ++ body
        let g2 := log_request g1 client_ip http_req.path 200 out.length io.now
        { server := { s with g := ConnectionGuard.leave g2 }, sent := [out] }
      else
        let res := handle s.root_dir_ io.fs s.cache_ http_req
        let header := "HTTP/1.0 ".toList ++ decimalInt res.status_code ++ " ".toList ++
          statusText res.status_code ++ "\r\n".toList ++
          "Content-Length: ".toList ++ decimal res.body.length ++ "\r\n".toList ++
          "Content-Type: ".toList ++ res.content_type ++ "\r\n".toList ++
          "Connection: close\r\n\r\n".toList
        let g2 := log_request g1 client_ip http_req.path res.status_code
          (header.length + res.body.length) io.now
        { server := { s with cache_ := res.cache, g := ConnectionGuard.leave g2 },
          sent := sendHeaderBody header res.body }

/-- Connections handled one after the other. -/
def serveAll (s : Server) (conns : List (Str × ClientIO)) : Server :=
  conns.foldl (fun s c => (handle_client s c.1 c.2).server) s

/-- The request counters and the recent-log buffer: `total_requests`,
`bytes_sent`, the six status buckets and `g_recent_logs`. -/
def Metrics.requestStats (g : Metrics) : Nat × Nat × List Nat × List RequestLogEntry :=
  (g.g_total_requests, g.g_bytes_sent,
   [g.g_status_200, g.g_status_400, g.g_status_403, g.g_status_404, g.g_status_405,
    g.g_status_500],
   g.g_recent_logs)

/-- The connection delivers a request that parses with path `/admin/metrics`. -/
def IsMetricsRequest (io : ClientIO) : Prop :=
  (recvLoop io.recvs []).2.1 = false ∧
  ∃ r, parse_http_request (recvLoop io.recvs []).1 HttpRequest.empty = some r ∧
    r.path = ADMIN_METRICS

/-! ## Router: the answers of `serve_file` and the extension table -/

/-- The path `serve_file` resolves for a request path: the root joined with the
relative path of the normal form. -/
def resolvedPath (root_ reqPath : Str) : Str :=
  pathAppend root_ (relative_path (lexically_normal (defaultPath reqPath)))

/-- The request passes the traversal check of `Router::handle`. -/
def PassesTraversalCheck (reqPath : Str) : Prop :=
  find DOTDOT (lexically_normal (defaultPath reqPath)) = none

/-- The extension table as the specification lists it. -/
def mimeTable : List (Str × Str) :=
  [(".html".toList, "text/html".toList), (".htm".toList, "text/html".toList),
   (".css".toList, "text/css".toList), (".js".toList, "application/javascript".toList),
   (".json".toList, "application/json".toList), (".png".toList, "image/png".toList),
   (".jpg".toList, "image/jpeg".toList), (".jpeg".toList, "image/jpeg".toList),
   (".gif".toList, "image/gif".toList), (".txt".toList, "text/plain".toList)]

/-- The content type the table gives for an extension; the generic binary type
for an extension that is not listed. -/
def tableType (ext : Str) : Str :=
  match mimeTable.find? (fun e => decide (e.1 = ext)) with
  | some e => e.2
  | none => "application/octet-stream".toList

/-- A request with method `POST`. -/
def postRequest (p : Str) : HttpRequest :=
  { method := "POST".toList, path := p, version := "HTTP/1.0".toList, headers := ∅ }

/-- The arguments of one call of `log_request`, with the time stamp `now_str()`
returns during the call. -/
structure LogCall where
  client : Str
  path : Str
  status : Int
  bytes : Nat
  ts : Str

/-- The entry a call of `log_request` appends to the recent-log buffer. -/
def LogCall.entry (c : LogCall) : RequestLogEntry :=
  { time := c.ts, client := c.client, path := c.path, status := c.status, bytes := c.bytes }

/-- One call of `log_request`. -/
def logCall (g : Metrics) (c : LogCall) : Metrics :=
  log_request g c.client c.path c.status c.bytes c.ts

/-- A sequence of calls of `log_request`, one after the other. -/
def logAll (g : Metrics) (calls : List LogCall) : Metrics :=
  calls.foldl logCall g

/-- The status codes that have a bucket. -/
def statusCodes : List Int := [200, 400, 403, 404, 405, 500]

/-- The bucket of a status code (`0` for a code without bucket). -/
def Metrics.bucket (g : Metrics) (code : Int) : Nat :=
  if code = 200 then g.g_status_200
  else if code = 400 then g.g_status_400
  else if code = 403 then g.g_status_403
  else if code = 404 then g.g_status_404
  else if code = 405 then g.g_status_405
  else if code = 500 then g.g_status_500
  else 0

/-- The sum of the six buckets. -/
def Metrics.bucketSum (g : Metrics) : Nat :=
  g.g_status_200 + g.g_status_400 + g.g_status_403 + g.g_status_404 + g.g_status_405 +
    g.g_status_500

/-- The number of calls in a sequence that are counted: those whose path is not
the metrics path. -/
def countedCalls (calls : List LogCall) : Nat :=
  (calls.filter (fun c => !decide (c.path = ADMIN_METRICS))).length

/-- The number of counted calls in a sequence that carry the status `code`. -/
def callsWithStatus (calls : List LogCall) (code : Int) : Nat :=
  (calls.filter
    (fun c => !decide (c.path = ADMIN_METRICS) && decide (c.status = code))).length

/-- The globals in which only `total_requests` differs from the start: it has
reached the largest value of `size_t`. -/
def Metrics.totalAtMax : Metrics :=
  { Metrics.init with g_total_requests := SIZE_MOD - 1 }

/-- A logged request for `/x` with the given status and no bytes. -/
def sampleCall (status : Int) : LogCall :=
  { client := "127.0.0.1".toList, path := "/x".toList, status := status, bytes := 0,
    ts := "t".toList }

/-- The two exits of the read loop after a chunk has been appended: the buffer
contains the terminator, or it is longer than 64 KiB. -/
def stopsReading (buf : Str) : Bool :=
  (find CRLFCRLF buf).isSome || decide (64 * 1024 < buf.length)

/-- Eight full chunks of 8192 bytes `a`: 65536 bytes without a terminator. -/
def fullChunks : List Str :=
  List.replicate 8 (List.replicate 8192 'a')

/-! ## `ConnectionGuard` under interleaving

Handlers run on several worker threads.  Each atomic operation of the
constructor and the destructor of `ConnectionGuard` (`server.cpp` lines 99-111)
is one step of one thread. -/

/-- Where a handler stands: before `fetch_add`; after it, holding `curr`; after
the load of the peak with `curr > prev_peak`, about to store `curr`; inside the
guarded scope; after `fetch_sub`. -/
inductive GuardPc where
  | start
  | added (curr : Int)
  | storing (curr : Int)
  | inside
  | done
  deriving DecidableEq

/-- The two atomics `g_active_connections` and `g_peak_connections`, and the
handlers. -/
structure GuardState where
  active : Int
  peak : Int
  threads : List GuardPc
  deriving DecidableEq

/-- The state with `n` handlers that have not started. -/
def GuardState.init (n : Nat) : GuardState :=
  { active := 0, peak := 0, threads := List.replicate n GuardPc.start }

/-- The next atomic operation of handler `i`: `fetch_add` on the active count
(line 102), the load of the peak with the comparison (lines 103-104), the store
to the peak (line 105), `fetch_sub` (line 109).  `none`: no such handler, or it
has finished. -/
def GuardState.step (s : GuardState) (i : Nat) : Option GuardState :=
  match s.threads[i]? with
  | some GuardPc.start =>
    some { s with active := s.active + 1,
                  threads := s.threads.set i (GuardPc.added (s.active + 1)) }
  | some (GuardPc.added curr) =>
    some { s with threads :=
      s.threads.set i (if curr > s.peak then GuardPc.storing curr else GuardPc.inside) }
  | some (GuardPc.storing curr) =>
    some { s with peak := curr, threads := s.threads.set i GuardPc.inside }
  | some GuardPc.inside =>
    some { s with active := s.active - 1, threads := s.threads.set i GuardPc.done }
  | _ => none

/-- A schedule: the handlers that take the successive steps. -/
def GuardState.run (s : GuardState) : List Nat → Option GuardState
  | [] => some s
  | i :: rest => (s.step i).bind (fun t => t.run rest)

/-! ## JSON texts

What the specification calls a well-formed JSON object is read by the grammar of
RFC 8259.  The grammar is no code of the server: it is the measure the text that
`build_metrics_json` returns is held against. -/

/-- A JSON value; a number is kept as its text. -/
inductive Json where
  | null
  | bool (b : Bool)
  | num (text : Str)
  | str (s : Str)
  | arr (items : List Json)
  | obj (members : List (Str × Json))

/-- The outcome of reading a piece of JSON text: the value read and the text
after it, a violation of the grammar, or not enough recursion depth. -/
inductive Parsed (α : Type) where
  | ok (value : α) (rest : Str)
  | malformed
  | outOfFuel

/-- JSON white space: space, tab, line feed, carriage return. -/
def jsonWs (c : Char) : Bool :=
  c = ' ' || c = '\t' || c = '\n' || c = '\r'

/-- The text without its leading white space. -/
def skipWs (s : Str) : Str :=
  s.dropWhile jsonWs

/-- The value of a hexadecimal digit. -/
def hexVal (c : Char) : Option Nat :=
  if 48 ≤ c.toNat ∧ c.toNat ≤ 57 then some (c.toNat - 48)
  else if 97 ≤ c.toNat ∧ c.toNat ≤ 102 then some (c.toNat - 87)
  else if 65 ≤ c.toNat ∧ c.toNat ≤ 70 then some (c.toNat - 55)
  else none

/-- The character a two-character escape stands for. -/
def unescape (c : Char) : Option Char :=
  if c = '"' then some '"'
  else if c = '\\' then some '\\'
  else if c = '/' then some '/'
  else if c = 'b' then some '\x08'
  else if c = 'f' then some '\x0c'
  else if c = 'n' then some '\n'
  else if c = 'r' then some '\r'
  else if c = 't' then some '\t'
  else none

/-- A JSON string after its opening quote: the decoded content and the text after
the closing quote.  A quote ends the string, a backslash starts an escape, and
control characters are not allowed.  A `\u` escape gives the character with that
code; one in the surrogate range, which is no character of its own, gives the
null character. -/
def jsonStringBody : Str → Option (Str × Str)
  | [] => none
  | c :: rest =>
    if c = '"' then some ([], rest)
    else if c = '\\' then
      match rest with
      | 'u' :: a :: b :: x :: d :: rest1 =>
        match hexVal a, hexVal b, hexVal x, hexVal d with
        | some h1, some h2, some h3, some h4 =>
          match jsonStringBody rest1 with
          | some r => some (Char.ofNat (((h1 * 16 + h2) * 16 + h3) * 16 + h4) :: r.1, r.2)
          | none => none
        | _, _, _, _ => none
      | e :: rest1 =>
        match unescape e with
        | some ch =>
          match jsonStringBody rest1 with
          | some r => some (ch :: r.1, r.2)
          | none => none
        | none => none
      | [] => none
    else if c.toNat < 32 then none
    else
      match jsonStringBody rest with
      | some r => some (c :: r.1, r.2)
      | none => none

/-- A non-empty run of decimal digits and the text after it. -/
def jsonDigits (s : Str) : Option (Str × Str) :=
  if s.takeWhile Char.isDigit = [] then none
  else some (s.takeWhile Char.isDigit, s.dropWhile Char.isDigit)

/-- The integer part of a number: a single zero, or digits. -/
def jsonInt : Str → Option (Str × Str)
  | '0' :: rest => some (['0'], rest)
  | s => jsonDigits s

/-- The optional fraction of a number. -/
def jsonFrac : Str → Option (Str × Str)
  | '.' :: rest => (jsonDigits rest).map (fun r => ('.' :: r.1, r.2))
  | s => some ([], s)

/-- The optional exponent of a number. -/
def jsonExp : Str → Option (Str × Str)
  | e :: rest =>
    if e = 'e' ∨ e = 'E' then
      match rest with
      | '+' :: t => (jsonDigits t).map (fun r => (e :: '+' :: r.1, r.2))
      | '-' :: t => (jsonDigits t).map (fun r => (e :: '-' :: r.1, r.2))
      | t => (jsonDigits t).map (fun r => (e :: r.1, r.2))
    else some ([], e :: rest)
  | [] => some ([], [])

/-- A number without its sign. -/
def jsonUnsigned (s : Str) : Option (Str × Str) :=
  match jsonInt s with
  | none => none
  | some (i, r1) =>
    match jsonFrac r1 with
    | none => none
    | some (f, r2) =>
      match jsonExp r2 with
      | none => none
      | some (e, r3) => some (i ++ f ++ e, r3)

/-- A JSON number: its text and the text after it. -/
def jsonNumber : Str → Option (Str × Str)
  | '-' :: rest => (jsonUnsigned rest).map (fun r => ('-' :: r.1, r.2))
  | s => jsonUnsigned s

/-- A JSON value that is not an object or an array: a string, a literal or a
number. -/
def jsonScalar : Str → Parsed Json
  | '"' :: r =>
    match jsonStringBody r with
    | some t => Parsed.ok (Json.str t.1) t.2
    | none => Parsed.malformed
  | 't' :: 'r' :: 'u' :: 'e' :: r => Parsed.ok (Json.bool true) r
  | 'f' :: 'a' :: 'l' :: 's' :: 'e' :: r => Parsed.ok (Json.bool false) r
  | 'n' :: 'u' :: 'l' :: 'l' :: r => Parsed.ok Json.null r
  | s =>
    match jsonNumber s with
    | some t => Parsed.ok (Json.num t.1) t.2
    | none => Parsed.malformed

mutual

/-- A JSON value at the start of the text, with `fuel` bounding the depth of the
recursion. -/
def jsonValue : Nat → Str → Parsed Json
  | 0, _ => Parsed.outOfFuel
  | fuel + 1, s =>
    match skipWs s with
    | '\x7b' :: r =>
      match skipWs r with
      | '\x7d' :: r1 => Parsed.ok (Json.obj []) r1
      | _ =>
        match jsonMembers fuel r with
        | Parsed.ok ms r1 => Parsed.ok (Json.obj ms) r1
        | Parsed.malformed => Parsed.malformed
        | Parsed.outOfFuel => Parsed.outOfFuel
    | '[' :: r =>
      match skipWs r with
      | ']' :: r1 => Parsed.ok (Json.arr []) r1
      | _ =>
        match jsonElements fuel r with
        | Parsed.ok vs r1 => Parsed.ok (Json.arr vs) r1
        | Parsed.malformed => Parsed.malformed
        | Parsed.outOfFuel => Parsed.outOfFuel
    | s1 => jsonScalar s1

/-- The members of a non-empty object after its opening brace, up to its closing
brace. -/
def jsonMembers : Nat → Str → Parsed (List (Str × Json))
  | 0, _ => Parsed.outOfFuel
  | fuel + 1, s =>
    match skipWs s with
    | '"' :: r =>
      match jsonStringBody r with
      | none => Parsed.malformed
      | some k =>
        match skipWs k.2 with
        | ':' :: r2 =>
          match jsonValue fuel r2 with
          | Parsed.ok v r3 =>
            match skipWs r3 with
            | ',' :: r4 =>
              match jsonMembers fuel r4 with
              | Parsed.ok ms r5 => Parsed.ok ((k.1, v) :: ms) r5
              | Parsed.malformed => Parsed.malformed
              | Parsed.outOfFuel => Parsed.outOfFuel
            | '\x7d' :: r4 => Parsed.ok [(k.1, v)] r4
            | _ => Parsed.malformed
          | Parsed.malformed => Parsed.malformed
          | Parsed.outOfFuel => Parsed.outOfFuel
        | _ => Parsed.malformed
    | _ => Parsed.malformed

/-- The elements of a non-empty array after its opening bracket, up to its
closing bracket. -/
def jsonElements : Nat → Str → Parsed (List Json)
  | 0, _ => Parsed.outOfFuel
  | fuel + 1, s =>
    match jsonValue fuel s with
    | Parsed.ok v r1 =>
      match skipWs r1 with
      | ',' :: r2 =>
        match jsonElements fuel r2 with
        | Parsed.ok vs r3 => Parsed.ok (v :: vs) r3
        | Parsed.malformed => Parsed.malformed
        | Parsed.outOfFuel => Parsed.outOfFuel
      | ']' :: r2 => Parsed.ok [v] r2
      | _ => Parsed.malformed
    | Parsed.malformed => Parsed.malformed
    | Parsed.outOfFuel => Parsed.outOfFuel

end

/-- The text is one JSON value, surrounded by white space at most. -/
def WellFormedJson (s : Str) : Prop :=
  ∃ fuel v rest, jsonValue fuel s = Parsed.ok v rest ∧ skipWs rest = []

/-- Reading a whole text with recursion depth bounded by its length. -/
def parseJson (s : Str) : Parsed Json :=
  match jsonValue (s.length + 1) s with
  | Parsed.ok v rest => if skipWs rest = [] then Parsed.ok v [] else Parsed.malformed
  | Parsed.malformed => Parsed.malformed
  | Parsed.outOfFuel => Parsed.outOfFuel

/-- The keys of an object, in order. -/
def Json.keys : Json → List Str
  | Json.obj ms => ms.map (fun m => m.1)
  | _ => []

/-- The value of the first member with key `k`. -/
def Json.field (k : Str) : Json → Option Json
  | Json.obj ms => (ms.find? (fun m => decide (m.1 = k))).map (fun m => m.2)
  | _ => none

/-- The elements of an array. -/
def Json.items : Json → List Json
  | Json.arr vs => vs
  | _ => []

/-- The content of a string value. -/
def Json.text : Json → Option Str
  | Json.str t => some t
  | Json.num t => some t
  | _ => none

/-- The value read, if the text was read as a whole. -/
def Parsed.value {α : Type} : Parsed α → Option α
  | Parsed.ok v _ => some v
  | _ => none

/-- The text violates the grammar. -/
def Parsed.isMalformed {α : Type} : Parsed α → Bool
  | Parsed.malformed => true
  | _ => false

/-- The address the sample connections come from. -/
def LOCALHOST : Str := "127.0.0.1".toList

/-- A connection on which the request `GET <path> HTTP/1.0` arrives in one piece,
with nothing under the document root. -/
def getConnection (path : Str) : ClientIO :=
  ⟨[Recv.data ("GET ".toList ++ path ++ " HTTP/1.0\r\n\r\n".toList)], FileSystem.vacant,
    "2024-01-01 00:00:00".toList, 5⟩

/-- The body sent for `GET /admin/metrics` by a fresh server that has answered
`GET <path>` before. -/
def metricsBodyAfter (path : Str) : Str :=
  ((handle_client
    (handle_client (Server.init "./static".toList) LOCALHOST (getConnection path)).server
    LOCALHOST (getConnection ADMIN_METRICS)).sent.getLast?).getD []

/-- The decoded `path` strings of the objects in the `recent` array of a metrics
document. -/
def recentPaths (doc : Json) : List (Option Str) :=
  (((doc.field "recent".toList).map Json.items).getD []).map
    (fun e => (e.field "path".toList).bind Json.text)

/-- The characters a JSON string may hold unescaped. -/
def jsonPlain (c : Char) : Bool :=
  !(c = '"' || c = '\\' || decide (c.toNat < 32))

/-- The text after a number does not continue it. -/
def numberEnds : Str → Bool
  | [] => true
  | c :: _ => !(c.isDigit || c = '.' || c = 'e' || c = 'E')

/-- The decimal digits. -/
def digitChars : Str := "0123456789".toList

/-- A JSON text together with the value it is meant to stand for. -/
abbrev Doc : Type := Str × Json

/-- A number written with the given text. -/
def numDoc (t : Str) : Doc := (t, Json.num t)

/-- A string written between quotes as it is. -/
def strDoc (s : Str) : Doc := ('"' :: s ++ ['"'], Json.str s)

/-- A member of an object as it is written: the key between quotes, a colon, the
text of the value. -/
def memberText (m : Str × Doc) : Str := '"' :: m.1 ++ '"' :: ':' :: m.2.1

/-- An object written without white space, members separated by commas. -/
def objDoc (ms : List (Str × Doc)) : Doc :=
  ('\x7b' :: [','].intercalate (ms.map memberText) ++ ['\x7d'],
    Json.obj (ms.map (fun m => (m.1, m.2.2))))

/-- An array written without white space, elements separated by commas. -/
def arrDoc (ds : List Doc) : Doc :=
  ('[' :: [','].intercalate (ds.map Prod.fst) ++ [']'], Json.arr (ds.map Prod.snd))

/-- From recursion depth `need` on, the text of `d` is read as the value of `d`,
whatever follows it, as long as that does not continue a number. -/
def Doc.Reads (d : Doc) (need : Nat) : Prop :=
  ∀ m, need ≤ m → ∀ rest, numberEnds rest = true →
    jsonValue m (d.1 ++ rest) = Parsed.ok d.2 rest

/-- The object written for one buffered entry, with the value it is meant to
stand for. -/
def entryDoc (e : RequestLogEntry) : Doc :=
  objDoc [("time".toList, strDoc e.time), ("client".toList, strDoc e.client),
    ("path".toList, strDoc e.path), ("status".toList, numDoc (decimalInt e.status)),
    ("bytes".toList, numDoc (decimal e.bytes))]

/-- The `status_counts` object, with the value it is meant to stand for. -/
def statusCountsDoc (g : Metrics) : Doc :=
  objDoc [("200".toList, numDoc (decimal g.g_status_200)),
    ("400".toList, numDoc (decimal g.g_status_400)),
    ("403".toList, numDoc (decimal g.g_status_403)),
    ("404".toList, numDoc (decimal g.g_status_404)),
    ("405".toList, numDoc (decimal g.g_status_405)),
    ("500".toList, numDoc (decimal g.g_status_500))]

/-- The metrics document, with the value it is meant to stand for: seven members,
the last two an object of six counters and an array with one object per buffered
entry, in the order of the buffer. -/
def metricsDoc (g : Metrics) (uptime : Int) : Doc :=
  objDoc [("total_requests".toList, numDoc (decimal g.g_total_requests)),
    ("uptime_seconds".toList, numDoc (decimalInt (if uptime < 0 then 0 else uptime))),
    ("active_connections".toList, numDoc (decimalInt g.g_active_connections)),
    ("peak_connections".toList, numDoc (decimalInt g.g_peak_connections)),
    ("bytes_sent".toList, numDoc (decimal g.g_bytes_sent)),
    ("status_counts".toList, statusCountsDoc g),
    ("recent".toList, arrDoc (g.g_recent_logs.map entryDoc))]

/-- The strings of a buffered entry hold no quote, backslash or control
character. -/
def PlainEntry (e : RequestLogEntry) : Prop :=
  (∀ c ∈ e.time, jsonPlain c = true) ∧ (∀ c ∈ e.client, jsonPlain c = true) ∧
    (∀ c ∈ e.path, jsonPlain c = true)

/-- The strings of a call of `log_request` hold no quote, backslash or control
character. -/
def PlainCall (c : LogCall) : Prop :=
  PlainEntry c.entry

/-! ## Router: status queries that fail

`Router::serve_file` calls `fs::exists(full)` and `fs::is_directory(full)`, the
overloads without an `error_code` argument.  They throw `filesystem_error` when
the status of the path cannot be queried, and nothing in `router.cpp`,
`server.cpp` or `threadpool.cpp` catches it.  `serve_file` and `handle` above
describe the calls that return; the definitions here add the ones that throw. -/

/-- A file system whose status queries can fail: what is there (`FileSystem`),
and the paths for which `status` reports an error other than "no such file": a
name longer than the file system allows, a directory on the way that may not be
searched, too many symbolic links. -/
structure StatFileSystem extends FileSystem where
  status_error : Str → Bool

/-- `fs::exists(p)`, the throwing overload: `none` stands for the
`filesystem_error` it throws when the status of `p` cannot be queried. -/
def StatFileSystem.fs_exists (fs : StatFileSystem) (p : Str) : Option Bool :=
  if fs.status_error p = true then none else some (fs.exists_ p)

/-- `fs::is_directory(p)`, the throwing overload: `none` stands for the
`filesystem_error` it throws when the status of `p` cannot be queried. -/
def StatFileSystem.fs_is_directory (fs : StatFileSystem) (p : Str) : Option Bool :=
  if fs.status_error p = true then none else some (fs.is_directory p)

/-- How a call of `Router::handle` ends: it returns, or a `filesystem_error`
leaves it after the file-system queries listed; in that case no out-parameter
has been assigned and no cache call has been made. -/
inductive Outcome where
  | returned (res : RouterResult)
  | thrown (fsCalls : List FsCall)

/-- The call has ended with an exception. -/
def Outcome.isThrown : Outcome → Bool
  | Outcome.returned _ => false
  | Outcome.thrown _ => true

/-- The status code of a call that returned. -/
def Outcome.status : Outcome → Option Int
  | Outcome.returned res => some res.status_code
  | Outcome.thrown _ => none

namespace Throwing

/-- `Router::serve_file` (`router.cpp` lines 46-73) with the status queries that
can throw. -/
def serve_file (root_ : Str) (fs : StatFileSystem) (cache_ : LRUCache) (rel_path : Str) :
    Outcome :=
  let full := pathAppend root_ (relative_path rel_path)
  match fs.fs_exists full with
  | none => Outcome.thrown [FsCall.exists_ full]
  | some false =>
    Outcome.returned
      { body := "Not Found\n".toList, status_code := 404,
        content_type := "text/plain".toList, cache := cache_,
        fsCalls := [FsCall.exists_ full], cacheCalls := 0 }
  | some true =>
    match fs.fs_is_directory full with
    | none => Outcome.thrown [FsCall.exists_ full, FsCall.is_directory full]
    | some true =>
      Outcome.returned
        { body := "Not Found\n".toList, status_code := 404,
          content_type := "text/plain".toList, cache := cache_,
          fsCalls := [FsCall.exists_ full, FsCall.is_directory full], cacheCalls := 0 }
    | some false =>
      match cache_.get full with
      | (some data, cache1) =>
        Outcome.returned
          { body := data, status_code := 200, content_type := get_mime_type full,
            cache := cache1, fsCalls := [FsCall.exists_ full, FsCall.is_directory full],
            cacheCalls := 1 }
      | (none, cache1) =>
        match fs.open_read full with
        | none =>
          Outcome.returned
            { body := "Internal Server Error\n".toList, status_code := 500,
              content_type := "text/plain".toList, cache := cache1,
              fsCalls := [FsCall.exists_ full, FsCall.is_directory full,
                FsCall.open_read full],
              cacheCalls := 1 }
        | some data =>
          Outcome.returned
            { body := data, status_code := 200, content_type := get_mime_type full,
              cache := cache1.put full data,
              fsCalls := [FsCall.exists_ full, FsCall.is_directory full,
                FsCall.open_read full],
              cacheCalls := 2 }

/-- `Router::handle` (`router.cpp` lines 25-44) with the status queries that can
throw. -/
def handle (root_ : Str) (fs : StatFileSystem) (cache_ : LRUCache) (req : HttpRequest) :
    Outcome :=
  if req.method ≠ "GET".toList then
    Outcome.returned
      { body := "Method Not Allowed\n".toList, status_code := 405,
        content_type := "text/plain".toList, cache := cache_, fsCalls := [],
        cacheCalls := 0 }
  else
    let rel := lexically_normal (defaultPath req.path)
    if (find DOTDOT rel).isSome then
      Outcome.returned
        { body := "Forbidden\n".toList, status_code := 403,
          content_type := "text/plain".toList, cache := cache_, fsCalls := [],
          cacheCalls := 0 }
    else serve_file root_ fs cache_ rel

end Throwing

/-- The longest file name the file system allows (`NAME_MAX` on Linux). -/
def NAME_MAX : Nat := 255

/-- A file system that holds no file and in which the status of a path with a
name longer than `NAME_MAX` cannot be queried (`ENAMETOOLONG`). -/
def StatFileSystem.vacant : StatFileSystem :=
  { toFileSystem := FileSystem.vacant,
    status_error := fun p => (p.splitOn '/').any (fun name => decide (NAME_MAX < name.length)) }

/-- A request path of one name of 256 letters. -/
def longNamePath : Str := '/' :: List.replicate 256 'a'


/-! # Theorems -/

/-! ## List facts used for the recency order -/

theorem mem_mostRecentDistinct (k : Str) (log : List Str) :
    k ∈ mostRecentDistinct log ↔ k ∈ log := by
  induction log with
  | nil => simp [mostRecentDistinct]
  | cons x xs ih =>
    simp only [mostRecentDistinct, List.mem_cons, List.mem_filter, ih, Bool.not_eq_true',
      decide_eq_false_iff_not]
    constructor
    · rintro (h | ⟨h, _⟩)
      · exact Or.inl h
      · exact Or.inr h
    · intro h
      by_cases hx : k = x
      · exact Or.inl hx
      · rcases h with h | h
        · exact Or.inl h
        · exact Or.inr ⟨h, hx⟩

theorem nodup_mostRecentDistinct (log : List Str) : (mostRecentDistinct log).Nodup := by
  induction log with
  | nil => simp [mostRecentDistinct]
  | cons x xs ih =>
    simp only [mostRecentDistinct, List.nodup_cons, List.mem_filter, Bool.not_eq_true',
      decide_eq_false_iff_not]
    exact ⟨fun h => by simp at h, ih.filter _⟩

theorem filter_ne_of_not_mem (k : Str) (r : List Str) (h : k ∉ r) :
    r.filter (fun x => !decide (x = k)) = r := by
  rw [List.filter_eq_self]
  intro a ha
  simp only [Bool.not_eq_true', decide_eq_false_iff_not]
  rintro rfl
  exact h ha

theorem take_filter_of_mem (k : Str) (r : List Str) (hr : r.Nodup) (n : Nat)
    (h : k ∈ r.take (n + 1)) :
    (r.filter (fun x => !decide (x = k))).take n = (r.take (n + 1)).erase k := by
  induction r generalizing n with
  | nil => simp at h
  | cons x xs ih =>
    rw [List.nodup_cons] at hr
    by_cases hx : x = k
    · subst hx
      simp [List.filter_cons, filter_ne_of_not_mem x xs hr.1]
    · have hk : k ∈ xs.take n := by
        simp only [List.take_succ_cons, List.mem_cons] at h
        rcases h with h | h
        · exact absurd h.symm hx
        · exact h
      cases n with
      | zero => simp at hk
      | succ m =>
        have := ih hr.2 m hk
        simp only [List.filter_cons, hx, decide_False, Bool.not_false, ite_true,
          List.take_succ_cons, this]
        rw [List.erase_cons_tail]
        simpa using hx

theorem take_filter_of_not_mem (k : Str) (r : List Str) (n : Nat) (h : k ∉ r.take n) :
    (r.filter (fun x => !decide (x = k))).take n = r.take n := by
  induction r generalizing n with
  | nil => simp
  | cons x xs ih =>
    cases n with
    | zero => simp
    | succ m =>
      simp only [List.take_succ_cons, List.mem_cons, not_or] at h
      have hx : x ≠ k := fun e => h.1 e.symm
      simp [List.filter_cons, hx, ih m h.2]

namespace LRUCache

/-! ## The cache invariant -/

theorem get_fst (c : LRUCache) (k : Str) : (c.get k).1 = c.map_.lookup k := by
  unfold get
  cases c.map_.lookup k <;> rfl

theorem get_snd_of_mem (c : LRUCache) (k : Str) (h : k ∈ c.map_) :
    (c.get k).2 = { c with order_ := spliceFront c.order_ k } := by
  unfold get
  have := AList.lookup_isSome.mpr h
  cases hl : c.map_.lookup k with
  | none => simp [hl] at this
  | some v => rfl

theorem get_snd_of_not_mem (c : LRUCache) (k : Str) (h : k ∉ c.map_) : (c.get k).2 = c := by
  unfold get
  rw [AList.lookup_eq_none.mpr h]

theorem put_of_mem (c : LRUCache) (k v : Str) (h : k ∈ c.map_) :
    c.put k v =
      { c with map_ := c.map_.replace k v, order_ := spliceFront c.order_ k } := by
  unfold put
  have := AList.lookup_isSome.mpr h
  cases hl : c.map_.lookup k with
  | none => simp [hl] at this
  | some v => rfl

theorem put_of_not_mem (c : LRUCache) (k v : Str) (h : k ∉ c.map_) :
    c.put k v =
      { evictIfFull c with
        order_ := k :: (evictIfFull c).order_, map_ := (evictIfFull c).map_.insert k v } := by
  unfold put
  rw [AList.lookup_eq_none.mpr h]

theorem length_entries_eq_length_keys (m : AList (fun _ : Str => Str)) :
    m.entries.length = m.keys.length := by
  simp [AList.keys, List.keys]

theorem Inv.keys_perm {c : LRUCache} (h : c.Inv) : c.map_.keys.Perm c.order_ :=
  (List.perm_ext_iff_of_nodup c.map_.keys_nodup h.2.1).mpr
    (fun k => by rw [← AList.mem_keys]; exact h.2.2 k)

theorem Inv.length_eq {c : LRUCache} (h : c.Inv) : c.map_.entries.length = c.order_.length := by
  rw [length_entries_eq_length_keys]
  exact h.keys_perm.length_eq

theorem inv_init (N : Nat) : (init N).Inv := by
  refine ⟨by simp [init], by simp [init], fun k => ?_⟩
  simp [init]

theorem nodup_spliceFront {l : List Str} (h : l.Nodup) (k : Str) : (spliceFront l k).Nodup := by
  unfold spliceFront
  rw [List.nodup_cons]
  exact ⟨fun hk => by simpa using (h.mem_erase_iff.mp hk).1, h.erase k⟩

theorem mem_spliceFront {l : List Str} (h : l.Nodup) {k : Str} (hk : k ∈ l) (x : Str) :
    x ∈ spliceFront l k ↔ x ∈ l := by
  unfold spliceFront
  rw [List.mem_cons, h.mem_erase_iff]
  constructor
  · rintro (rfl | ⟨_, hx⟩)
    · exact hk
    · exact hx
  · intro hx
    by_cases e : x = k
    · exact Or.inl e
    · exact Or.inr ⟨e, hx⟩

theorem inv_get {c : LRUCache} (h : c.Inv) (k : Str) : (c.get k).2.Inv := by
  by_cases hk : k ∈ c.map_
  · rw [get_snd_of_mem c k hk]
    have hko : k ∈ c.order_ := (h.2.2 k).mp hk
    exact ⟨h.1, nodup_spliceFront h.2.1 k,
      fun x => by rw [mem_spliceFront h.2.1 hko]; exact h.2.2 x⟩
  · rw [get_snd_of_not_mem c k hk]
    exact h

/-- After the eviction block the index has room for one more entry. -/
theorem evictIfFull_spec {c : LRUCache} (h : c.Inv) (hN : 1 ≤ c.capacity_) :
    (evictIfFull c).capacity_ = c.capacity_ ∧
    (evictIfFull c).map_.entries.length < c.capacity_ ∧
    (evictIfFull c).order_.Nodup ∧
    (∀ k, k ∈ (evictIfFull c).map_ ↔ k ∈ (evictIfFull c).order_) ∧
    (evictIfFull c).order_ =
      if c.capacity_ ≤ c.map_.entries.length then c.order_.dropLast else c.order_ := by
  unfold evictIfFull
  by_cases hfull : c.capacity_ ≤ c.map_.entries.length
  · rw [if_pos hfull, if_pos hfull]
    have hlen := h.length_eq
    cases hlast : c.order_.getLast? with
    | none =>
      exfalso
      rw [List.getLast?_eq_none_iff] at hlast
      rw [hlast, List.length_nil] at hlen
      omega
    | some last =>
      have hsplit : c.order_.dropLast ++ [last] = c.order_ :=
        List.dropLast_append_getLast? last hlast
      have hnd : (c.order_.dropLast ++ [last]).Nodup := by rw [hsplit]; exact h.2.1
      have hlastmem : last ∈ c.order_ := by rw [← hsplit]; simp
      have hlastkeys : last ∈ c.map_.keys := AList.mem_keys.mp ((h.2.2 last).mpr hlastmem)
      refine ⟨rfl, ?_, ?_, ?_, rfl⟩
      · show (c.map_.erase last).entries.length < c.capacity_
        have hle := @List.length_erase_of_mem Str instBEqOfDecidableEq inferInstance last
          c.map_.keys hlastkeys
        rw [length_entries_eq_length_keys, AList.keys_erase, hle,
          ← length_entries_eq_length_keys]
        have := h.1
        omega
      · exact (List.nodup_append.mp hnd).1
      · intro k
        show k ∈ c.map_.erase last ↔ k ∈ c.order_.dropLast
        rw [AList.mem_erase, h.2.2 k]
        constructor
        · rintro ⟨hne, hk⟩
          rw [← hsplit] at hk
          simpa [hne] using hk
        · intro hk
          refine ⟨?_, by rw [← hsplit]; simp [hk]⟩
          rintro rfl
          exact (List.nodup_append.mp hnd).2.2 hk (by simp)
  · rw [if_neg hfull, if_neg hfull]
    exact ⟨rfl, by omega, h.2.1, h.2.2, rfl⟩

theorem inv_put {c : LRUCache} (h : c.Inv) (hN : 1 ≤ c.capacity_) (k v : Str) :
    (c.put k v).Inv := by
  by_cases hk : k ∈ c.map_
  · rw [put_of_mem c k v hk]
    have hko : k ∈ c.order_ := (h.2.2 k).mp hk
    refine ⟨?_, nodup_spliceFront h.2.1 k, fun x => ?_⟩
    · show (c.map_.replace k v).entries.length ≤ c.capacity_
      rw [length_entries_eq_length_keys, AList.keys_replace, ← length_entries_eq_length_keys]
      exact h.1
    · show x ∈ c.map_.replace k v ↔ x ∈ spliceFront c.order_ k
      rw [AList.mem_replace, mem_spliceFront h.2.1 hko]
      exact h.2.2 x
  · rw [put_of_not_mem c k v hk]
    obtain ⟨hcap, hlt, hnd, hmem, hord⟩ := evictIfFull_spec h hN
    have hk1 : k ∉ (evictIfFull c).map_ := by
      unfold evictIfFull
      split
      · split
        · intro hc
          exact hk (AList.mem_erase.mp hc).2
        · exact hk
      · exact hk
    refine ⟨?_, ?_, fun x => ?_⟩
    · show ((evictIfFull c).map_.insert k v).entries.length ≤ (evictIfFull c).capacity_
      rw [AList.insert_entries_of_neg hk1, hcap]
      simp only [List.length_cons]
      omega
    · show (k :: (evictIfFull c).order_).Nodup
      rw [List.nodup_cons]
      exact ⟨fun hc => hk1 ((hmem k).mpr hc), hnd⟩
    · show x ∈ (evictIfFull c).map_.insert k v ↔ x ∈ k :: (evictIfFull c).order_
      rw [AList.mem_insert, List.mem_cons, hmem x]

theorem put_capacity (c : LRUCache) (k v : Str) : (c.put k v).capacity_ = c.capacity_ := by
  unfold put
  cases c.map_.lookup k with
  | some _ => rfl
  | none =>
    show (evictIfFull c).capacity_ = c.capacity_
    unfold evictIfFull
    split
    · split <;> rfl
    · rfl

theorem get_capacity (c : LRUCache) (k : Str) : (c.get k).2.capacity_ = c.capacity_ := by
  unfold get
  cases c.map_.lookup k <;> rfl

theorem lookup_replace_self (m : AList (fun _ : Str => Str)) (k v : Str) (h : k ∈ m) :
    (m.replace k v).lookup k = some v := by
  obtain ⟨l, hl⟩ := m
  have hk : k ∈ l.keys := h
  show List.dlookup k (List.kreplace k v l) = some v
  clear h hl
  induction l with
  | nil => simp at hk
  | cons hd tl ih =>
    obtain ⟨a, b⟩ := hd
    by_cases e : k = a
    · subst e
      simp [List.kreplace, List.lookmap_cons_some]
    · have hk2 : k ∈ tl.keys := by
        simp only [List.keys_cons, List.mem_cons] at hk
        rcases hk with hk | hk
        · exact absurd hk e
        · exact hk
      have : List.kreplace k v (⟨a, b⟩ :: tl) = ⟨a, b⟩ :: List.kreplace k v tl := by
        simp [List.kreplace, List.lookmap_cons_none, e]
      rw [this, List.dlookup_cons_ne _ _ e]
      exact ih hk2

theorem good_init (N : Nat) : Good N (init N, []) :=
  ⟨rfl, inv_init N, by simp [init, mostRecentDistinct]⟩

theorem order_after_touch {N : Nat} (hN : 1 ≤ N) (log : List Str) (k : Str)
    (hk : k ∈ (mostRecentDistinct log).take N) :
    spliceFront ((mostRecentDistinct log).take N) k =
      (mostRecentDistinct (k :: log)).take N := by
  obtain ⟨n, rfl⟩ : ∃ n, N = n + 1 := ⟨N - 1, by omega⟩
  unfold spliceFront
  simp only [mostRecentDistinct, List.take_succ_cons]
  rw [take_filter_of_mem k _ (nodup_mostRecentDistinct log) n hk]

theorem good_step {N : Nat} (hN : 1 ≤ N) {s : LRUCache × List Str} (h : Good N s)
    (op : CacheOp) : Good N (stepLogged s op) := by
  obtain ⟨c, log⟩ := s
  obtain ⟨hcap, hinv, hord⟩ := h
  simp only at hcap hinv hord
  have hcapN : 1 ≤ c.capacity_ := by omega
  cases op with
  | get k =>
    refine ⟨by simp [stepLogged, apply, get_capacity, hcap], inv_get hinv k, ?_⟩
    by_cases hk : k ∈ c.map_
    · have hsome : (c.get k).1.isSome = true := by
        rw [get_fst]; exact AList.lookup_isSome.mpr hk
      have hko : k ∈ (mostRecentDistinct log).take N := by
        rw [← hord]; exact (hinv.2.2 k).mp hk
      simp only [stepLogged, apply, touches, hsome, if_true, List.singleton_append]
      rw [get_snd_of_mem c k hk]
      show spliceFront c.order_ k = _
      rw [hord]
      exact order_after_touch hN log k hko
    · have hnone : (c.get k).1.isSome = false := by
        rw [get_fst, AList.lookup_eq_none.mpr hk]; rfl
      simp only [stepLogged, apply, touches, hnone, List.nil_append]
      rw [get_snd_of_not_mem c k hk]
      simpa using hord
  | put k v =>
    refine ⟨by simp [stepLogged, apply, put_capacity, hcap], inv_put hinv hcapN k v, ?_⟩
    simp only [stepLogged, apply, touches, List.singleton_append]
    by_cases hk : k ∈ c.map_
    · have hko : k ∈ (mostRecentDistinct log).take N := by
        rw [← hord]; exact (hinv.2.2 k).mp hk
      rw [put_of_mem c k v hk]
      show spliceFront c.order_ k = _
      rw [hord]
      exact order_after_touch hN log k hko
    · rw [put_of_not_mem c k v hk]
      show k :: (evictIfFull c).order_ = _
      obtain ⟨_, _, _, _, hev⟩ := evictIfFull_spec hinv hcapN
      rw [hev]
      have hko : k ∉ (mostRecentDistinct log).take N := by
        rw [← hord]; exact fun hc => hk ((hinv.2.2 k).mpr hc)
      have hlen := hinv.length_eq
      obtain ⟨n, rfl⟩ : ∃ n, N = n + 1 := ⟨N - 1, by omega⟩
      simp only [mostRecentDistinct, List.take_succ_cons]
      congr 1
      have hkn : k ∉ (mostRecentDistinct log).take n := fun hc =>
        hko (List.mem_of_mem_take (by
          have : (mostRecentDistinct log).take n =
              ((mostRecentDistinct log).take (n + 1)).take n := by
            rw [List.take_take]; simp
          rw [this] at hc; exact hc))
      rw [take_filter_of_not_mem k _ n hkn]
      by_cases hfull : c.capacity_ ≤ c.map_.entries.length
      · rw [if_pos hfull, hord, List.dropLast_eq_take, List.take_take]
        rw [hlen, hord, List.length_take] at hfull
        rw [List.length_take]
        congr 1
        omega
      · rw [if_neg hfull, hord]
        rw [hlen, hord, List.length_take] at hfull
        rw [List.take_of_length_le (by omega), List.take_of_length_le (by omega)]

theorem good_runLogged {N : Nat} (hN : 1 ≤ N) (ops : List CacheOp) : Good N (runLogged N ops) := by
  unfold runLogged
  have key : ∀ (ops : List CacheOp) (s : LRUCache × List Str), Good N s →
      Good N (ops.foldl stepLogged s) := by
    intro ops
    induction ops with
    | nil => intro s hs; exact hs
    | cons op rest ih => intro s hs; exact ih _ (good_step hN hs op)
  exact key ops _ (good_init N)

theorem resident_iff (c : LRUCache) (k : Str) : (c.get k).1.isSome = true ↔ k ∈ c.map_ := by
  rw [get_fst]; exact AList.lookup_isSome

/-- C1. For every capacity `N ≥ 1` and every sequence of `put`/`get` operations on
an initially empty cache: the recency list is, in order, the `N` most recently
touched distinct keys (a touch being a `put` or a hitting `get`); a `get` hits
exactly on those keys; when at most `N` distinct keys were touched, it hits on
every touched key; and a `put` of a non-resident key into a full cache makes that
key resident and removes exactly the least recently touched resident key. -/
theorem lru_resident_keys (N : Nat) (hN : 1 ≤ N) (ops : List CacheOp) :
    (runLogged N ops).1.order_ = (mostRecentDistinct (runLogged N ops).2).take N ∧
    (∀ k, ((runLogged N ops).1.get k).1.isSome = true ↔
      k ∈ (mostRecentDistinct (runLogged N ops).2).take N) ∧
    ((mostRecentDistinct (runLogged N ops).2).length ≤ N →
      ∀ k, ((runLogged N ops).1.get k).1.isSome = true ↔ k ∈ (runLogged N ops).2) ∧
    (∀ k v, ((runLogged N ops).1.get k).1 = none →
      (runLogged N ops).1.map_.entries.length = N →
      ∃ lru, ((mostRecentDistinct (runLogged N ops).2).take N).getLast? = some lru ∧
        ∀ k', (((runLogged N ops).1.put k v).get k').1.isSome = true ↔
          (k' = k ∨ (((runLogged N ops).1.get k').1.isSome = true ∧ k' ≠ lru))) := by
  obtain ⟨hcap, hinv, hord⟩ := good_runLogged hN ops
  generalize runLogged N ops = s at hcap hinv hord
  obtain ⟨c, log⟩ := s
  simp only at hcap hinv hord ⊢
  have hres : ∀ k, (c.get k).1.isSome = true ↔ k ∈ (mostRecentDistinct log).take N := by
    intro k
    rw [resident_iff, hinv.2.2 k, hord]
  refine ⟨hord, hres, ?_, ?_⟩
  · intro hlen k
    rw [hres k, List.take_of_length_le hlen, mem_mostRecentDistinct]
  · intro k v hmiss hfull
    have hk : k ∉ c.map_ := by
      rw [get_fst] at hmiss
      exact AList.lookup_eq_none.mp hmiss
    have hcapN : 1 ≤ c.capacity_ := by omega
    have hlen := hinv.length_eq
    cases hlast : c.order_.getLast? with
    | none =>
      exfalso
      rw [List.getLast?_eq_none_iff] at hlast
      rw [hlast, List.length_nil] at hlen
      omega
    | some lru =>
      refine ⟨lru, by rw [← hord]; exact hlast, fun k' => ?_⟩
      have hsplit : c.order_.dropLast ++ [lru] = c.order_ :=
        List.dropLast_append_getLast? lru hlast
      have hnd : (c.order_.dropLast ++ [lru]).Nodup := by rw [hsplit]; exact hinv.2.1
      have hev : evictIfFull c =
          { c with map_ := c.map_.erase lru, order_ := c.order_.dropLast } := by
        unfold evictIfFull
        rw [if_pos (by omega), hlast]
      rw [resident_iff, resident_iff, put_of_not_mem c k v hk, hev]
      show k' ∈ (c.map_.erase lru).insert k v ↔ _
      rw [AList.mem_insert, AList.mem_erase]
      constructor
      · rintro (h | ⟨h1, h2⟩)
        · exact Or.inl h
        · exact Or.inr ⟨h2, h1⟩
      · rintro (h | ⟨h1, h2⟩)
        · exact Or.inl h
        · exact Or.inr ⟨h2, h1⟩

/-- A witness of `lru_resident_keys`: capacity 2 and the operations
`put a`, `put b`, `get a`, `put c`. -/
theorem lru_resident_keys_witness :
    (runLogged 2 [.put ['a'] ['1'], .put ['b'] ['2'], .get ['a'], .put ['c'] ['3']]).1.order_
      = [['c'], ['a']] :=
  ((lru_resident_keys 2 (by decide)
    [.put ['a'] ['1'], .put ['b'] ['2'], .get ['a'], .put ['c'] ['3']]).1).trans (by decide)

theorem reachable_good {N : Nat} (hN : 1 ≤ N) {c : LRUCache} (h : Reachable N c) :
    c.capacity_ = N ∧ c.Inv := by
  obtain ⟨ops, rfl⟩ := h
  exact ⟨(good_runLogged hN ops).1, (good_runLogged hN ops).2.1⟩

/-- C2. For every capacity `N ≥ 1`, every cache state reachable from the empty
cache, every key `k` and value `v`: `put(k, v)` immediately followed by `get(k)`
hits and returns exactly `v`. -/
theorem put_then_get (N : Nat) (hN : 1 ≤ N) (c : LRUCache) (hc : Reachable N c)
    (k v : Str) : ((c.put k v).get k).1 = some v := by
  have _hgood := reachable_good hN hc
  rw [get_fst]
  by_cases hk : k ∈ c.map_
  · rw [put_of_mem c k v hk]
    exact lookup_replace_self c.map_ k v hk
  · rw [put_of_not_mem c k v hk]
    exact AList.lookup_insert _

/-- A witness of `put_then_get`: a full cache of capacity 1. -/
theorem put_then_get_witness :
    1 ≤ 1 ∧ Reachable 1 (runLogged 1 [.put ['a'] ['1']]).1 ∧
      (((runLogged 1 [.put ['a'] ['1']]).1.put ['b'] ['2']).get ['b']).1 = some ['2'] :=
  ⟨by decide, ⟨_, rfl⟩, put_then_get 1 (by decide) _ ⟨_, rfl⟩ ['b'] ['2']⟩

/-- C3. For every capacity `N ≥ 1` the invariant (at most `N` index entries, no
duplicate in the recency list, same keys in index and recency list) holds for the
empty cache and is preserved by every `get` and every `put`; under it the index
and the recency list have the same size. -/
theorem cache_invariant (N : Nat) (hN : 1 ≤ N) :
    (init N).capacity_ = N ∧ (init N).Inv ∧
    ∀ c : LRUCache, c.capacity_ = N → c.Inv →
      c.map_.entries.length = c.order_.length ∧
      (∀ k, (c.get k).2.capacity_ = N ∧ (c.get k).2.Inv) ∧
      (∀ k v, (c.put k v).capacity_ = N ∧ (c.put k v).Inv) := by
  refine ⟨rfl, inv_init N, fun c hcap hinv => ⟨hinv.length_eq, fun k => ?_, fun k v => ?_⟩⟩
  · exact ⟨by rw [get_capacity, hcap], inv_get hinv k⟩
  · exact ⟨by rw [put_capacity, hcap], inv_put hinv (by omega) k v⟩

/-- A witness of `cache_invariant` at capacity 1. -/
theorem cache_invariant_witness : 1 ≤ 1 ∧ (init 1).Inv :=
  ⟨by decide, (cache_invariant 1 (by decide)).2.1⟩

end LRUCache

/-! ## The request parser -/

theorem splitOnP_isspace_shape (s : Str) :
    ∃ t, s.splitOnP isspace = s.takeWhile (fun c => !isspace c) :: t ∧
      t.filter (fun t => !t.isEmpty) = tokens (s.dropWhile (fun c => !isspace c)) := by
  induction s with
  | nil => exact ⟨[], by simp, by simp [tokens]⟩
  | cons x xs ih =>
    obtain ⟨t, ht, hf⟩ := ih
    rw [List.splitOnP_cons]
    by_cases hx : isspace x = true
    · refine ⟨xs.splitOnP isspace, by simp [hx], ?_⟩
      simp [hx, tokens, List.splitOnP_cons]
    · simp only [Bool.not_eq_true] at hx
      exact ⟨t, by simp [hx, ht], by simpa [hx] using hf⟩

theorem tokens_eq (s : Str) :
    tokens s =
      if s.takeWhile (fun c => !isspace c) = [] then
        tokens (s.dropWhile (fun c => !isspace c))
      else s.takeWhile (fun c => !isspace c) :: tokens (s.dropWhile (fun c => !isspace c)) := by
  obtain ⟨t, ht, hf⟩ := splitOnP_isspace_shape s
  unfold tokens at hf ⊢
  rw [ht, List.filter_cons]
  by_cases he : s.takeWhile (fun c => !isspace c) = []
  · simp [he, hf]
  · have : (List.takeWhile (fun c => !isspace c) s).isEmpty = false := by
      cases h : List.takeWhile (fun c => !isspace c) s with
      | nil => exact absurd h he
      | cons _ _ => rfl
    simp [he, this, hf]

theorem tokens_dropWhile_isspace (s : Str) : tokens (s.dropWhile isspace) = tokens s := by
  induction s with
  | nil => rfl
  | cons x xs ih =>
    by_cases hx : isspace x = true
    · rw [List.dropWhile_cons_of_pos hx, ih]
      simp [tokens, List.splitOnP_cons, hx]
    · rw [List.dropWhile_cons_of_neg hx]

theorem extract_eq_none_iff (s : Str) : extract s = none ↔ tokens s = [] := by
  unfold extract
  rw [← tokens_dropWhile_isspace s]
  cases h : s.dropWhile isspace with
  | nil => simp [tokens]
  | cons c cs =>
    have hc : isspace c = false := by
      have := List.head_dropWhile_not isspace s (by rw [h]; simp)
      simpa [h] using this
    rw [tokens_eq]
    simp [hc]

theorem tokens_of_extract {s t r : Str} (h : extract s = some (t, r)) :
    tokens s = t :: tokens r := by
  unfold extract at h
  rw [← tokens_dropWhile_isspace s]
  cases hd : s.dropWhile isspace with
  | nil => simp [hd] at h
  | cons c cs =>
    have hc : isspace c = false := by
      have := List.head_dropWhile_not isspace s (by rw [hd]; simp)
      simpa [hd] using this
    simp only [hd, if_neg (List.cons_ne_nil c cs), Option.some.injEq, Prod.mk.injEq] at h
    rw [tokens_eq, ← h.1, ← h.2]
    simp [hc]

/-- Three extractions in a row succeed exactly when there are three tokens. -/
theorem three_extracts_iff (line : Str) :
    (∃ m s1 p s2 v s3, extract line = some (m, s1) ∧ extract s1 = some (p, s2) ∧
      extract s2 = some (v, s3)) ↔ 3 ≤ (tokens line).length := by
  constructor
  · rintro ⟨m, s1, p, s2, v, s3, h1, h2, h3⟩
    rw [tokens_of_extract h1, tokens_of_extract h2, tokens_of_extract h3]
    simp
  · intro h
    cases h1 : extract line with
    | none => rw [(extract_eq_none_iff line).mp h1] at h; simp at h
    | some r1 =>
      obtain ⟨m, s1⟩ := r1
      rw [tokens_of_extract h1] at h
      cases h2 : extract s1 with
      | none => rw [(extract_eq_none_iff s1).mp h2] at h; simp at h
      | some r2 =>
        obtain ⟨p, s2⟩ := r2
        rw [tokens_of_extract h2] at h
        cases h3 : extract s2 with
        | none => rw [(extract_eq_none_iff s2).mp h3] at h; simp at h
        | some r3 =>
          obtain ⟨v, s3⟩ := r3
          exact ⟨m, s1, p, s2, v, s3, rfl, h2, h3⟩

/-- The pieces between `\n` are the `getline` results, up to a final empty piece. -/
theorem splitOn_newline (s : Str) :
    s.splitOn '\n' = getlines s ++ [[]] ∨
      (s.splitOn '\n' = getlines s ∧ getlines s ≠ []) := by
  induction s with
  | nil => left; simp [getlines, List.splitOn]
  | cons c cs ih =>
    unfold List.splitOn at ih ⊢
    rw [List.splitOnP_cons]
    by_cases hc : c = '\n'
    · subst hc
      rcases ih with ih | ih
      · left; simp [getlines, ih]
      · right; simp [getlines, ih.1]
    · have hb : (c == '\n') = false := by simpa using hc
      rw [hb]
      simp only [Bool.false_eq_true, if_false]
      cases hg : getlines cs with
      | nil =>
        rcases ih with ih | ih
        · right; simp [getlines, hc, hg, ih]
        · exact absurd hg ih.2
      | cons l ls =>
        rcases ih with ih | ih
        · left; simp [getlines, hc, hg, ih]
        · right; simp [getlines, hc, hg, ih.1]

theorem getlines_eq_nil_iff (s : Str) : getlines s = [] ↔ s = [] := by
  cases s with
  | nil => simp [getlines]
  | cons c cs =>
    simp only [getlines]
    split
    · simp
    · split <;> simp

theorem firstLine_eq (block : Str) :
    firstLine block = popCR ((getlines block).headD []) := by
  unfold firstLine specLines
  rcases splitOn_newline block with h | h
  · rw [h]
    cases hg : getlines block with
    | nil => simp
    | cons l ls => simp
  · rw [h.1]
    cases hg : getlines block with
    | nil => exact absurd hg h.2
    | cons l ls => simp

theorem parse_isSome_iff (raw : Str) (out : HttpRequest) (block : Str)
    (hb : headerBlock raw = some block) :
    (parse_http_request raw out).isSome = true ↔
      ∃ m s1 p s2 v s3, extract (firstLine block) = some (m, s1) ∧
        extract s1 = some (p, s2) ∧ extract s2 = some (v, s3) := by
  unfold headerBlock at hb
  unfold parse_http_request
  cases hf : find CRLFCRLF raw with
  | none => rw [hf] at hb; exact absurd hb (by simp)
  | some n =>
    rw [hf, Option.map_some', Option.some.injEq] at hb
    subst hb
    rw [firstLine_eq]
    simp only
    cases hg : getlines (List.take n raw) with
    | nil =>
      simp only [List.headD_nil, Option.isSome_none, Bool.false_eq_true, false_iff]
      rintro ⟨m, s1, p, s2, v, s3, h1, _, _⟩
      simp [popCR, extract] at h1
    | cons line rest =>
      simp only [List.headD_cons]
      cases h1 : extract (popCR line) with
      | none => simp
      | some r1 =>
        obtain ⟨m, s1⟩ := r1
        cases h2 : extract s1 with
        | none => simp [h2]
        | some r2 =>
          obtain ⟨p, s2⟩ := r2
          cases h3 : extract s2 with
          | none => simp [h2, h3]
          | some r3 =>
            obtain ⟨v, s3⟩ := r3
            exact ⟨fun _ => ⟨m, s1, p, s2, v, s3, rfl, h2, h3⟩, fun _ => by simp [h2, h3]⟩

/-- C8, as the code has it. For every raw buffer that contains the terminator
`\r\n\r\n`, `parse_http_request` succeeds if and only if the first line of the
header block tokenizes on white space into at least three tokens: fewer than
three tokens make the parse fail, tokens after the third are ignored. -/
theorem parse_succeeds_iff_three_tokens (raw : Str) (out : HttpRequest) (block : Str)
    (hb : headerBlock raw = some block) :
    ((parse_http_request raw out).isSome = true ↔ 3 ≤ (tokens (firstLine block)).length) ∧
    ((tokens (firstLine block)).length < 3 → parse_http_request raw out = none) ∧
    (3 < (tokens (firstLine block)).length → (parse_http_request raw out).isSome = true) := by
  have key : (parse_http_request raw out).isSome = true ↔
      3 ≤ (tokens (firstLine block)).length := by
    rw [parse_isSome_iff raw out block hb, three_extracts_iff]
  refine ⟨key, fun h => ?_, fun h => key.mpr (by omega)⟩
  cases hp : parse_http_request raw out with
  | none => rfl
  | some r =>
    have := key.mp (by rw [hp]; rfl)
    omega

/-- A witness of `parse_succeeds_iff_three_tokens`: the request `GET / HTTP/1.0`. -/
theorem parse_succeeds_iff_three_tokens_witness :
    headerBlock "GET / HTTP/1.0\r\n\r\n".toList = some "GET / HTTP/1.0".toList ∧
    (parse_http_request "GET / HTTP/1.0\r\n\r\n".toList HttpRequest.empty).isSome = true :=
  ⟨by decide,
   (parse_succeeds_iff_three_tokens "GET / HTTP/1.0\r\n\r\n".toList HttpRequest.empty
      "GET / HTTP/1.0".toList (by decide)).1.mpr (by decide)⟩

/-- C8 fails as stated: the first line `GET / HTTP/1.0 extra` has four tokens, and
the parse succeeds, with method `GET`, path `/` and version `HTTP/1.0`. -/
theorem parse_four_tokens_succeeds :
    headerBlock "GET / HTTP/1.0 extra\r\n\r\n".toList = some "GET / HTTP/1.0 extra".toList ∧
    (tokens (firstLine "GET / HTTP/1.0 extra".toList)).length = 4 ∧
    (parse_http_request "GET / HTTP/1.0 extra\r\n\r\n".toList HttpRequest.empty).map
      (fun r => (r.method, r.path, r.version)) =
      some ("GET".toList, "/".toList, "HTTP/1.0".toList) ∧
    ¬ ((parse_http_request "GET / HTTP/1.0 extra\r\n\r\n".toList HttpRequest.empty).isSome = true
        ↔ (tokens (firstLine "GET / HTTP/1.0 extra".toList)).length = 3) := by
  decide

/-! ### Header lines -/

theorem findChar_none_iff (l : Str) : findChar ':' l = none ↔ ':' ∉ l := by
  induction l with
  | nil => simp [findChar]
  | cons c cs ih =>
    by_cases hc : c = ':'
    · simp [findChar, hc]
    · have hc2 : ¬ ':' = c := fun e => hc e.symm
      simp [findChar, hc, hc2, ih]

theorem findChar_some {l : Str} {pos : Nat} (h : findChar ':' l = some pos) :
    l.take pos = l.takeWhile (fun c => !decide (c = ':')) ∧
    l.drop (pos + 1) = (l.dropWhile (fun c => !decide (c = ':'))).tail := by
  induction l generalizing pos with
  | nil => simp [findChar] at h
  | cons c cs ih =>
    by_cases hc : c = ':'
    · simp only [findChar, hc, if_true, Option.some.injEq] at h
      subst h
      simp [hc]
    · simp only [findChar, hc, if_false, Option.map_eq_some'] at h
      obtain ⟨q, hq, rfl⟩ := h
      obtain ⟨h1, h2⟩ := ih hq
      simp [hc, h1, h2]

theorem splitHeader_of_findChar_none {l : Str} (h : findChar ':' l = none) :
    splitHeader l = none := by
  unfold splitHeader
  rw [if_neg ((findChar_none_iff l).mp h)]

theorem splitHeader_of_findChar_some {l : Str} {pos : Nat} (h : findChar ':' l = some pos) :
    splitHeader l = some (l.take pos, l.drop (pos + 1)) := by
  unfold splitHeader
  have hm : ':' ∈ l := by
    by_contra hn
    rw [(findChar_none_iff l).mpr hn] at h
    exact absurd h (by simp)
  rw [if_pos hm, (findChar_some h).1, (findChar_some h).2]

theorem headerLoop_eq (ls : List Str) (init : AList (fun _ : Str => Str)) :
    headerLoop ls init =
      specHeaders init ((ls.map popCR).takeWhile (fun l => !l.isEmpty)) := by
  induction ls generalizing init with
  | nil => rfl
  | cons l rest ih =>
    unfold headerLoop
    by_cases he : popCR l = []
    · simp [he, specHeaders, headerEntries]
    · have hne : (popCR l).isEmpty = false := by
        cases h : popCR l with
        | nil => exact absurd h he
        | cons _ _ => rfl
      rw [if_neg he, List.map_cons, List.takeWhile_cons_of_pos (by simp [hne])]
      cases hf : findChar ':' (popCR l) with
      | none =>
        simp only
        rw [ih]
        simp [specHeaders, headerEntries, splitHeader_of_findChar_none hf]
      | some pos =>
        simp only
        rw [ih]
        simp [specHeaders, headerEntries, splitHeader_of_findChar_some hf]

theorem takeWhile_append_stop {α : Type} (p : α → Bool) (xs : List α) (a : α)
    (ha : p a = false) : (xs ++ [a]).takeWhile p = xs.takeWhile p := by
  induction xs with
  | nil => simp [ha]
  | cons x xs ih =>
    by_cases hx : p x = true
    · simp [hx, ih]
    · simp [hx]

theorem headerLines_eq (block : Str) :
    headerLines block =
      ((getlines block).tail.map popCR).takeWhile (fun l => !l.isEmpty) := by
  unfold headerLines specLines
  rcases splitOn_newline block with h | h
  · rw [h]
    cases hg : getlines block with
    | nil => simp [popCR]
    | cons l ls =>
      have : popCR [] = [] := by simp [popCR]
      simp only [List.cons_append, List.map_cons, List.tail_cons, List.map_append,
        List.map_nil, this]
      exact takeWhile_append_stop _ _ _ rfl
  · rw [h.1]
    simp

/-! ### Normal form of header names and values -/

theorem tolower_not_upper (c : Char) : ¬ (65 ≤ (tolower c).toNat ∧ (tolower c).toNat ≤ 90) := by
  unfold tolower
  split
  · rename_i h
    have : (Char.ofNat (c.toNat + 32)).toNat = c.toNat + 32 := by
      obtain ⟨h1, h2⟩ := h
      generalize c.toNat = n at h1 h2
      interval_cases n <;> rfl
    omega
  · assumption

theorem isspace_tolower (c : Char) : isspace (tolower c) = isspace c := by
  unfold tolower
  split
  · rename_i h
    have h1 : isspace (Char.ofNat (c.toNat + 32)) = false := by
      obtain ⟨h1, h2⟩ := h
      generalize c.toNat = n at h1 h2
      interval_cases n <;> rfl
    have h2 : isspace c = false := by
      have hs : ∀ d : Char, isspace d = true →
          d.toNat = 32 ∨ d.toNat = 9 ∨ d.toNat = 10 ∨ d.toNat = 11 ∨ d.toNat = 12 ∨
            d.toNat = 13 := by
        intro d hd
        simp only [isspace, Bool.or_eq_true, decide_eq_true_eq] at hd
        rcases hd with ((((hd | hd) | hd) | hd) | hd) | hd <;> subst hd <;> decide
      by_contra hc
      have := hs c (by simpa using hc)
      omega
    rw [h1, h2]
  · rfl

theorem head_dropWhile_isspace (s : Str) (c : Char)
    (h : (s.dropWhile isspace).head? = some c) : isspace c = false := by
  cases hd : s.dropWhile isspace with
  | nil => simp [hd] at h
  | cons x xs =>
    have := List.head_dropWhile_not isspace s (by rw [hd]; simp)
    simp only [hd, List.head?_cons, Option.some.injEq] at h this
    rw [← h]; simpa [hd] using this

theorem trimmed_trim (s : Str) : Trimmed (trim s) := by
  constructor
  · intro c hc
    have hpre : trim s <+: s.dropWhile isspace := List.rdropWhile_prefix isspace _
    obtain ⟨r, hr⟩ := hpre
    apply head_dropWhile_isspace s c
    rw [← hr]
    cases ht : trim s with
    | nil => simp [ht] at hc
    | cons x xs => simpa [ht] using hc
  · intro c hc
    unfold trim at hc
    rw [List.getLast?_reverse] at hc
    exact head_dropWhile_isspace _ c hc

theorem trimmed_map_tolower {s : Str} (h : Trimmed s) : Trimmed (s.map tolower) := by
  constructor
  · intro c hc
    rw [List.head?_map] at hc
    obtain ⟨d, hd, rfl⟩ := Option.map_eq_some'.mp hc
    rw [isspace_tolower]; exact h.1 d hd
  · intro c hc
    rw [List.getLast?_map] at hc
    obtain ⟨d, hd, rfl⟩ := Option.map_eq_some'.mp hc
    rw [isspace_tolower]; exact h.2 d hd

theorem lowerCase_map_tolower (s : Str) : LowerCase (s.map tolower) := by
  intro c hc
  obtain ⟨d, _, rfl⟩ := List.mem_map.mp hc
  exact tolower_not_upper d

theorem headerEntries_normal (lines : List Str) (e : Str × Str)
    (he : e ∈ headerEntries lines) : LowerCase e.1 ∧ Trimmed e.1 ∧ Trimmed e.2 := by
  unfold headerEntries at he
  obtain ⟨l, _, hl⟩ := List.mem_filterMap.mp he
  obtain ⟨nv, _, rfl⟩ := Option.map_eq_some'.mp hl
  exact ⟨lowerCase_map_tolower _, trimmed_map_tolower (trimmed_trim _), trimmed_trim _⟩

/-- Looking a key up after a run of assignments gives the last value assigned to
it, or the old value when there was none. -/
theorem lookup_foldl_insert (k : Str) (es : List (Str × Str))
    (init : AList (fun _ : Str => Str)) :
    (es.foldl (fun m e => m.insert e.1 e.2) init).lookup k =
      (lastAssigned k es).or (init.lookup k) := by
  induction es generalizing init with
  | nil => simp [lastAssigned]
  | cons e rest ih =>
    rw [List.foldl_cons, ih]
    unfold lastAssigned
    rw [List.reverse_cons, List.find?_append]
    cases hr : rest.reverse.find? (fun e => decide (e.1 = k)) with
    | some x => simp
    | none =>
      simp only [Option.map_none', Option.none_or, Option.or_none, List.find?_cons,
        List.find?_nil]
      by_cases hk : e.1 = k
      · subst hk
        simp [AList.lookup_insert]
      · have : k ≠ e.1 := fun h => hk h.symm
        simp [hk, AList.lookup_insert_ne this]

theorem lastAssigned_mem {k v : Str} {es : List (Str × Str)} (h : lastAssigned k es = some v) :
    (k, v) ∈ es := by
  unfold lastAssigned at h
  obtain ⟨e, he, rfl⟩ := Option.map_eq_some'.mp h
  have hm := List.mem_of_find?_eq_some he
  have hk := List.find?_some he
  simp only [decide_eq_true_eq] at hk
  rw [List.mem_reverse] at hm
  rw [← hk]
  exact hm

theorem parse_headers_eq {raw : Str} {out r : HttpRequest} {block : Str}
    (hb : headerBlock raw = some block) (hp : parse_http_request raw out = some r) :
    r.headers = specHeaders out.headers (headerLines block) := by
  unfold headerBlock at hb
  unfold parse_http_request at hp
  cases hf : find CRLFCRLF raw with
  | none => rw [hf] at hb; exact absurd hb (by simp)
  | some n =>
    rw [hf, Option.map_some', Option.some.injEq] at hb
    subst hb
    rw [headerLines_eq]
    simp only [hf] at hp
    cases hg : getlines (List.take n raw) with
    | nil => simp [hg] at hp
    | cons line rest =>
      simp only [hg] at hp
      cases h1 : extract (popCR line) with
      | none => simp [h1] at hp
      | some r1 =>
        cases h2 : extract r1.2 with
        | none => simp [h1, h2] at hp
        | some r2 =>
          cases h3 : extract r2.2 with
          | none => simp [h1, h2, h3] at hp
          | some r3 =>
            simp only [h1, h2, h3, Option.some.injEq] at hp
            rw [← hp, List.tail_cons]
            exact headerLoop_eq rest out.headers

/-- C9. For every successfully parsed buffer the header map is the result of
processing the header lines (after the request line, before the first blank line)
in order, assigning `map[lowercase(trim(name))] := trim(value)` for each line with
a colon and skipping the others; so a key holds the value of the last line that
names it. Starting from the empty map every key is lower-case and trimmed, every
value is trimmed, and a line named `Host` followed by a last line named `host`
leaves the single key `host` with the value of the later line. -/
theorem parsed_header_map (raw : Str) (out r : HttpRequest) (block : Str)
    (hb : headerBlock raw = some block) (hp : parse_http_request raw out = some r) :
    r.headers = specHeaders out.headers (headerLines block) ∧
    (∀ k, r.headers.lookup k =
      (lastAssigned k (headerEntries (headerLines block))).or (out.headers.lookup k)) ∧
    (out.headers = ∅ → ∀ k v, r.headers.lookup k = some v →
      LowerCase k ∧ Trimmed k ∧ Trimmed v) ∧
    (∀ pre v1 v2, headerLines block = pre ++ ["Host:".toList ++ v1, "host:".toList ++ v2] →
      r.headers.lookup "host".toList = some (trim v2)) ∧
    r.headers.keys.Nodup := by
  have heq := parse_headers_eq hb hp
  have hlook : ∀ k, r.headers.lookup k =
      (lastAssigned k (headerEntries (headerLines block))).or (out.headers.lookup k) := by
    intro k
    rw [heq]
    exact lookup_foldl_insert k _ _
  refine ⟨heq, hlook, ?_, ?_, r.headers.keys_nodup⟩
  · intro hempty k v hkv
    rw [hlook k, hempty, AList.lookup_empty, Option.or_none] at hkv
    exact headerEntries_normal _ (k, v) (lastAssigned_mem hkv)
  · intro pre v1 v2 hlines
    rw [hlook, hlines]
    have h2 : splitHeader ("host:".toList ++ v2) = some ("host".toList, v2) := by
      simp [splitHeader]
    have hent : headerEntries (pre ++ ["Host:".toList ++ v1, "host:".toList ++ v2]) =
        headerEntries (pre ++ ["Host:".toList ++ v1]) ++
          [((trim "host".toList).map tolower, trim v2)] := by
      have : pre ++ ["Host:".toList ++ v1, "host:".toList ++ v2] =
          (pre ++ ["Host:".toList ++ v1]) ++ ["host:".toList ++ v2] := by simp
      rw [this]
      unfold headerEntries
      rw [List.filterMap_append]
      simp only [List.filterMap_cons, List.filterMap_nil, h2, Option.map_some']
    have hkey : (trim "host".toList).map tolower = "host".toList := by decide
    rw [hent, hkey]
    simp [lastAssigned]

/-- A witness of `parsed_header_map`: the lines `Host: a` and `host:  b `. -/
theorem parsed_header_map_witness :
    ∃ r, parse_http_request "GET / HTTP/1.0\r\nHost: a\r\nhost:  b \r\n\r\n".toList
        HttpRequest.empty = some r ∧
      r.headers.entries = [⟨"host".toList, "b".toList⟩] :=
  have h : (parse_http_request "GET / HTTP/1.0\r\nHost: a\r\nhost:  b \r\n\r\n".toList
      HttpRequest.empty).isSome = true := by decide
  ⟨Option.get _ h, (Option.some_get h).symm,
    (congrArg AList.entries
      (parsed_header_map "GET / HTTP/1.0\r\nHost: a\r\nhost:  b \r\n\r\n".toList
        HttpRequest.empty _ "GET / HTTP/1.0\r\nHost: a\r\nhost:  b ".toList
        (by decide) (Option.some_get h).symm).1).trans (by decide)⟩

/-! ### The request line -/

theorem find_of_occurs (pat s : Str) (h : pat <:+: s) : ∃ n, find pat s = some n := by
  induction s with
  | nil =>
    have : pat = [] := List.eq_nil_of_infix_nil h
    exact ⟨0, by simp [find, this]⟩
  | cons c cs ih =>
    unfold find
    by_cases hp : pat.isPrefixOf (c :: cs) = true
    · exact ⟨0, by rw [if_pos hp]⟩
    · rw [if_neg hp]
      rcases List.infix_cons_iff.mp h with h1 | h1
      · exact absurd (List.isPrefixOf_iff_prefix.mpr h1) hp
      · obtain ⟨n, hn⟩ := ih h1
        exact ⟨n + 1, by rw [hn]; rfl⟩

theorem find_CRLFCRLF_append (L R : Str) (hL : ∀ c ∈ L, c ≠ '\r') :
    find CRLFCRLF (L ++ R) = (find CRLFCRLF R).map (· + L.length) := by
  induction L with
  | nil => simp
  | cons c cs ih =>
    have hc : c ≠ '\r' := hL c (by simp)
    have hc2 : ¬ '\r' = c := fun e => hc e.symm
    have hp : CRLFCRLF.isPrefixOf (c :: (cs ++ R)) = false := by
      simp [CRLFCRLF, List.isPrefixOf, hc2]
    rw [List.cons_append, find, hp, ih (fun d hd => hL d (by simp [hd]))]
    cases find CRLFCRLF R with
    | none => rfl
    | some n => simp [Nat.add_assoc]

theorem getlines_single (L : Str) (hne : L ≠ []) (hL : ∀ c ∈ L, c ≠ '\n') :
    getlines L = [L] := by
  induction L with
  | nil => exact absurd rfl hne
  | cons c cs ih =>
    have hc : c ≠ '\n' := hL c (by simp)
    unfold getlines
    rw [if_neg hc]
    cases cs with
    | nil => simp [getlines]
    | cons d ds =>
      rw [ih (by simp) (fun e he => hL e (by simp [he]))]

theorem getlines_append_newline (L t : Str) (hL : ∀ c ∈ L, c ≠ '\n') :
    getlines (L ++ '\n' :: t) = L :: getlines t := by
  induction L with
  | nil => simp [getlines]
  | cons c cs ih =>
    have hc : c ≠ '\n' := hL c (by simp)
    rw [List.cons_append, getlines, if_neg hc, ih (fun e he => hL e (by simp [he]))]

theorem popCR_append_CR (L : Str) : popCR (L ++ ['\r']) = L := by
  simp [popCR]

theorem popCR_of_getLast (L : Str) (h : L.getLast? ≠ some '\r') : popCR L = L := by
  simp [popCR, h]

theorem takeWhile_noSpace (tok rest : Str) (h : NoSpace tok) :
    (tok ++ ' ' :: rest).takeWhile (fun c => !isspace c) = tok ∧
    (tok ++ ' ' :: rest).dropWhile (fun c => !isspace c) = ' ' :: rest := by
  induction tok with
  | nil => exact ⟨by simp [isspace], by simp [isspace]⟩
  | cons c cs ih =>
    have hc : isspace c = false := h c (by simp)
    obtain ⟨h1, h2⟩ := ih (fun d hd => h d (by simp [hd]))
    exact ⟨by simp [hc, h1], by simp [hc, h2]⟩

theorem takeWhile_noSpace_end (tok : Str) (h : NoSpace tok) :
    tok.takeWhile (fun c => !isspace c) = tok ∧ tok.dropWhile (fun c => !isspace c) = [] := by
  induction tok with
  | nil => exact ⟨rfl, rfl⟩
  | cons c cs ih =>
    have hc : isspace c = false := h c (by simp)
    obtain ⟨h1, h2⟩ := ih (fun d hd => h d (by simp [hd]))
    exact ⟨by simp [hc, h1], by simp [hc, h2]⟩

theorem extract_token_space (tok rest : Str) (hne : tok ≠ []) (h : NoSpace tok) :
    extract (tok ++ ' ' :: rest) = some (tok, ' ' :: rest) := by
  cases tok with
  | nil => exact absurd rfl hne
  | cons c cs =>
    have hc : isspace c = false := h c (by simp)
    obtain ⟨h1, h2⟩ := takeWhile_noSpace (c :: cs) rest h
    unfold extract
    have hd : ((c :: cs) ++ ' ' :: rest).dropWhile isspace = (c :: cs) ++ ' ' :: rest := by
      simp [hc]
    simp only [hd, h1, h2]
    simp

theorem extract_token_end (tok : Str) (hne : tok ≠ []) (h : NoSpace tok) :
    extract tok = some (tok, []) := by
  cases tok with
  | nil => exact absurd rfl hne
  | cons c cs =>
    have hc : isspace c = false := h c (by simp)
    obtain ⟨h1, h2⟩ := takeWhile_noSpace_end (c :: cs) h
    unfold extract
    have hd : (c :: cs).dropWhile isspace = c :: cs := by simp [hc]
    simp only [hd, h1, h2]
    simp

theorem extract_space (s : Str) : extract (' ' :: s) = extract s := by
  simp [extract, isspace]

theorem headerText_CRLF_suffix (lines : List Str) :
    CRLFCRLF <:+ CRLF ++ headerText lines ++ CRLF := by
  rcases List.eq_nil_or_concat lines with h | ⟨pre, l, h⟩
  · subst h
    exact ⟨[], by simp [headerText, CRLF, CRLFCRLF]⟩
  · subst h
    exact ⟨CRLF ++ headerText pre ++ l, by simp [headerText, CRLF, CRLFCRLF]⟩

theorem isspace_of_noSpace {s : Str} (h : NoSpace s) {c : Char} (hc : c ∈ s) :
    c ≠ '\r' ∧ c ≠ '\n' := by
  have := h c hc
  constructor <;> rintro rfl <;> simp [isspace] at this

theorem requestLine_chars {M P V : Str} (hM : NoSpace M) (hP : NoSpace P) (hV : NoSpace V)
    {c : Char} (hc : c ∈ requestLine M P V) : c ≠ '\r' ∧ c ≠ '\n' := by
  simp only [requestLine, List.mem_append, List.mem_singleton] at hc
  rcases hc with (((hc | hc) | hc) | hc) | hc
  · exact isspace_of_noSpace hM hc
  · subst hc; exact ⟨by decide, by decide⟩
  · exact isspace_of_noSpace hP hc
  · subst hc; exact ⟨by decide, by decide⟩
  · exact isspace_of_noSpace hV hc

theorem extract_requestLine (M P V : Str) (hM : M ≠ []) (hP : P ≠ []) (hV : V ≠ [])
    (hMs : NoSpace M) (hPs : NoSpace P) (hVs : NoSpace V) :
    extract (requestLine M P V) = some (M, ' ' :: (P ++ ' ' :: V)) ∧
    extract (' ' :: (P ++ ' ' :: V)) = some (P, ' ' :: V) ∧
    extract (' ' :: V) = some (V, []) := by
  refine ⟨?_, ?_, ?_⟩
  · have : requestLine M P V = M ++ ' ' :: (P ++ ' ' :: V) := by simp [requestLine]
    rw [this]
    exact extract_token_space M _ hM hMs
  · rw [extract_space]
    exact extract_token_space P _ hP hPs
  · rw [extract_space]
    exact extract_token_end V hV hVs

theorem requestLine_ne_nil (M P V : Str) : requestLine M P V ≠ [] := by
  simp [requestLine]

theorem firstLine_of_requestText (M P V : Str) (hV : V ≠ [])
    (hMs : NoSpace M) (hPs : NoSpace P) (hVs : NoSpace V) (lines : List Str) :
    ∃ n line rest, find CRLFCRLF (requestText M P V lines) = some n ∧
      getlines ((requestText M P V lines).take n) = line :: rest ∧
      popCR line = requestLine M P V := by
  have hch : ∀ c ∈ requestLine M P V, c ≠ '\r' ∧ c ≠ '\n' :=
    fun c hc => requestLine_chars hMs hPs hVs hc
  obtain ⟨m, hm⟩ := find_of_occurs CRLFCRLF (CRLF ++ headerText lines ++ CRLF)
    (headerText_CRLF_suffix lines).isInfix
  have hraw : requestText M P V lines =
      requestLine M P V ++ (CRLF ++ headerText lines ++ CRLF) := by
    simp [requestText]
  have hfind : find CRLFCRLF (requestText M P V lines) =
      some (m + (requestLine M P V).length) := by
    rw [hraw, find_CRLFCRLF_append _ _ (fun c hc => (hch c hc).1), hm]
    rfl
  have htake : (requestText M P V lines).take (m + (requestLine M P V).length) =
      requestLine M P V ++ (CRLF ++ headerText lines ++ CRLF).take m := by
    rw [hraw, Nat.add_comm, List.take_append]
  have hlast : (requestLine M P V).getLast? ≠ some '\r' := by
    have hVl : V.getLast? = some (V.getLast hV) := List.getLast?_eq_getLast V hV
    have : (requestLine M P V).getLast? = some (V.getLast hV) := by
      have hsplit : requestLine M P V = (M ++ [' '] ++ P ++ [' ']) ++ V := rfl
      rw [hsplit, List.getLast?_append, hVl]
      rfl
    rw [this]
    intro h
    have hmem : V.getLast hV ∈ V := List.getLast_mem hV
    exact (isspace_of_noSpace hVs hmem).1 (Option.some.inj h)
  suffices h : ∃ line rest,
      getlines ((requestText M P V lines).take (m + (requestLine M P V).length)) =
        line :: rest ∧ popCR line = requestLine M P V by
    obtain ⟨line, rest, h1, h2⟩ := h
    exact ⟨_, line, rest, hfind, h1, h2⟩
  rw [htake]
  have hR : CRLF ++ headerText lines ++ CRLF = '\r' :: '\n' :: (headerText lines ++ CRLF) := by
    simp [CRLF]
  rw [hR]
  match m with
  | 0 =>
    refine ⟨requestLine M P V, [], ?_, popCR_of_getLast _ hlast⟩
    rw [List.take_zero, List.append_nil]
    exact getlines_single _ (requestLine_ne_nil M P V) (fun c hc => (hch c hc).2)
  | 1 =>
    refine ⟨requestLine M P V ++ ['\r'], [], ?_, popCR_append_CR _⟩
    have : List.take 1 ('\r' :: '\n' :: (headerText lines ++ CRLF)) = ['\r'] := rfl
    rw [this]
    refine getlines_single _ (by simp) (fun c hc => ?_)
    rcases List.mem_append.mp hc with h | h
    · exact (hch c h).2
    · simp at h; subst h; decide
  | k + 2 =>
    refine ⟨requestLine M P V ++ ['\r'], getlines ((headerText lines ++ CRLF).take k), ?_,
      popCR_append_CR _⟩
    have : List.take (k + 2) ('\r' :: '\n' :: (headerText lines ++ CRLF)) =
        '\r' :: '\n' :: List.take k (headerText lines ++ CRLF) := rfl
    rw [this]
    have h2 : requestLine M P V ++ '\r' :: '\n' :: List.take k (headerText lines ++ CRLF) =
        (requestLine M P V ++ ['\r']) ++ '\n' :: List.take k (headerText lines ++ CRLF) := by
      simp
    rw [h2]
    refine getlines_append_newline _ _ (fun c hc => ?_)
    rcases List.mem_append.mp hc with h | h
    · exact (hch c h).2
    · simp at h; subst h; decide

/-- C10. For all non-empty `M`, `P`, `V` without white space and every block of
header lines, each followed by `\r\n`, parsing
`M + " " + P + " " + V + "\r\n" + H + "\r\n"` succeeds with method `M`, path `P`
and version `V`; joining the parsed method, path and version with single spaces
gives back the request line. -/
theorem request_line_round_trip (M P V : Str) (hM : M ≠ []) (hP : P ≠ []) (hV : V ≠ [])
    (hMs : NoSpace M) (hPs : NoSpace P) (hVs : NoSpace V) (lines : List Str)
    (out : HttpRequest) :
    ∃ r, parse_http_request (requestText M P V lines) out = some r ∧
      r.method = M ∧ r.path = P ∧ r.version = V ∧
      requestLine r.method r.path r.version = requestLine M P V := by
  obtain ⟨n, line, rest, hfind, hget, hpop⟩ :=
    firstLine_of_requestText M P V hV hMs hPs hVs lines
  obtain ⟨h1, h2, h3⟩ := extract_requestLine M P V hM hP hV hMs hPs hVs
  refine ⟨{ method := M, path := P, version := V, headers := headerLoop rest out.headers },
    ?_, rfl, rfl, rfl, rfl⟩
  unfold parse_http_request
  simp only [hfind, hget, hpop, h1, h2, h3]

/-- A witness of `request_line_round_trip`: `GET /index.html HTTP/1.0` followed by
a `Host` line. -/
theorem request_line_round_trip_witness :
    ∃ r, parse_http_request "GET /index.html HTTP/1.0\r\nHost: x\r\n\r\n".toList
        HttpRequest.empty = some r ∧
      r.method = "GET".toList ∧ r.path = "/index.html".toList ∧
      r.version = "HTTP/1.0".toList ∧
      requestLine r.method r.path r.version = "GET /index.html HTTP/1.0".toList :=
  request_line_round_trip "GET".toList "/index.html".toList "HTTP/1.0".toList
    (by decide) (by decide) (by decide) (by unfold NoSpace; decide)
    (by unfold NoSpace; decide) (by unfold NoSpace; decide)
    ["Host: x".toList] HttpRequest.empty

/-! ## The router -/

theorem splitOnP_shape {p : Char → Bool} (s : Str) :
    ∃ h t, s.splitOnP p = h :: t ∧ h <+: s ∧ ∀ c ∈ t, c <:+: s := by
  induction s with
  | nil => exact ⟨[], [], by simp, List.prefix_refl _, by simp⟩
  | cons x xs ih =>
    obtain ⟨h, t, hs, hh, ht⟩ := ih
    rw [List.splitOnP_cons, hs]
    by_cases hx : p x = true
    · refine ⟨[], h :: t, by simp [hx], List.nil_prefix, fun c hc => ?_⟩
      rcases List.mem_cons.mp hc with rfl | hc
      · exact List.infix_cons hh.isInfix
      · exact List.infix_cons (ht c hc)
    · refine ⟨x :: h, t, by simp [hx], ?_, fun c hc => List.infix_cons (ht c hc)⟩
      obtain ⟨r, hr⟩ := hh
      exact ⟨r, by simp [hr]⟩

theorem infix_of_mem_splitOn (s comp : Str) (h : comp ∈ s.splitOn '/') : comp <:+: s := by
  obtain ⟨hd, t, hs, hh, ht⟩ := splitOnP_shape (p := fun c => c == '/') s
  unfold List.splitOn at h
  rw [hs] at h
  rcases List.mem_cons.mp h with rfl | h
  · exact hh.isInfix
  · exact ht comp h

theorem not_occurs_of_find_none {pat s : Str} (h : find pat s = none) : ¬ pat <:+: s := by
  intro hi
  obtain ⟨n, hn⟩ := find_of_occurs pat s hi
  rw [h] at hn
  exact absurd hn (by simp)

theorem relative_path_suffix (p : Str) : relative_path p <:+ p :=
  List.dropWhile_suffix _

theorem relative_path_head (p : Str) : (relative_path p).head? ≠ some '/' := by
  intro h
  unfold relative_path at h
  cases hd : p.dropWhile (fun c => decide (c = '/')) with
  | nil => simp [hd] at h
  | cons x xs =>
    have := List.head_dropWhile_not (fun c => decide (c = '/')) p (by rw [hd]; simp)
    simp only [hd, List.head?_cons, Option.some.injEq, List.head_cons] at h this
    subst h
    simp at this

theorem prefix_pathAppend (root_ rel : Str) (h : rel.head? ≠ some '/') :
    root_ <+: pathAppend root_ rel := by
  unfold pathAppend
  by_cases hr : root_ = []
  · subst hr; exact List.nil_prefix
  · rw [if_neg (by simp [h, hr])]
    split
    · exact List.prefix_append _ _
    · exact List.prefix_append _ _

theorem serve_file_calls (root_ : Str) (fs : FileSystem) (cache_ : LRUCache) (rel : Str) :
    (serve_file root_ fs cache_ rel).fsCalls ≠ [] ∧
    (serve_file root_ fs cache_ rel).status_code ≠ 403 ∧
    ∀ call ∈ (serve_file root_ fs cache_ rel).fsCalls,
      call.path = pathAppend root_ (relative_path rel) := by
  unfold serve_file
  simp only
  split
  · simp [FsCall.path]
  · split
    · simp [FsCall.path]
    · split
      · simp [FsCall.path]
      · split <;> simp [FsCall.path]

theorem handle_not_get (root_ : Str) (fs : FileSystem) (cache_ : LRUCache) (req : HttpRequest)
    (h : req.method ≠ "GET".toList) :
    (handle root_ fs cache_ req).status_code = 405 ∧ (handle root_ fs cache_ req).fsCalls = [] := by
  unfold handle
  rw [if_pos h]
  exact ⟨rfl, rfl⟩

theorem handle_forbidden (root_ : Str) (fs : FileSystem) (cache_ : LRUCache) (req : HttpRequest)
    (hget : req.method = "GET".toList)
    (hdd : (find DOTDOT (lexically_normal (defaultPath req.path))).isSome = true) :
    Forbidden (handle root_ fs cache_ req) cache_ := by
  unfold handle
  rw [if_neg (by simpa using hget)]
  simp only [hdd, if_true]
  exact ⟨rfl, rfl, rfl, rfl, rfl, rfl⟩

theorem handle_served (root_ : Str) (fs : FileSystem) (cache_ : LRUCache) (req : HttpRequest)
    (hget : req.method = "GET".toList)
    (hdd : find DOTDOT (lexically_normal (defaultPath req.path)) = none) :
    handle root_ fs cache_ req =
      serve_file root_ fs cache_ (lexically_normal (defaultPath req.path)) := by
  unfold handle
  rw [if_neg (by simpa using hget)]
  simp only [hdd, Option.isSome_none, Bool.false_eq_true, if_false]

/-- C4, as the code has it. A `GET` request whose lexically normalized path still
contains `..` is answered 403 (`text/plain`, `Forbidden\n`) without any
file-system query or cache call; this is so for the paths `../etc/passwd`,
`a/../../b` and `../../etc/passwd`. For the rooted paths `/../etc/passwd`,
`/a/../../b` and `/../../etc/passwd` normalization drops the dot-dot segments
under the root, so the request is passed to `serve_file` with `/etc/passwd`,
`/b` and `/etc/passwd`, is not answered 403, and queries only a path under the
root. -/
theorem traversal_forbidden (root_ : Str) (fs : FileSystem) (cache_ : LRUCache)
    (req : HttpRequest) (hget : req.method = "GET".toList) :
    ((find DOTDOT (lexically_normal (defaultPath req.path))).isSome = true →
      Forbidden (handle root_ fs cache_ req) cache_) ∧
    (req.path ∈ ["../etc/passwd".toList, "a/../../b".toList, "../../etc/passwd".toList] →
      Forbidden (handle root_ fs cache_ req) cache_) ∧
    (req.path ∈ ["/../etc/passwd".toList, "/../../etc/passwd".toList] →
      handle root_ fs cache_ req = serve_file root_ fs cache_ "/etc/passwd".toList ∧
      (handle root_ fs cache_ req).status_code ≠ 403 ∧
      ∀ call ∈ (handle root_ fs cache_ req).fsCalls,
        call.path = pathAppend root_ "etc/passwd".toList) ∧
    (req.path = "/a/../../b".toList →
      handle root_ fs cache_ req = serve_file root_ fs cache_ "/b".toList ∧
      (handle root_ fs cache_ req).status_code ≠ 403 ∧
      ∀ call ∈ (handle root_ fs cache_ req).fsCalls, call.path = pathAppend root_ "b".toList) := by
  refine ⟨handle_forbidden root_ fs cache_ req hget, fun hp => ?_, fun hp => ?_, fun hp => ?_⟩
  · apply handle_forbidden root_ fs cache_ req hget
    simp only [List.mem_cons, List.mem_singleton, List.not_mem_nil, or_false] at hp
    rcases hp with hp | hp | hp <;> rw [hp] <;> decide
  · have hn : lexically_normal (defaultPath req.path) = "/etc/passwd".toList := by
      simp only [List.mem_cons, List.mem_singleton, List.not_mem_nil, or_false] at hp
      rcases hp with hp | hp <;> rw [hp] <;> decide
    have hs := handle_served root_ fs cache_ req hget (by rw [hn]; decide)
    rw [hn] at hs
    rw [hs]
    have hc := serve_file_calls root_ fs cache_ "/etc/passwd".toList
    exact ⟨rfl, hc.2.1, hc.2.2⟩
  · have hn : lexically_normal (defaultPath req.path) = "/b".toList := by
      rw [hp]; decide
    have hs := handle_served root_ fs cache_ req hget (by rw [hn]; decide)
    rw [hn] at hs
    rw [hs]
    have hc := serve_file_calls root_ fs cache_ "/b".toList
    exact ⟨rfl, hc.2.1, hc.2.2⟩

/-- A witness of `traversal_forbidden`: the request `GET ../etc/passwd`. -/
theorem traversal_forbidden_witness :
    Forbidden
      (handle "./static".toList FileSystem.vacant (LRUCache.init 100)
        (getRequest "../etc/passwd".toList))
      (LRUCache.init 100) :=
  (traversal_forbidden "./static".toList FileSystem.vacant (LRUCache.init 100)
    (getRequest "../etc/passwd".toList) rfl).1 (by decide)

/-- C4 fails as stated: with root `./static` and no file present, the requests
`GET /../etc/passwd`, `GET /a/../../b` and `GET /../../etc/passwd` are answered
404 after asking the file system whether `./static/etc/passwd` (or `./static/b`)
exists. -/
theorem rooted_traversal_not_forbidden :
    (handle "./static".toList FileSystem.vacant (LRUCache.init 100)
      (getRequest "/../etc/passwd".toList)).status_code = 404 ∧
    (handle "./static".toList FileSystem.vacant (LRUCache.init 100)
      (getRequest "/../etc/passwd".toList)).fsCalls =
        [FsCall.exists_ "./static/etc/passwd".toList] ∧
    (handle "./static".toList FileSystem.vacant (LRUCache.init 100)
      (getRequest "/a/../../b".toList)).status_code = 404 ∧
    (handle "./static".toList FileSystem.vacant (LRUCache.init 100)
      (getRequest "/a/../../b".toList)).fsCalls = [FsCall.exists_ "./static/b".toList] ∧
    (handle "./static".toList FileSystem.vacant (LRUCache.init 100)
      (getRequest "/../../etc/passwd".toList)).status_code = 404 ∧
    (handle "./static".toList FileSystem.vacant (LRUCache.init 100)
      (getRequest "/../../etc/passwd".toList)).fsCalls =
        [FsCall.exists_ "./static/etc/passwd".toList] := by
  decide

/-- C5. Path containment: every file-system query of `Router::handle` names the
root joined with a relative path none of whose components is `..`, so the root
is a prefix of the queried path; queries are made exactly for `GET` requests not
answered 403; and an answer 403 comes without any file-system query. -/
theorem path_containment (root_ : Str) (fs : FileSystem) (cache_ : LRUCache)
    (req : HttpRequest) :
    (∀ call ∈ (handle root_ fs cache_ req).fsCalls,
      ∃ rel, call.path = pathAppend root_ rel ∧ rel.head? ≠ some '/' ∧
        DOTDOT ∉ rel.splitOn '/' ∧ root_ <+: call.path) ∧
    ((handle root_ fs cache_ req).fsCalls ≠ [] ↔
      (req.method = "GET".toList ∧ (handle root_ fs cache_ req).status_code ≠ 403)) ∧
    ((handle root_ fs cache_ req).status_code = 403 →
      (handle root_ fs cache_ req).fsCalls = []) := by
  by_cases hget : req.method = "GET".toList
  · cases hdd : find DOTDOT (lexically_normal (defaultPath req.path)) with
    | some n =>
      have hf := handle_forbidden root_ fs cache_ req hget (by rw [hdd]; rfl)
      obtain ⟨hst, _, _, hcalls, _, _⟩ := hf
      refine ⟨fun call hc => ?_, ?_, fun _ => hcalls⟩
      · rw [hcalls] at hc; exact absurd hc (List.not_mem_nil _)
      · rw [hcalls, hst]; simp
    | none =>
      rw [handle_served root_ fs cache_ req hget hdd]
      obtain ⟨hne, hst, hpath⟩ :=
        serve_file_calls root_ fs cache_ (lexically_normal (defaultPath req.path))
      refine ⟨fun call hc => ?_, ⟨fun _ => ⟨hget, hst⟩, fun _ => hne⟩, fun h => absurd h hst⟩
      refine ⟨relative_path (lexically_normal (defaultPath req.path)), hpath call hc,
        relative_path_head _, fun hmem => ?_, ?_⟩
      · have h1 := infix_of_mem_splitOn _ _ hmem
        have h2 := (relative_path_suffix (lexically_normal (defaultPath req.path))).isInfix
        exact not_occurs_of_find_none hdd (h1.trans h2)
      · rw [hpath call hc]
        exact prefix_pathAppend _ _ (relative_path_head _)
  · obtain ⟨hst, hcalls⟩ := handle_not_get root_ fs cache_ req hget
    refine ⟨fun call hc => ?_, ?_, fun _ => hcalls⟩
    · rw [hcalls] at hc; exact absurd hc (List.not_mem_nil _)
    · rw [hcalls]
      exact ⟨fun h => absurd rfl h, fun h => absurd h.1 hget⟩

/-! ## The thread pool -/

namespace ThreadPool

variable {α : Type}

theorem runningTasks_replicate_waiting (n : Nat) :
    runningTasks (List.replicate n (Worker.waiting : Worker α)) = [] := by
  induction n with
  | zero => rfl
  | succ n ih => simp [List.replicate_succ, runningTasks] at ih ⊢

theorem poolInv_init (n : Nat) : PoolInv (init n : ThreadPool α) := by
  refine ⟨rfl, ?_, ?_, ?_⟩
  · simp [init, runningTasks_replicate_waiting]
  · by_cases h : n = 0
    · simp [init, h]
    · simp [init, h]
  · intro h
    simp only [init] at h
    have := List.eq_of_mem_replicate h
    exact absurd this (by simp)

theorem runningTasks_set_running (ws : List (Worker α)) (i : Nat) (t : α)
    (h : ws[i]? = some Worker.waiting) :
    (runningTasks (ws.set i (.running t))).Perm (t :: runningTasks ws) := by
  induction ws generalizing i with
  | nil => simp at h
  | cons w rest ih =>
    cases i with
    | zero =>
      simp only [List.getElem?_cons_zero, Option.some.injEq] at h
      subst h
      simp [runningTasks]
    | succ j =>
      simp only [List.getElem?_cons_succ] at h
      have := ih j h
      cases w with
      | running u =>
        simp only [List.set_cons_succ, runningTasks, List.filterMap_cons] at this ⊢
        exact (List.Perm.cons u this).trans (List.Perm.swap t u _)
      | waiting => simpa [runningTasks] using this
      | exited => simpa [runningTasks] using this

theorem runningTasks_set_waiting (ws : List (Worker α)) (i : Nat) (t : α)
    (h : ws[i]? = some (Worker.running t)) :
    (t :: runningTasks (ws.set i .waiting)).Perm (runningTasks ws) := by
  induction ws generalizing i with
  | nil => simp at h
  | cons w rest ih =>
    cases i with
    | zero =>
      simp only [List.getElem?_cons_zero, Option.some.injEq] at h
      subst h
      simp [runningTasks]
    | succ j =>
      simp only [List.getElem?_cons_succ] at h
      have := ih j h
      cases w with
      | running u =>
        simp only [List.set_cons_succ, runningTasks, List.filterMap_cons] at this ⊢
        exact (List.Perm.swap u t _).trans (List.Perm.cons u this)
      | waiting => simpa [runningTasks] using this
      | exited => simpa [runningTasks] using this

theorem runningTasks_set_exited (ws : List (Worker α)) (i : Nat)
    (h : ws[i]? = some Worker.waiting) :
    runningTasks (ws.set i .exited) = runningTasks ws := by
  induction ws generalizing i with
  | nil => simp at h
  | cons w rest ih =>
    cases i with
    | zero =>
      simp only [List.getElem?_cons_zero, Option.some.injEq] at h
      subst h
      simp [runningTasks]
    | succ j =>
      simp only [List.getElem?_cons_succ] at h
      have := ih j h
      cases w <;> simp [runningTasks] at this ⊢ <;> exact this

theorem set_ne_nil (ws : List (Worker α)) (i : Nat) (w : Worker α) (h : ws ≠ []) :
    ws.set i w ≠ [] := by
  intro hc
  have := congrArg List.length hc
  rw [List.length_set] at this
  exact h (List.length_eq_zero.mp this)

theorem exited_mem_set {ws : List (Worker α)} {i : Nat} {w : Worker α}
    (hw : w ≠ Worker.exited) (h : Worker.exited ∈ ws.set i w) : Worker.exited ∈ ws := by
  rcases List.mem_or_eq_of_mem_set h with h | h
  · exact h
  · exact absurd h.symm hw

theorem step_inv {p q : ThreadPool α} {e : PoolEvent α} (hp : PoolInv p)
    (h : p.step e = some q) : PoolInv q := by
  obtain ⟨h1, h2, h3, h4⟩ := hp
  cases e with
  | enqueue t =>
    simp only [step, Option.some.injEq] at h
    subst h
    exact ⟨by simp [← h1], h2, h3, h4⟩
  | shutdown =>
    simp only [step, Option.some.injEq] at h
    subst h
    exact ⟨h1, h2, h3, fun _ => rfl⟩
  | finish i =>
    simp only [step] at h
    cases hw : p.workers_[i]? with
    | none => simp [hw] at h
    | some w =>
      cases w with
      | waiting => simp [hw] at h
      | exited => simp [hw] at h
      | running t =>
        simp only [hw, Option.some.injEq] at h
        subst h
        refine ⟨h1, ?_, set_ne_nil _ _ _ h3, fun hm => h4 (exited_mem_set (by simp) hm)⟩
        show (p.executed ++ [t] ++ runningTasks (p.workers_.set i .waiting)).Perm p.taken
        refine List.Perm.trans ?_ h2
        rw [List.append_assoc]
        exact List.Perm.append_left _ (runningTasks_set_waiting _ _ _ hw)
  | wake i =>
    simp only [step] at h
    cases hw : p.workers_[i]? with
    | none => simp [hw] at h
    | some w =>
      cases w with
      | running t => simp [hw] at h
      | exited => simp [hw] at h
      | waiting =>
        simp only [hw] at h
        cases ht : p.tasks_ with
        | nil =>
          simp only [ht] at h
          by_cases hs : p.stop_ = true
          · simp only [hs, if_true, Option.some.injEq] at h
            subst h
            refine ⟨by simpa [ht] using h1, ?_, set_ne_nil _ _ _ h3, fun _ => rfl⟩
            show (p.executed ++ runningTasks (p.workers_.set i .exited)).Perm p.taken
            rw [runningTasks_set_exited _ _ hw]
            exact h2
          · simp [hs] at h
        | cons t rest =>
          simp only [ht, Option.some.injEq] at h
          subst h
          refine ⟨?_, ?_, set_ne_nil _ _ _ h3, fun hm => h4 (exited_mem_set (by simp) hm)⟩
          · show p.taken ++ [t] ++ rest = p.enqueued
            rw [← h1, ht]; simp
          · show (p.executed ++ runningTasks (p.workers_.set i (.running t))).Perm
              (p.taken ++ [t])
            have := runningTasks_set_running p.workers_ i t hw
            refine (List.Perm.append_left _ this).trans ?_
            refine List.Perm.trans ?_ (List.Perm.append_right [t] h2)
            simp only [List.append_assoc]
            refine List.Perm.append_left _ ?_
            exact @List.perm_append_comm _ [t] (runningTasks p.workers_)

theorem run_inv {p q : ThreadPool α} (evs : List (PoolEvent α)) (hp : PoolInv p)
    (h : p.run evs = some q) : PoolInv q := by
  induction evs generalizing p with
  | nil =>
    simp only [run, Option.some.injEq] at h
    subst h; exact hp
  | cons e es ih =>
    simp only [run] at h
    cases hs : p.step e with
    | none => simp [hs] at h
    | some r =>
      simp only [hs, Option.some_bind] at h
      exact ih (step_inv hp hs) h

/-- A worker changes to `exited` only in a step taken with `stop_` set and the
queue empty. -/
theorem exit_only_when_stopped {p q : ThreadPool α} {e : PoolEvent α} {i : Nat}
    (h : p.step e = some q) (hq : q.workers_[i]? = some Worker.exited)
    (hp : p.workers_[i]? ≠ some Worker.exited) : p.stop_ = true ∧ p.tasks_ = [] := by
  cases e with
  | enqueue t =>
    simp only [step, Option.some.injEq] at h
    subst h; exact absurd hq hp
  | shutdown =>
    simp only [step, Option.some.injEq] at h
    subst h; exact absurd hq hp
  | finish j =>
    simp only [step] at h
    cases hw : p.workers_[j]? with
    | none => simp [hw] at h
    | some w =>
      cases w with
      | waiting => simp [hw] at h
      | exited => simp [hw] at h
      | running t =>
        simp only [hw, Option.some.injEq] at h
        subst h
        simp only [List.getElem?_set] at hq
        split at hq
        · split at hq <;> simp at hq
        · exact absurd hq hp
  | wake j =>
    simp only [step] at h
    cases hw : p.workers_[j]? with
    | none => simp [hw] at h
    | some w =>
      cases w with
      | running t => simp [hw] at h
      | exited => simp [hw] at h
      | waiting =>
        simp only [hw] at h
        cases ht : p.tasks_ with
        | nil =>
          simp only [ht] at h
          by_cases hs : p.stop_ = true
          · exact ⟨hs, rfl⟩
          · simp [hs] at h
        | cons t rest =>
          simp only [ht, Option.some.injEq] at h
          subst h
          simp only [List.getElem?_set] at hq
          split at hq
          · split at hq <;> simp at hq
          · exact absurd hq hp

theorem step_prefix_kept {p q : ThreadPool α} {e : PoolEvent α} (K : List α) (hp : PoolInv p)
    (h : p.step e = some q)
    (hK : K <+: p.enqueued ∧ (Worker.exited ∈ p.workers_ → K <+: p.taken)) :
    K <+: q.enqueued ∧ (Worker.exited ∈ q.workers_ → K <+: q.taken) := by
  obtain ⟨hK1, hK2⟩ := hK
  cases e with
  | enqueue t =>
    simp only [step, Option.some.injEq] at h
    subst h
    exact ⟨hK1.trans (List.prefix_append _ _), hK2⟩
  | shutdown =>
    simp only [step, Option.some.injEq] at h
    subst h
    exact ⟨hK1, hK2⟩
  | finish i =>
    simp only [step] at h
    cases hw : p.workers_[i]? with
    | none => simp [hw] at h
    | some w =>
      cases w with
      | waiting => simp [hw] at h
      | exited => simp [hw] at h
      | running t =>
        simp only [hw, Option.some.injEq] at h
        subst h
        exact ⟨hK1, fun hm => hK2 (exited_mem_set (by simp) hm)⟩
  | wake i =>
    simp only [step] at h
    cases hw : p.workers_[i]? with
    | none => simp [hw] at h
    | some w =>
      cases w with
      | running t => simp [hw] at h
      | exited => simp [hw] at h
      | waiting =>
        simp only [hw] at h
        cases ht : p.tasks_ with
        | nil =>
          simp only [ht] at h
          by_cases hs : p.stop_ = true
          · simp only [hs, if_true, Option.some.injEq] at h
            subst h
            refine ⟨hK1, fun _ => ?_⟩
            have h1 := hp.1
            rw [ht, List.append_nil] at h1
            show K <+: p.taken
            rw [h1]; exact hK1
          · simp [hs] at h
        | cons t rest =>
          simp only [ht, Option.some.injEq] at h
          subst h
          exact ⟨hK1, fun hm =>
            (hK2 (exited_mem_set (by simp) hm)).trans (List.prefix_append _ _)⟩

theorem run_prefix_kept {p q : ThreadPool α} (evs : List (PoolEvent α)) (K : List α)
    (hp : PoolInv p) (h : p.run evs = some q)
    (hK : K <+: p.enqueued ∧ (Worker.exited ∈ p.workers_ → K <+: p.taken)) :
    K <+: q.enqueued ∧ (Worker.exited ∈ q.workers_ → K <+: q.taken) := by
  induction evs generalizing p with
  | nil =>
    simp only [run, Option.some.injEq] at h
    subst h; exact hK
  | cons e es ih =>
    simp only [run] at h
    cases hs : p.step e with
    | none => simp [hs] at h
    | some r =>
      simp only [hs, Option.some_bind] at h
      exact ih (step_inv hp hs) h (step_prefix_kept K hp hs hK)

theorem run_enqueued {p q : ThreadPool α} (evs : List (PoolEvent α))
    (h : p.run evs = some q) (hno : ∀ t, PoolEvent.enqueue t ∉ evs) :
    q.enqueued = p.enqueued := by
  induction evs generalizing p with
  | nil =>
    simp only [run, Option.some.injEq] at h
    subst h; rfl
  | cons e es ih =>
    simp only [run] at h
    cases hs : p.step e with
    | none => simp [hs] at h
    | some r =>
      simp only [hs, Option.some_bind] at h
      rw [ih h (fun t ht => hno t (List.mem_cons_of_mem _ ht))]
      cases e with
      | enqueue t => exact absurd (List.mem_cons_self _ _) (hno t)
      | shutdown =>
        simp only [step, Option.some.injEq] at hs
        subst hs; rfl
      | finish i =>
        simp only [step] at hs
        split at hs
        · simp only [Option.some.injEq] at hs
          subst hs; rfl
        · simp at hs
      | wake i =>
        simp only [step] at hs
        split at hs
        · split at hs
          · simp only [Option.some.injEq] at hs
            subst hs; rfl
          · split at hs
            · simp only [Option.some.injEq] at hs
              subst hs; rfl
            · simp at hs
        · simp at hs

theorem runningTasks_of_allExited {ws : List (Worker α)}
    (h : ∀ w ∈ ws, w = Worker.exited) : runningTasks ws = [] := by
  induction ws with
  | nil => rfl
  | cons w rest ih =>
    have hw := h w (List.mem_cons_self _ _)
    subst hw
    simpa [runningTasks] using ih (fun w hw => h w (List.mem_cons_of_mem _ hw))

/-- C7. In every state reached by the steps of the pool, the tasks taken by
workers followed by the pending queue are the enqueued tasks in submission order
(none dropped, none taken twice, taken in FIFO order), and the taken tasks are
those whose call has returned together with those still running; a worker returns
only in a step taken with the stop flag set and the queue empty; and once all
workers have returned after a shutdown, the tasks enqueued before the shutdown
are an initial part of the taken tasks and every taken task has been executed
exactly once (if nothing is enqueued after the shutdown, the executed tasks are
exactly the `K` enqueued ones). -/
theorem exactly_once_fifo (n : Nat) (evs : List (PoolEvent α)) (p : ThreadPool α)
    (h : (init n : ThreadPool α).run evs = some p) :
    p.taken ++ p.tasks_ = p.enqueued ∧
    (p.executed ++ runningTasks p.workers_).Perm p.taken ∧
    (∀ (e : PoolEvent α) (q : ThreadPool α) (i : Nat), p.step e = some q →
      q.workers_[i]? = some Worker.exited →
      p.workers_[i]? ≠ some Worker.exited → p.stop_ = true ∧ p.tasks_ = []) ∧
    (∀ post q, p.stop_ = false → p.run (PoolEvent.shutdown :: post) = some q →
      AllExited q →
      p.enqueued <+: q.taken ∧ q.executed.Perm q.taken ∧
      q.taken ++ q.tasks_ = q.enqueued ∧
      ((∀ t, PoolEvent.enqueue t ∉ post) →
        q.executed.Perm p.enqueued ∧ q.executed.length = p.enqueued.length ∧
        q.tasks_ = [])) := by
  have hinv : PoolInv p := run_inv evs (poolInv_init n) h
  refine ⟨hinv.1, hinv.2.1, fun e q i hs hq hp => exit_only_when_stopped hs hq hp,
    fun post q hstop hrun hall => ?_⟩
  have hqinv : PoolInv q := run_inv _ hinv hrun
  have hnoexit : Worker.exited ∉ p.workers_ := fun hm => by
    have := hinv.2.2.2 hm
    rw [hstop] at this
    exact absurd this (by simp)
  have hpre := run_prefix_kept _ p.enqueued hinv hrun
    ⟨List.prefix_refl _, fun hm => absurd hm hnoexit⟩
  have hex : Worker.exited ∈ q.workers_ := by
    obtain ⟨w, rest, hw⟩ := List.exists_cons_of_ne_nil hqinv.2.2.1
    have := hall w (by rw [hw]; exact List.mem_cons_self _ _)
    rw [hw, this]
    exact List.mem_cons_self _ _
  have hperm : q.executed.Perm q.taken := by
    have := hqinv.2.1
    rwa [runningTasks_of_allExited hall, List.append_nil] at this
  refine ⟨hpre.2 hex, hperm, hqinv.1, fun hno => ?_⟩
  have henq : q.enqueued = p.enqueued := by
    have := run_enqueued (PoolEvent.shutdown :: post) hrun (fun t ht => by
      rcases List.mem_cons.mp ht with h1 | h1
      · exact absurd h1 (by simp)
      · exact hno t h1)
    exact this
  have htaken : q.taken = p.enqueued ∧ q.tasks_ = [] := by
    obtain ⟨r, hr⟩ := hpre.2 hex
    have h1 := hqinv.1
    rw [henq, ← hr, List.append_assoc] at h1
    have h2 : r ++ q.tasks_ = [] := by
      exact @List.append_cancel_left _ p.enqueued (r ++ q.tasks_) []
        (by rw [h1, List.append_nil])
    obtain ⟨h3, h4⟩ := List.append_eq_nil.mp h2
    exact ⟨by rw [← hr, h3, List.append_nil], h4⟩
  exact ⟨htaken.1 ▸ hperm, by rw [hperm.length_eq, htaken.1], htaken.2⟩

/-- A witness of `exactly_once_fifo`: two workers, two tasks, the shutdown while
task `1` is still running. -/
theorem exactly_once_fifo_witness :
    ∃ p q : ThreadPool Nat,
      (init 2 : ThreadPool Nat).run
        [.enqueue 1, .enqueue 2, .wake 0, .wake 1, .finish 1] = some p ∧
      p.run [.shutdown, .finish 0, .wake 0, .wake 1] = some q ∧
      AllExited q ∧ q.executed = [2, 1] ∧ q.executed.Perm [1, 2] :=
  ⟨{ workers_ := [.running 1, .waiting], tasks_ := [], stop_ := false,
     enqueued := [1, 2], taken := [1, 2], executed := [2] },
   { workers_ := [.exited, .exited], tasks_ := [], stop_ := true,
     enqueued := [1, 2], taken := [1, 2], executed := [2, 1] },
   rfl, rfl, by unfold AllExited; decide, rfl,
   ((exactly_once_fifo 2 [.enqueue 1, .enqueue 2, .wake 0, .wake 1, .finish 1] _ rfl).2.2.2
      [.finish 0, .wake 0, .wake 1] _ rfl rfl (by unfold AllExited; decide)).2.2.2
      (by intro t ht; simp at ht) |>.1⟩

end ThreadPool

/-! ## The connection handler and the metrics -/

theorem log_request_metrics (g : Metrics) (client : Str) (status : Int) (bytes : Nat)
    (ts : Str) : log_request g client ADMIN_METRICS status bytes ts = g := by
  unfold log_request
  rw [if_pos rfl]

theorem requestStats_enter (g : Metrics) :
    (ConnectionGuard.enter g).requestStats = g.requestStats := rfl

theorem requestStats_leave (g : Metrics) :
    (ConnectionGuard.leave g).requestStats = g.requestStats := rfl

theorem handle_client_metrics (s : Server) (client_ip : Str) (io : ClientIO)
    (h : IsMetricsRequest io) :
    (handle_client s client_ip io).server.g.requestStats = s.g.requestStats ∧
    (handle_client s client_ip io).server.cache_ = s.cache_ ∧
    (handle_client s client_ip io).server.root_dir_ = s.root_dir_ := by
  obtain ⟨hok, r, hr, hpath⟩ := h
  have hstats : (handle_client s client_ip io).server.g.requestStats = s.g.requestStats := by
    unfold handle_client
    simp only [hok, Bool.false_eq_true, if_false, hr, hpath, if_true, log_request_metrics]
    rfl
  have hcache : (handle_client s client_ip io).server.cache_ = s.cache_ := by
    unfold handle_client
    simp only [hok, Bool.false_eq_true, if_false, hr, hpath, if_true]
  have hroot : (handle_client s client_ip io).server.root_dir_ = s.root_dir_ := by
    unfold handle_client
    simp only [hok, Bool.false_eq_true, if_false, hr, hpath, if_true]
  exact ⟨hstats, hcache, hroot⟩

/-- C6. Metrics exclusion: `log_request` called with the path `/admin/metrics`
changes nothing (so `total_requests`, `bytes_sent`, the six status buckets and
the recent-log buffer stay as they are); hence handling a request whose parsed
path is `/admin/metrics`, and handling any number of them one after the other,
leaves all of these unchanged. -/
theorem metrics_exclusion :
    (∀ (g : Metrics) (client : Str) (status : Int) (bytes : Nat) (ts : Str),
      log_request g client ADMIN_METRICS status bytes ts = g) ∧
    (∀ (s : Server) (client_ip : Str) (io : ClientIO), IsMetricsRequest io →
      (handle_client s client_ip io).server.g.requestStats = s.g.requestStats) ∧
    (∀ (s : Server) (conns : List (Str × ClientIO)),
      (∀ c ∈ conns, IsMetricsRequest c.2) →
      (serveAll s conns).g.requestStats = s.g.requestStats) := by
  refine ⟨log_request_metrics, fun s ip io h => (handle_client_metrics s ip io h).1,
    fun s conns => ?_⟩
  induction conns generalizing s with
  | nil => intro _; rfl
  | cons c rest ih =>
    intro hall
    have hc := handle_client_metrics s c.1 c.2 (hall c (List.mem_cons_self _ _))
    show (serveAll (handle_client s c.1 c.2).server rest).g.requestStats = _
    rw [ih _ (fun d hd => hall d (List.mem_cons_of_mem _ hd)), hc.1]

/-- A witness of `metrics_exclusion`: the request `GET /admin/metrics HTTP/1.0`
arriving in one piece at a fresh server. -/
theorem metrics_exclusion_witness :
    (handle_client (Server.init "./static".toList) "127.0.0.1".toList
      { recvs := [Recv.data "GET /admin/metrics HTTP/1.0\r\n\r\n".toList],
        fs := FileSystem.vacant, now := "2024-01-01 00:00:00".toList,
        uptime := 5 }).server.g.requestStats = (0, 0, [0, 0, 0, 0, 0, 0], []) :=
  metrics_exclusion.2.1 (Server.init "./static".toList) "127.0.0.1".toList
    { recvs := [Recv.data "GET /admin/metrics HTTP/1.0\r\n\r\n".toList],
      fs := FileSystem.vacant, now := "2024-01-01 00:00:00".toList, uptime := 5 }
    ⟨by decide, _, rfl, by decide⟩

/-! ## The answers of the router -/

/-- C11. For every request whose method is not exactly `GET`, and every path,
root, file system and cache, `Router::handle` returns status 405 with content
type `text/plain` and body `Method Not Allowed\n`, makes no file-system query and
no cache call, and leaves the cache (index and recency order) as it was. -/
theorem method_not_allowed (root_ : Str) (fs : FileSystem) (cache_ : LRUCache)
    (req : HttpRequest) (h : req.method ≠ "GET".toList) :
    (handle root_ fs cache_ req).status_code = 405 ∧
    (handle root_ fs cache_ req).content_type = "text/plain".toList ∧
    (handle root_ fs cache_ req).body = "Method Not Allowed\n".toList ∧
    (handle root_ fs cache_ req).fsCalls = [] ∧
    (handle root_ fs cache_ req).cacheCalls = 0 ∧
    (handle root_ fs cache_ req).cache = cache_ := by
  unfold handle
  rw [if_pos h]
  exact ⟨rfl, rfl, rfl, rfl, rfl, rfl⟩

/-- A witness of `method_not_allowed`: the request `POST /index.html`. -/
theorem method_not_allowed_witness :
    (handle "./static".toList FileSystem.vacant (LRUCache.init 100)
      (postRequest "/index.html".toList)).status_code = 405 :=
  (method_not_allowed "./static".toList FileSystem.vacant (LRUCache.init 100)
    (postRequest "/index.html".toList) (by decide)).1

theorem serve_file_absent (root_ : Str) (fs : FileSystem) (cache_ : LRUCache) (rel : Str)
    (h : fs.exists_ (pathAppend root_ (relative_path rel)) = false ∨
      fs.is_directory (pathAppend root_ (relative_path rel)) = true) :
    (serve_file root_ fs cache_ rel).status_code = 404 ∧
    (serve_file root_ fs cache_ rel).content_type = "text/plain".toList ∧
    (serve_file root_ fs cache_ rel).body = "Not Found\n".toList ∧
    (serve_file root_ fs cache_ rel).cacheCalls = 0 ∧
    (serve_file root_ fs cache_ rel).cache = cache_ := by
  unfold serve_file
  simp only
  by_cases he : fs.exists_ (pathAppend root_ (relative_path rel)) = false
  · rw [if_pos he]
    exact ⟨rfl, rfl, rfl, rfl, rfl⟩
  · rw [if_neg he]
    have hd : fs.is_directory (pathAppend root_ (relative_path rel)) = true := by
      rcases h with h | h
      · exact absurd h he
      · exact h
    rw [if_pos hd]
    exact ⟨rfl, rfl, rfl, rfl, rfl⟩

theorem lookup_put_self (c : LRUCache) (k v : Str) : (c.put k v).map_.lookup k = some v := by
  by_cases hk : k ∈ c.map_
  · rw [LRUCache.put_of_mem c k v hk]
    exact LRUCache.lookup_replace_self c.map_ k v hk
  · rw [LRUCache.put_of_not_mem c k v hk]
    exact AList.lookup_insert _

theorem serve_file_miss (root_ : Str) (fs : FileSystem) (cache_ : LRUCache) (rel B : Str)
    (hex : fs.exists_ (pathAppend root_ (relative_path rel)) = true)
    (hnd : fs.is_directory (pathAppend root_ (relative_path rel)) = false)
    (hmiss : cache_.map_.lookup (pathAppend root_ (relative_path rel)) = none)
    (hread : fs.open_read (pathAppend root_ (relative_path rel)) = some B) :
    (serve_file root_ fs cache_ rel).status_code = 200 ∧
    (serve_file root_ fs cache_ rel).body = B ∧
    (serve_file root_ fs cache_ rel).content_type =
      get_mime_type (pathAppend root_ (relative_path rel)) ∧
    (serve_file root_ fs cache_ rel).cache =
      cache_.put (pathAppend root_ (relative_path rel)) B ∧
    (serve_file root_ fs cache_ rel).fsCalls =
      [FsCall.exists_ (pathAppend root_ (relative_path rel)),
       FsCall.is_directory (pathAppend root_ (relative_path rel)),
       FsCall.open_read (pathAppend root_ (relative_path rel))] := by
  have hg : cache_.get (pathAppend root_ (relative_path rel)) = (none, cache_) := by
    unfold LRUCache.get
    rw [hmiss]
  unfold serve_file
  simp only [hex, hnd, hg, hread, Bool.true_eq_false, Bool.false_eq_true, if_false]
  refine ⟨?_, ?_, ?_, ?_, ?_⟩ <;> trivial

theorem tableType_unlisted (ext : Str) (h : ext ∉ mimeTable.map Prod.fst) :
    tableType ext = "application/octet-stream".toList := by
  unfold tableType
  have : mimeTable.find? (fun e => decide (e.1 = ext)) = none := by
    rw [List.find?_eq_none]
    intro e he hc
    simp only [decide_eq_true_eq] at hc
    exact h (List.mem_map.mpr ⟨e, he, hc⟩)
  rw [this]

theorem get_mime_type_eq_table (p : Str) : get_mime_type p = tableType (extension p) := by
  unfold get_mime_type
  generalize extension p = ext
  by_cases h : ext ∈ mimeTable.map Prod.fst
  · have h2 : ext ∈ [".html".toList, ".htm".toList, ".css".toList, ".js".toList,
        ".json".toList, ".png".toList, ".jpg".toList, ".jpeg".toList, ".gif".toList,
        ".txt".toList] := h
    simp only [List.mem_cons, List.mem_singleton, List.not_mem_nil, or_false] at h2
    rcases h2 with rfl | rfl | rfl | rfl | rfl | rfl | rfl | rfl | rfl | rfl <;> rfl
  · rw [tableType_unlisted ext h]
    have hn : ∀ l, l ∈ mimeTable.map Prod.fst → ¬ ext = l := fun l hl e => h (e ▸ hl)
    have h1 := hn ".html".toList (by decide)
    have h2 := hn ".htm".toList (by decide)
    have h3 := hn ".css".toList (by decide)
    have h4 := hn ".js".toList (by decide)
    have h5 := hn ".json".toList (by decide)
    have h6 := hn ".png".toList (by decide)
    have h7 := hn ".jpg".toList (by decide)
    have h8 := hn ".jpeg".toList (by decide)
    have h9 := hn ".gif".toList (by decide)
    have h10 := hn ".txt".toList (by decide)
    simp only [h1, h2, h3, h4, h5, h6, h7, h8, h9, h10, or_self, if_false]

theorem filename_append (pre name : Str) (h : '/' ∉ name) :
    filename (pre ++ '/' :: name) = name := by
  unfold filename
  have hr : (pre ++ '/' :: name).reverse = name.reverse ++ '/' :: pre.reverse := by simp
  rw [hr, List.takeWhile_append_of_pos, List.takeWhile_cons_of_neg (by simp)]
  · simp
  · intro c hc
    have : c ≠ '/' := fun e => h (by rw [← e]; exact List.mem_reverse.mp hc)
    simpa using this

theorem filename_self (name : Str) (h : '/' ∉ name) : filename name = name := by
  unfold filename
  rw [List.takeWhile_eq_self_iff.mpr, List.reverse_reverse]
  intro c hc
  have : c ≠ '/' := fun e => h (by rw [← e]; exact List.mem_reverse.mp hc)
  simpa using this

theorem filename_pathAppend (root_ name : Str) (h : '/' ∉ name) :
    filename (pathAppend root_ name) = name := by
  have hh : name.head? ≠ some '/' := by
    intro hc
    cases name with
    | nil => simp at hc
    | cons c cs =>
      simp only [List.head?_cons, Option.some.injEq] at hc
      exact h (by rw [hc]; exact List.mem_cons_self _ _)
  unfold pathAppend
  by_cases hr : root_ = []
  · rw [if_pos (Or.inr hr)]
    exact filename_self name h
  · rw [if_neg (by simp [hh, hr])]
    split
    · rename_i hl
      obtain ⟨pre, hpre⟩ : ∃ pre, root_ = pre ++ ['/'] :=
        ⟨root_.dropLast, (List.dropLast_append_getLast? '/' hl).symm⟩
      rw [hpre, List.append_assoc]
      exact filename_append pre name h
    · exact filename_append root_ name h

theorem extension_congr {p q : Str} (h : filename p = filename q) :
    extension p = extension q := by
  unfold extension
  rw [h]

theorem index_path_facts (p : Str)
    (hp : p ∈ ["/".toList, [], "/index.html".toList]) :
    find DOTDOT (lexically_normal (defaultPath p)) = none ∧
    relative_path (lexically_normal (defaultPath p)) = "index.html".toList := by
  simp only [List.mem_cons, List.mem_singleton, List.not_mem_nil, or_false] at hp
  rcases hp with rfl | rfl | rfl <;> exact ⟨by decide, by decide⟩

theorem mime_of_index (root_ : Str) :
    get_mime_type (pathAppend root_ "index.html".toList) = "text/html".toList := by
  have hf : filename (pathAppend root_ "index.html".toList) = filename "index.html".toList := by
    rw [filename_pathAppend root_ _ (by decide)]
    decide
  rw [get_mime_type_eq_table, extension_congr hf]
  decide

/-- C13. If `index.html` under the root exists, is no directory, can be read with
content `B` and is not cached, a `GET` request with path `/`, with the empty path
or with `/index.html` is answered 200 with content type `text/html` and body `B`,
and afterwards the cache holds `B` under the resolved path. More generally, on a
cache miss for an existing readable file the body is the file content, the
content type is the one the extension table gives for the extension of the
resolved path (`application/octet-stream` when the extension is not listed), and
the content is stored in the cache. -/
theorem serves_file_on_miss (root_ : Str) (fs : FileSystem) (cache_ : LRUCache)
    (req : HttpRequest) (B : Str) (hget : req.method = "GET".toList) :
    (req.path ∈ ["/".toList, [], "/index.html".toList] →
      fs.exists_ (pathAppend root_ "index.html".toList) = true →
      fs.is_directory (pathAppend root_ "index.html".toList) = false →
      fs.open_read (pathAppend root_ "index.html".toList) = some B →
      cache_.map_.lookup (pathAppend root_ "index.html".toList) = none →
      (handle root_ fs cache_ req).status_code = 200 ∧
      (handle root_ fs cache_ req).content_type = "text/html".toList ∧
      (handle root_ fs cache_ req).body = B ∧
      (handle root_ fs cache_ req).cache.map_.lookup
        (pathAppend root_ "index.html".toList) = some B ∧
      ((handle root_ fs cache_ req).cache.get
        (pathAppend root_ "index.html".toList)).1 = some B) ∧
    (PassesTraversalCheck req.path →
      fs.exists_ (resolvedPath root_ req.path) = true →
      fs.is_directory (resolvedPath root_ req.path) = false →
      fs.open_read (resolvedPath root_ req.path) = some B →
      cache_.map_.lookup (resolvedPath root_ req.path) = none →
      (handle root_ fs cache_ req).status_code = 200 ∧
      (handle root_ fs cache_ req).body = B ∧
      (handle root_ fs cache_ req).content_type =
        tableType (extension (resolvedPath root_ req.path)) ∧
      (handle root_ fs cache_ req).cache = cache_.put (resolvedPath root_ req.path) B ∧
      (handle root_ fs cache_ req).cache.map_.lookup (resolvedPath root_ req.path) = some B) ∧
    (∀ ext, ext ∉ mimeTable.map Prod.fst →
      tableType ext = "application/octet-stream".toList) := by
  have general : PassesTraversalCheck req.path →
      fs.exists_ (resolvedPath root_ req.path) = true →
      fs.is_directory (resolvedPath root_ req.path) = false →
      fs.open_read (resolvedPath root_ req.path) = some B →
      cache_.map_.lookup (resolvedPath root_ req.path) = none →
      (handle root_ fs cache_ req).status_code = 200 ∧
      (handle root_ fs cache_ req).body = B ∧
      (handle root_ fs cache_ req).content_type =
        get_mime_type (resolvedPath root_ req.path) ∧
      (handle root_ fs cache_ req).cache = cache_.put (resolvedPath root_ req.path) B := by
    intro hpass hex hnd hread hmiss
    rw [handle_served root_ fs cache_ req hget hpass]
    obtain ⟨h1, h2, h3, h4, _⟩ := serve_file_miss root_ fs cache_ _ B hex hnd hmiss hread
    exact ⟨h1, h2, h3, h4⟩
  refine ⟨fun hp hex hnd hread hmiss => ?_, fun hpass hex hnd hread hmiss => ?_,
    tableType_unlisted⟩
  · obtain ⟨hfind, hrel⟩ := index_path_facts req.path hp
    have hres : resolvedPath root_ req.path = pathAppend root_ "index.html".toList := by
      unfold resolvedPath
      rw [hrel]
    rw [← hres] at hex hnd hread hmiss
    obtain ⟨h1, h2, h3, h4⟩ := general hfind hex hnd hread hmiss
    have hl : (handle root_ fs cache_ req).cache.map_.lookup
        (pathAppend root_ "index.html".toList) = some B := by
      rw [h4, hres]
      exact lookup_put_self _ _ _
    refine ⟨h1, ?_, h2, hl, ?_⟩
    · rw [h3, hres]
      exact mime_of_index root_
    · rw [LRUCache.get_fst]
      exact hl
  · obtain ⟨h1, h2, h3, h4⟩ := general hpass hex hnd hread hmiss
    refine ⟨h1, h2, ?_, h4, ?_⟩
    · rw [h3, get_mime_type_eq_table]
    · rw [h4]
      exact lookup_put_self _ _ _

/-- A witness of `serves_file_on_miss`: the root `./static` holds `index.html` with
content `hello`, and the request is `GET /`. -/
theorem serves_file_on_miss_witness :
    (handle "./static".toList
      { exists_ := fun p => decide (p = "./static/index.html".toList),
        is_directory := fun _ => false,
        open_read := fun p =>
          if p = "./static/index.html".toList then some "hello".toList else none }
      (LRUCache.init 100) (getRequest "/".toList)).body = "hello".toList :=
  ((serves_file_on_miss "./static".toList
      { exists_ := fun p => decide (p = "./static/index.html".toList),
        is_directory := fun _ => false,
        open_read := fun p =>
          if p = "./static/index.html".toList then some "hello".toList else none }
      (LRUCache.init 100) (getRequest "/".toList) "hello".toList rfl).1
    (by decide) (by decide) rfl (by decide) (by decide)).2.2.1

/-! ### The stale cache -/

theorem countStatus_recent (g : Metrics) (status : Int) :
    (countStatus g status).g_recent_logs = g.g_recent_logs ∧
    (countStatus g status).g_total_requests = g.g_total_requests ∧
    (countStatus g status).g_bytes_sent = g.g_bytes_sent := by
  unfold countStatus
  split_ifs <;> exact ⟨rfl, rfl, rfl⟩

theorem log_request_recent (g : Metrics) (client path : Str) (status : Int) (bytes : Nat)
    (ts : Str) (h : path ≠ ADMIN_METRICS) :
    (log_request g client path status bytes ts).g_recent_logs =
      if MAX_RECENT_LOGS < (g.g_recent_logs ++
          [(⟨ts, client, path, status, bytes⟩ : RequestLogEntry)]).length
      then (g.g_recent_logs ++
          [(⟨ts, client, path, status, bytes⟩ : RequestLogEntry)]).tail
      else g.g_recent_logs ++
          [(⟨ts, client, path, status, bytes⟩ : RequestLogEntry)] := by
  unfold log_request
  rw [if_neg h]
  simp only [(countStatus_recent _ status).1]

theorem drop_push {α : Type} (es : List α) (e : α) (cap : Nat) (hcap : 0 < cap) :
    (if cap < (es.drop (es.length - cap) ++ [e]).length
      then (es.drop (es.length - cap) ++ [e]).tail
      else es.drop (es.length - cap) ++ [e]) =
    (es ++ [e]).drop ((es ++ [e]).length - cap) := by
  by_cases h : cap ≤ es.length
  · have hlen : (es.drop (es.length - cap) ++ [e]).length = cap + 1 := by
      simp only [List.length_append, List.length_drop, List.length_singleton]
      omega
    rw [if_pos (by omega)]
    have h1 : (es ++ [e]).length - cap = (es.length - cap) + 1 := by
      simp only [List.length_append, List.length_singleton]
      omega
    rw [h1, ← List.drop_drop, List.drop_append_of_le_length (by omega)]
    rw [List.drop_one]
  · have h0 : es.length - cap = 0 := by omega
    have h1 : (es ++ [e]).length - cap = 0 := by
      simp only [List.length_append, List.length_singleton]
      omega
    rw [h0, h1, List.drop_zero, List.drop_zero, if_neg]
    simp only [List.length_append, List.length_singleton]
    omega

theorem logAll_recent (g0 : Metrics) (calls : List LogCall) (h0 : g0.g_recent_logs = [])
    (hp : ∀ c ∈ calls, c.path ≠ ADMIN_METRICS) :
    (logAll g0 calls).g_recent_logs =
      (calls.map LogCall.entry).drop (calls.length - MAX_RECENT_LOGS) := by
  induction calls using List.reverseRecOn with
  | nil => simpa [logAll] using h0
  | append_singleton cs c ih =>
    have ih2 := ih (fun d hd => hp d (List.mem_append_left _ hd))
    have hc : c.path ≠ ADMIN_METRICS := hp c (by simp)
    unfold logAll at ih2 ⊢
    rw [List.foldl_append, List.foldl_cons, List.foldl_nil]
    show (log_request _ c.client c.path c.status c.bytes c.ts).g_recent_logs = _
    rw [log_request_recent _ _ _ _ _ _ hc, ih2]
    have := drop_push (cs.map LogCall.entry) c.entry MAX_RECENT_LOGS (by decide)
    simp only [List.length_map] at this
    rw [List.map_append, List.length_append, List.map_cons, List.map_nil, List.length_singleton]
    simp only [List.length_append, List.length_singleton, List.length_map] at this ⊢
    first | done | exact this

/-- C15. Recent-log ring buffer: starting from an empty buffer, after `n` calls of
`log_request` with paths other than `/admin/metrics` the buffer holds exactly the
last `min(n, 100)` logged entries in insertion order, oldest first; its length
never exceeds 100; and an append to a full buffer removes exactly the oldest
entry. -/
theorem recent_log_ring (g0 : Metrics) (calls : List LogCall) (h0 : g0.g_recent_logs = [])
    (hp : ∀ c ∈ calls, c.path ≠ ADMIN_METRICS) :
    MAX_RECENT_LOGS = 100 ∧
    (logAll g0 calls).g_recent_logs =
      (calls.map LogCall.entry).drop (calls.length - min calls.length 100) ∧
    (logAll g0 calls).g_recent_logs.length = min calls.length 100 ∧
    (logAll g0 calls).g_recent_logs.length ≤ 100 ∧
    (∀ c : LogCall, c.path ≠ ADMIN_METRICS →
      (logAll g0 calls).g_recent_logs.length = 100 →
      (logCall (logAll g0 calls) c).g_recent_logs =
        (logAll g0 calls).g_recent_logs.tail ++ [c.entry]) := by
  have hrec := logAll_recent g0 calls h0 hp
  have hM : MAX_RECENT_LOGS = 100 := rfl
  rw [hM] at hrec
  have hidx : calls.length - min calls.length 100 = calls.length - 100 := by omega
  have hlen : (logAll g0 calls).g_recent_logs.length = min calls.length 100 := by
    rw [hrec, List.length_drop, List.length_map]
    omega
  refine ⟨hM, by rw [hidx]; exact hrec, hlen, by rw [hlen]; omega, fun c hc hfull => ?_⟩
  unfold logCall
  rw [log_request_recent _ _ _ _ _ _ hc, hM]
  have : 100 < ((logAll g0 calls).g_recent_logs ++
      [(⟨c.ts, c.client, c.path, c.status, c.bytes⟩ : RequestLogEntry)]).length := by
    rw [List.length_append, hfull]
    simp
  rw [if_pos this]
  cases hl : (logAll g0 calls).g_recent_logs with
  | nil => rw [hl] at hfull; simp at hfull
  | cons x xs => rfl

/-- A witness of `recent_log_ring`: two logged requests. -/
theorem recent_log_ring_witness :
    (logAll Metrics.init
      [{ client := ['c'], path := ['/', 'a'], status := 200, bytes := 5, ts := ['t'] },
       { client := ['c'], path := ['/', 'b'], status := 404, bytes := 7, ts := ['u'] }]
      ).g_recent_logs.length = min 2 100 :=
  (recent_log_ring Metrics.init
    [{ client := ['c'], path := ['/', 'a'], status := 200, bytes := 5, ts := ['t'] },
     { client := ['c'], path := ['/', 'b'], status := 404, bytes := 7, ts := ['u'] }]
    rfl (by decide)).2.2.1

theorem log_request_total (g : Metrics) (client path : Str) (status : Int) (bytes : Nat)
    (ts : Str) (h : path ≠ ADMIN_METRICS) :
    (log_request g client path status bytes ts).g_total_requests =
      (g.g_total_requests + 1) % SIZE_MOD ∧
    (log_request g client path status bytes ts).g_bytes_sent =
      (g.g_bytes_sent + bytes) % SIZE_MOD := by
  unfold log_request
  rw [if_neg h]
  simp only [(countStatus_recent _ status).2.1, (countStatus_recent _ status).2.2]
  exact ⟨trivial, trivial⟩

theorem countStatus_200 (g : Metrics) (status : Int) :
    (countStatus g status).g_status_200 =
      if status = 200 then (g.g_status_200 + 1) % SIZE_MOD else g.g_status_200 := by
  unfold countStatus
  by_cases h : status = 200
  · subst h
    simp
  · rw [if_neg h]
    split_ifs <;> rfl

theorem countStatus_400 (g : Metrics) (status : Int) :
    (countStatus g status).g_status_400 =
      if status = 400 then (g.g_status_400 + 1) % SIZE_MOD else g.g_status_400 := by
  unfold countStatus
  by_cases h : status = 400
  · subst h
    simp
  · rw [if_neg h]
    split_ifs <;> rfl

theorem countStatus_403 (g : Metrics) (status : Int) :
    (countStatus g status).g_status_403 =
      if status = 403 then (g.g_status_403 + 1) % SIZE_MOD else g.g_status_403 := by
  unfold countStatus
  by_cases h : status = 403
  · subst h
    simp
  · rw [if_neg h]
    split_ifs <;> rfl

theorem countStatus_404 (g : Metrics) (status : Int) :
    (countStatus g status).g_status_404 =
      if status = 404 then (g.g_status_404 + 1) % SIZE_MOD else g.g_status_404 := by
  unfold countStatus
  by_cases h : status = 404
  · subst h
    simp
  · rw [if_neg h]
    split_ifs <;> rfl

theorem countStatus_405 (g : Metrics) (status : Int) :
    (countStatus g status).g_status_405 =
      if status = 405 then (g.g_status_405 + 1) % SIZE_MOD else g.g_status_405 := by
  unfold countStatus
  by_cases h : status = 405
  · subst h
    simp
  · rw [if_neg h]
    split_ifs <;> rfl

theorem countStatus_500 (g : Metrics) (status : Int) :
    (countStatus g status).g_status_500 =
      if status = 500 then (g.g_status_500 + 1) % SIZE_MOD else g.g_status_500 := by
  unfold countStatus
  by_cases h : status = 500
  · subst h
    simp
  · rw [if_neg h]
    split_ifs <;> rfl

theorem bucket_countStatus (g : Metrics) (status code : Int) (hc : code ∈ statusCodes) :
    (countStatus g status).bucket code =
      if code = status then (g.bucket code + 1) % SIZE_MOD else g.bucket code := by
  simp only [statusCodes, List.mem_cons, List.mem_singleton, List.not_mem_nil, or_false] at hc
  rcases hc with rfl | rfl | rfl | rfl | rfl | rfl
  · show (countStatus g status).g_status_200 = _
    rw [countStatus_200]
    by_cases h : status = 200
    · rw [if_pos h, if_pos h.symm]; rfl
    · rw [if_neg h, if_neg (fun e => h e.symm)]; rfl
  · show (countStatus g status).g_status_400 = _
    rw [countStatus_400]
    by_cases h : status = 400
    · rw [if_pos h, if_pos h.symm]; rfl
    · rw [if_neg h, if_neg (fun e => h e.symm)]; rfl
  · show (countStatus g status).g_status_403 = _
    rw [countStatus_403]
    by_cases h : status = 403
    · rw [if_pos h, if_pos h.symm]; rfl
    · rw [if_neg h, if_neg (fun e => h e.symm)]; rfl
  · show (countStatus g status).g_status_404 = _
    rw [countStatus_404]
    by_cases h : status = 404
    · rw [if_pos h, if_pos h.symm]; rfl
    · rw [if_neg h, if_neg (fun e => h e.symm)]; rfl
  · show (countStatus g status).g_status_405 = _
    rw [countStatus_405]
    by_cases h : status = 405
    · rw [if_pos h, if_pos h.symm]; rfl
    · rw [if_neg h, if_neg (fun e => h e.symm)]; rfl
  · show (countStatus g status).g_status_500 = _
    rw [countStatus_500]
    by_cases h : status = 500
    · rw [if_pos h, if_pos h.symm]; rfl
    · rw [if_neg h, if_neg (fun e => h e.symm)]; rfl

theorem log_request_bucket (g : Metrics) (client path : Str) (status : Int) (bytes : Nat)
    (ts : Str) (h : path ≠ ADMIN_METRICS) (code : Int) (hc : code ∈ statusCodes) :
    (log_request g client path status bytes ts).bucket code =
      if code = status then (g.bucket code + 1) % SIZE_MOD else g.bucket code := by
  have hb : ∀ g1 g2 : Metrics, g1.g_status_200 = g2.g_status_200 →
      g1.g_status_400 = g2.g_status_400 → g1.g_status_403 = g2.g_status_403 →
      g1.g_status_404 = g2.g_status_404 → g1.g_status_405 = g2.g_status_405 →
      g1.g_status_500 = g2.g_status_500 → g1.bucket code = g2.bucket code := by
    intro g1 g2 h1 h2 h3 h4 h5 h6
    unfold Metrics.bucket
    rw [h1, h2, h3, h4, h5, h6]
  have h1 : (log_request g client path status bytes ts).bucket code =
      (countStatus g status).bucket code := by
    apply hb
    all_goals
      unfold log_request
      rw [if_neg h]
      simp only [countStatus_200, countStatus_400, countStatus_403, countStatus_404,
        countStatus_405, countStatus_500]
  rw [h1, bucket_countStatus g status code hc]

theorem logCall_of_metrics (g : Metrics) (c : LogCall) (h : c.path = ADMIN_METRICS) :
    logCall g c = g := by
  unfold logCall
  rw [h]
  exact log_request_metrics g _ _ _ _

theorem logAll_append_singleton (g : Metrics) (cs : List LogCall) (c : LogCall) :
    logAll g (cs ++ [c]) = logCall (logAll g cs) c := by
  unfold logAll
  rw [List.foldl_append, List.foldl_cons, List.foldl_nil]

theorem countedCalls_append_singleton (cs : List LogCall) (c : LogCall) :
    countedCalls (cs ++ [c]) =
      countedCalls cs + (if c.path = ADMIN_METRICS then 0 else 1) := by
  unfold countedCalls
  rw [List.filter_append, List.length_append]
  by_cases h : c.path = ADMIN_METRICS <;> simp [h]

theorem callsWithStatus_append_singleton (cs : List LogCall) (c : LogCall) (code : Int) :
    callsWithStatus (cs ++ [c]) code =
      callsWithStatus cs code +
        (if c.path = ADMIN_METRICS then 0 else if c.status = code then 1 else 0) := by
  unfold callsWithStatus
  rw [List.filter_append, List.length_append]
  by_cases h : c.path = ADMIN_METRICS
  · simp [h]
  · by_cases h2 : c.status = code <;> simp [h, h2]

theorem callsWithStatus_le (cs : List LogCall) (code : Int) :
    callsWithStatus cs code ≤ countedCalls cs := by
  induction cs using List.reverseRecOn with
  | nil => simp [callsWithStatus, countedCalls]
  | append_singleton cs c ih =>
    rw [callsWithStatus_append_singleton, countedCalls_append_singleton]
    split_ifs <;> omega

theorem sum_callsWithStatus_le (cs : List LogCall) :
    callsWithStatus cs 200 + callsWithStatus cs 400 + callsWithStatus cs 403 +
      callsWithStatus cs 404 + callsWithStatus cs 405 + callsWithStatus cs 500 ≤
      countedCalls cs := by
  induction cs using List.reverseRecOn with
  | nil => simp [callsWithStatus, countedCalls]
  | append_singleton cs c ih =>
    simp only [callsWithStatus_append_singleton, countedCalls_append_singleton]
    split_ifs <;> omega

/-- As long as fewer than `2 ^ 64` calls are counted, the counters are the exact
numbers of calls. -/
theorem logAll_counts (calls : List LogCall) (h : countedCalls calls < SIZE_MOD) :
    (logAll Metrics.init calls).g_total_requests = countedCalls calls ∧
    ∀ code ∈ statusCodes,
      (logAll Metrics.init calls).bucket code = callsWithStatus calls code := by
  induction calls using List.reverseRecOn with
  | nil =>
    refine ⟨rfl, fun code hc => ?_⟩
    simp only [statusCodes, List.mem_cons, List.mem_singleton, List.not_mem_nil,
      or_false] at hc
    rcases hc with rfl | rfl | rfl | rfl | rfl | rfl <;> rfl
  | append_singleton cs c ih =>
    rw [countedCalls_append_singleton] at h
    have hcs : countedCalls cs < SIZE_MOD := by omega
    obtain ⟨ih1, ih2⟩ := ih hcs
    rw [logAll_append_singleton]
    by_cases hp : c.path = ADMIN_METRICS
    · rw [logCall_of_metrics _ c hp]
      refine ⟨by rw [ih1, countedCalls_append_singleton, if_pos hp]; rfl, fun code hc => ?_⟩
      rw [ih2 code hc, callsWithStatus_append_singleton, if_pos hp]
      rfl
    · rw [if_neg hp] at h
      constructor
      · unfold logCall
        rw [(log_request_total _ _ _ _ _ _ hp).1, ih1, countedCalls_append_singleton,
          if_neg hp]
        exact Nat.mod_eq_of_lt h
      · intro code hc
        unfold logCall
        rw [log_request_bucket _ _ _ _ _ _ hp code hc, ih2 code hc,
          callsWithStatus_append_singleton, if_neg hp]
        by_cases hs : c.status = code
        · rw [if_pos hs.symm, if_pos hs]
          have := callsWithStatus_le cs code
          exact Nat.mod_eq_of_lt (by omega)
        · rw [if_neg (fun e => hs e.symm), if_neg hs]
          rfl

theorem bucketSum_eq (g : Metrics) :
    g.bucketSum = g.bucket 200 + g.bucket 400 + g.bucket 403 + g.bucket 404 +
      g.bucket 405 + g.bucket 500 := rfl

theorem bucketSum_le_total (calls : List LogCall) (h : countedCalls calls < SIZE_MOD) :
    (logAll Metrics.init calls).bucketSum ≤ (logAll Metrics.init calls).g_total_requests := by
  obtain ⟨h1, h2⟩ := logAll_counts calls h
  rw [bucketSum_eq, h1, h2 200 (by decide), h2 400 (by decide), h2 403 (by decide),
    h2 404 (by decide), h2 405 (by decide), h2 500 (by decide)]
  exact sum_callsWithStatus_le calls

/-- C18, as the code has it. For every metrics state and every `log_request` call
with a path other than `/admin/metrics`, status `s` and byte count `n`, the
counters of type `size_t` are advanced modulo `2 ^ 64`: `total_requests` by 1,
`bytes_sent` by `n`, the bucket of `s` by 1 when `s` is one of the six codes,
while every other bucket is unchanged (no bucket changes for another `s`); the
increase is exactly 1 (exactly `n`) whenever the new value is below `2 ^ 64`.
Hence in every state reached from the start by fewer than `2 ^ 64` counted
calls the sum of the six buckets is at most `total_requests`. -/
theorem log_request_counters (g : Metrics) (client path : Str) (status : Int) (n : Nat)
    (ts : Str) (h : path ≠ ADMIN_METRICS) :
    (log_request g client path status n ts).g_total_requests =
      (g.g_total_requests + 1) % SIZE_MOD ∧
    (log_request g client path status n ts).g_bytes_sent = (g.g_bytes_sent + n) % SIZE_MOD ∧
    (∀ code ∈ statusCodes, (log_request g client path status n ts).bucket code =
      if code = status then (g.bucket code + 1) % SIZE_MOD else g.bucket code) ∧
    (status ∉ statusCodes → ∀ code ∈ statusCodes,
      (log_request g client path status n ts).bucket code = g.bucket code) ∧
    (g.g_total_requests + 1 < SIZE_MOD →
      (log_request g client path status n ts).g_total_requests = g.g_total_requests + 1) ∧
    (g.g_bytes_sent + n < SIZE_MOD →
      (log_request g client path status n ts).g_bytes_sent = g.g_bytes_sent + n) ∧
    (status ∈ statusCodes → g.bucket status + 1 < SIZE_MOD →
      (log_request g client path status n ts).bucket status = g.bucket status + 1) ∧
    (∀ calls : List LogCall, countedCalls calls < SIZE_MOD →
      (logAll Metrics.init calls).bucketSum ≤
        (logAll Metrics.init calls).g_total_requests) := by
  obtain ⟨ht, hb⟩ := log_request_total g client path status n ts h
  have hbucket := log_request_bucket g client path status n ts h
  refine ⟨ht, hb, hbucket, fun hs code hc => ?_, fun hlt => ?_, fun hlt => ?_,
    fun hs hlt => ?_, bucketSum_le_total⟩
  · rw [hbucket code hc, if_neg (fun (e : code = status) => hs (e ▸ hc))]
  · rw [ht, Nat.mod_eq_of_lt hlt]
  · rw [hb, Nat.mod_eq_of_lt hlt]
  · rw [hbucket status hs, if_pos rfl, Nat.mod_eq_of_lt hlt]

/-- A witness of `log_request_counters`: the first logged request, a 404 of 101
bytes. -/
theorem log_request_counters_witness :
    (log_request Metrics.init "127.0.0.1".toList "/x.txt".toList 404 101
      "t".toList).g_total_requests = 0 + 1 :=
  (log_request_counters Metrics.init "127.0.0.1".toList "/x.txt".toList 404 101 "t".toList
    (by decide)).2.2.2.2.1 (by decide)

theorem countedCalls_replicate (n : Nat) (s : Int) :
    countedCalls (List.replicate n (sampleCall s)) = n := by
  induction n with
  | zero => rfl
  | succ n ih =>
    unfold countedCalls at ih ⊢
    rw [List.replicate_succ, List.filter_cons_of_pos (by simp [sampleCall, ADMIN_METRICS]),
      List.length_cons, ih]

theorem callsWithStatus_replicate (n : Nat) (s code : Int) :
    callsWithStatus (List.replicate n (sampleCall s)) code = if s = code then n else 0 := by
  induction n with
  | zero => simp [callsWithStatus]
  | succ n ih =>
    unfold callsWithStatus at ih ⊢
    rw [List.replicate_succ]
    by_cases h : s = code
    · rw [if_pos h] at ih
      rw [List.filter_cons_of_pos (by simp [sampleCall, h, ADMIN_METRICS]), List.length_cons,
        ih, if_pos h]
    · rw [if_neg h] at ih
      rw [List.filter_cons_of_neg (by simp [sampleCall, h]), ih, if_neg h]

/-- C18 fails as stated. With `total_requests` at `2 ^ 64 - 1` a logged request
makes it `0` instead of increasing it by 1. This state is reached from the start
by `2 ^ 64 - 1` requests answered 404; after one more request, answered 200,
`total_requests` is `0` while the six buckets add up to `2 ^ 64`. -/
theorem counters_wrap_around :
    (logCall Metrics.totalAtMax (sampleCall 200)).g_total_requests = 0 ∧
    (logCall Metrics.totalAtMax (sampleCall 200)).g_total_requests ≠
      Metrics.totalAtMax.g_total_requests + 1 ∧
    (logAll Metrics.init
      (List.replicate (SIZE_MOD - 1) (sampleCall 404))).g_total_requests = SIZE_MOD - 1 ∧
    (logAll Metrics.init
      (List.replicate (SIZE_MOD - 1) (sampleCall 404) ++ [sampleCall 200])).g_total_requests
      = 0 ∧
    (logAll Metrics.init
      (List.replicate (SIZE_MOD - 1) (sampleCall 404) ++ [sampleCall 200])).bucketSum
      = SIZE_MOD ∧
    ¬ (logAll Metrics.init
        (List.replicate (SIZE_MOD - 1) (sampleCall 404) ++ [sampleCall 200])).bucketSum ≤
      (logAll Metrics.init
        (List.replicate (SIZE_MOD - 1) (sampleCall 404) ++ [sampleCall 200])).g_total_requests
    := by
  have hM : 0 < SIZE_MOD := by unfold SIZE_MOD; exact Nat.pos_pow_of_pos _ (by decide)
  have hwrap : (SIZE_MOD - 1 + 1) % SIZE_MOD = 0 := by
    rw [Nat.sub_add_cancel hM, Nat.mod_self]
  have hp : (sampleCall 200).path ≠ ADMIN_METRICS := by decide
  have h1 : (logCall Metrics.totalAtMax (sampleCall 200)).g_total_requests = 0 := by
    unfold logCall
    rw [(log_request_total _ _ _ _ _ _ hp).1]
    exact hwrap
  have hcount : countedCalls (List.replicate (SIZE_MOD - 1) (sampleCall 404)) < SIZE_MOD := by
    rw [countedCalls_replicate]
    omega
  obtain ⟨ht, hb⟩ := logAll_counts _ hcount
  rw [countedCalls_replicate] at ht
  have htotal : (logAll Metrics.init
      (List.replicate (SIZE_MOD - 1) (sampleCall 404) ++ [sampleCall 200])).g_total_requests
      = 0 := by
    rw [logAll_append_singleton]
    unfold logCall
    rw [(log_request_total _ _ _ _ _ _ hp).1, ht]
    exact hwrap
  have hbk : ∀ code ∈ statusCodes, (logAll Metrics.init
      (List.replicate (SIZE_MOD - 1) (sampleCall 404) ++ [sampleCall 200])).bucket code =
      if code = 200 then 1 else if code = 404 then SIZE_MOD - 1 else 0 := by
    intro code hc
    rw [logAll_append_singleton]
    unfold logCall
    rw [log_request_bucket _ _ _ _ _ _ hp code hc, hb code hc, callsWithStatus_replicate]
    have hs : (sampleCall 200).status = 200 := rfl
    rw [hs]
    by_cases h200 : code = 200
    · subst h200
      rw [if_pos rfl, if_neg (by decide), if_pos rfl]
      exact Nat.mod_eq_of_lt (by unfold SIZE_MOD; decide)
    · rw [if_neg h200, if_neg h200]
      by_cases h404 : code = 404
      · rw [if_pos h404.symm, if_pos h404]
      · rw [if_neg (fun e => h404 e.symm), if_neg h404]
  have hsum : (logAll Metrics.init
      (List.replicate (SIZE_MOD - 1) (sampleCall 404) ++ [sampleCall 200])).bucketSum
      = SIZE_MOD := by
    rw [bucketSum_eq, hbk 200 (by decide), hbk 400 (by decide), hbk 403 (by decide),
      hbk 404 (by decide), hbk 405 (by decide), hbk 500 (by decide)]
    norm_num
    omega
  refine ⟨h1, ?_, ht, htotal, hsum, ?_⟩
  · rw [h1]
    exact (Nat.succ_ne_zero _).symm
  · rw [hsum, htotal]
    omega

/-! ## The response text -/

theorem recvLoop_data_stop (bytes req : Str) (rest : List Recv) (hne : bytes ≠ [])
    (h : stopsReading (req ++ bytes) = true) :
    recvLoop (Recv.data bytes :: rest) req = (req ++ bytes, false, rest) := by
  unfold stopsReading at h
  rw [recvLoop, if_neg hne]
  by_cases hf : (find CRLFCRLF (req ++ bytes)).isSome = true
  · rw [if_pos hf]
  · rw [if_neg hf]
    simp only [Bool.not_eq_true] at hf
    rw [hf, Bool.false_or, decide_eq_true_eq] at h
    rw [if_pos h]

theorem recvLoop_data_continue (bytes req : Str) (rest : List Recv) (hne : bytes ≠ [])
    (h : stopsReading (req ++ bytes) = false) :
    recvLoop (Recv.data bytes :: rest) req = recvLoop rest (req ++ bytes) := by
  unfold stopsReading at h
  rw [Bool.or_eq_false_iff, decide_eq_false_iff_not] at h
  rw [recvLoop, if_neg hne, if_neg (by rw [h.1]; simp), if_neg h.2]

theorem recvLoop_chunks_continue (pre : List Str) (req : Str) (rest : List Recv)
    (hne : ∀ b ∈ pre, b ≠ [])
    (hgo : ∀ k, 0 < k → k ≤ pre.length →
      stopsReading (req ++ (pre.take k).flatten) = false) :
    recvLoop (pre.map Recv.data ++ rest) req = recvLoop rest (req ++ pre.flatten) := by
  induction pre generalizing req with
  | nil => simp
  | cons b pre ih =>
    have hb : stopsReading (req ++ b) = false := by
      have := hgo 1 (by decide) (by simp)
      simpa using this
    rw [List.map_cons, List.cons_append,
      recvLoop_data_continue b req _ (hne b (List.mem_cons_self _ _)) hb,
      ih (req ++ b) (fun c hc => hne c (List.mem_cons_of_mem _ hc))]
    · simp
    · intro k hk hle
      have := hgo (k + 1) (by omega) (by simpa using hle)
      simpa [List.append_assoc] using this

theorem stopsReading_false_of {buf : Str} (hcr : '\r' ∉ buf) (hlen : buf.length ≤ 64 * 1024) :
    stopsReading buf = false := by
  unfold stopsReading
  have hf : find CRLFCRLF buf = none := by
    have := find_CRLFCRLF_append buf [] (fun c hc e => hcr (e ▸ hc))
    rw [List.append_nil] at this
    rw [this]
    rfl
  rw [hf]
  simp only [Option.isSome_none, Bool.false_or, decide_eq_false_iff_not]
  omega

theorem length_flatten_replicate {α : Type} (k n : Nat) (x : α) :
    (List.replicate k (List.replicate n x)).flatten.length = k * n := by
  induction k with
  | zero => simp
  | succ k ih =>
    rw [List.replicate_succ, List.flatten_cons, List.length_append, List.length_replicate, ih,
      Nat.succ_mul, Nat.add_comm]

theorem fullChunks_take (k : Nat) (hk : k ≤ 8) :
    '\r' ∉ (fullChunks.take k).flatten ∧ ((fullChunks.take k).flatten).length = k * 8192 := by
  unfold fullChunks
  rw [List.take_replicate, Nat.min_eq_left hk]
  constructor
  · intro h
    obtain ⟨l, hl, hc⟩ := List.mem_flatten.mp h
    rw [List.eq_of_mem_replicate hl] at hc
    have := List.eq_of_mem_replicate hc
    exact absurd this (by decide)
  · exact length_flatten_replicate k 8192 'a' 

/-- C19, as the code has it. For chunks of 1 to 8192 bytes the read loop stops
right after the first chunk at which the accumulated buffer contains `\r\n\r\n`
or is longer than 65536 bytes, whichever happens first, leaving the later
chunks unread; the buffer then holds at most 65536 + 8192 bytes. It never issues
another read once the accumulated length is more than 65536 bytes, and it does
read on at exactly 65536 bytes without terminator. -/
theorem read_loop_stops (pre : List Str) (c : Str) (rest : List Recv)
    (hsize : ∀ b ∈ pre ++ [c], 1 ≤ b.length ∧ b.length ≤ 8192)
    (hgo : ∀ k, 0 < k → k ≤ pre.length → stopsReading (pre.take k).flatten = false)
    (hstop : stopsReading (pre.flatten ++ c) = true) :
    recvLoop ((pre ++ [c]).map Recv.data ++ rest) [] = ((pre ++ [c]).flatten, false, rest) ∧
    ((pre ++ [c]).flatten).length ≤ 64 * 1024 + 8192 ∧
    (∀ (req bytes : Str) (more : List Recv), bytes ≠ [] →
      64 * 1024 < (req ++ bytes).length →
      recvLoop (Recv.data bytes :: more) req = (req ++ bytes, false, more)) ∧
    (∀ (req bytes : Str) (more : List Recv), bytes ≠ [] →
      (req ++ bytes).length = 64 * 1024 → find CRLFCRLF (req ++ bytes) = none →
      recvLoop (Recv.data bytes :: more) req = recvLoop more (req ++ bytes)) := by
  have hne : ∀ b ∈ pre ++ [c], b ≠ [] := by
    intro b hb e
    have := (hsize b hb).1
    rw [e] at this
    simp at this
  refine ⟨?_, ?_, ?_, ?_⟩
  · rw [List.map_append, List.append_assoc,
      recvLoop_chunks_continue pre [] _ (fun b hb => hne b (List.mem_append_left _ hb))
        (fun k hk hle => by simpa using hgo k hk hle)]
    rw [List.map_cons, List.map_nil, List.singleton_append, List.nil_append,
      recvLoop_data_stop c _ rest (hne c (by simp)) hstop]
    simp
  · have hc := (hsize c (by simp)).2
    have hpre : pre.flatten.length ≤ 64 * 1024 := by
      rcases Nat.eq_zero_or_pos pre.length with h0 | hpos
      · rw [List.length_eq_zero.mp h0]
        simp
      · have := hgo pre.length hpos (Nat.le_refl _)
        rw [List.take_length] at this
        unfold stopsReading at this
        rw [Bool.or_eq_false_iff, decide_eq_false_iff_not] at this
        omega
    rw [List.flatten_append, List.length_append]
    simp only [List.flatten_cons, List.flatten_nil, List.append_nil]
    omega
  · intro req bytes more hb hlen
    exact recvLoop_data_stop bytes req more hb (by
      unfold stopsReading
      rw [Bool.or_eq_true, decide_eq_true_eq]
      exact Or.inr hlen)
  · intro req bytes more hb hlen hfind
    exact recvLoop_data_continue bytes req more hb (by
      unfold stopsReading
      rw [hfind, Bool.or_eq_false_iff, decide_eq_false_iff_not]
      exact ⟨rfl, by omega⟩)

/-- A witness of `read_loop_stops`: the request arrives in two chunks. -/
theorem read_loop_stops_witness :
    recvLoop (["GET / HT".toList, "TP/1.0\r\n\r\n".toList].map Recv.data ++
      [Recv.data "more".toList]) [] =
      (["GET / HT".toList, "TP/1.0\r\n\r\n".toList].flatten, false,
        [Recv.data "more".toList]) :=
  (read_loop_stops ["GET / HT".toList] "TP/1.0\r\n\r\n".toList [Recv.data "more".toList]
    (by decide)
    (fun k hk hle => by
      have hk1 : k = 1 := by
        have : k ≤ 1 := hle
        omega
      subst hk1
      decide)
    (by decide)).1

/-- C19 fails as stated: after eight chunks of 8192 bytes the buffer has reached
65536 bytes without a terminator, and the loop still reads the ninth chunk; it
stops only then, leaving the tenth chunk unread. -/
theorem read_loop_reads_past_64k :
    fullChunks.flatten.length = 65536 ∧
    find CRLFCRLF fullChunks.flatten = none ∧
    recvLoop (fullChunks.map Recv.data ++ [Recv.data ['b'], Recv.data ['c']]) [] =
      (fullChunks.flatten ++ ['b'], false, [Recv.data ['c']]) := by
  have h8 := fullChunks_take 8 (Nat.le_refl _)
  have htake : fullChunks.take 8 = fullChunks := List.take_of_length_le (by decide)
  rw [htake] at h8
  have hfind : find CRLFCRLF fullChunks.flatten = none := by
    have := stopsReading_false_of h8.1 (by rw [h8.2])
    unfold stopsReading at this
    rw [Bool.or_eq_false_iff] at this
    cases hf : find CRLFCRLF fullChunks.flatten with
    | none => rfl
    | some n => rw [hf] at this; exact absurd this.1 (by simp)
  refine ⟨h8.2, hfind, ?_⟩
  rw [recvLoop_chunks_continue fullChunks [] _
    (fun b hb => by
      rw [List.eq_of_mem_replicate hb]
      exact List.ne_nil_of_length_pos (by rw [List.length_replicate]; decide))
    (fun k _ hle => by
      have hk : k ≤ 8 := hle
      have := fullChunks_take k hk
      rw [List.nil_append]
      exact stopsReading_false_of this.1 (by rw [this.2]; omega))]
  rw [List.nil_append]
  exact recvLoop_data_stop ['b'] _ _ (by simp) (by
    unfold stopsReading
    rw [Bool.or_eq_true, decide_eq_true_eq]
    right
    rw [List.length_append, h8.2]
    decide)

/-! ## The traversal check as a substring search -/

theorem occurs_of_find (pat s : Str) (n : Nat) (h : find pat s = some n) : pat <:+: s := by
  induction s generalizing n with
  | nil =>
    unfold find at h
    by_cases hp : pat = []
    · subst hp; exact List.infix_refl _
    · rw [if_neg hp] at h
      exact absurd h (by simp)
  | cons c cs ih =>
    unfold find at h
    by_cases hp : pat.isPrefixOf (c :: cs) = true
    · exact (List.isPrefixOf_iff_prefix.mp hp).isInfix
    · rw [if_neg hp] at h
      obtain ⟨m, hm, _⟩ := Option.map_eq_some'.mp h
      exact List.infix_cons (ih m hm)

theorem find_isSome_iff (pat s : Str) : (find pat s).isSome = true ↔ pat <:+: s := by
  constructor
  · intro h
    obtain ⟨n, hn⟩ := Option.isSome_iff_exists.mp h
    exact occurs_of_find pat s n hn
  · intro h
    obtain ⟨n, hn⟩ := find_of_occurs pat s h
    rw [hn]
    rfl

theorem handle_403_iff (root_ : Str) (fs : FileSystem) (cache_ : LRUCache) (req : HttpRequest)
    (hget : req.method = "GET".toList) :
    (handle root_ fs cache_ req).status_code = 403 ↔
      (find DOTDOT (lexically_normal (defaultPath req.path))).isSome = true := by
  cases hdd : find DOTDOT (lexically_normal (defaultPath req.path)) with
  | some n =>
    have := handle_forbidden root_ fs cache_ req hget (by rw [hdd]; rfl)
    exact ⟨fun _ => rfl, fun _ => this.1⟩
  | none =>
    rw [handle_served root_ fs cache_ req hget hdd]
    constructor
    · intro h
      exact absurd h (serve_file_calls root_ fs cache_ _).2.1
    · intro h
      exact absurd h (by simp)

/-- C20, as the code has it. A `GET` request is answered 403 if and only if the
string of the lexically normalized path contains two consecutive dots. So every
normalized path with a component equal to `..` is answered 403, and so is a path
whose file name merely contains two consecutive dots, such as `/a..b.txt` or
`/notes...txt`, although it has no component `..`. -/
theorem forbidden_iff_two_dots (root_ : Str) (fs : FileSystem) (cache_ : LRUCache)
    (req : HttpRequest) (hget : req.method = "GET".toList) :
    ((handle root_ fs cache_ req).status_code = 403 ↔
      DOTDOT <:+: lexically_normal (defaultPath req.path)) ∧
    (DOTDOT ∈ (lexically_normal (defaultPath req.path)).splitOn '/' →
      (handle root_ fs cache_ req).status_code = 403) ∧
    (req.path ∈ ["/a..b.txt".toList, "/notes...txt".toList] →
      (handle root_ fs cache_ req).status_code = 403 ∧
      DOTDOT ∉ (lexically_normal (defaultPath req.path)).splitOn '/') := by
  have hiff : (handle root_ fs cache_ req).status_code = 403 ↔
      DOTDOT <:+: lexically_normal (defaultPath req.path) := by
    rw [handle_403_iff root_ fs cache_ req hget, find_isSome_iff]
  refine ⟨hiff, fun hc => hiff.mpr (infix_of_mem_splitOn _ _ hc), fun hp => ?_⟩
  simp only [List.mem_cons, List.mem_singleton, List.not_mem_nil, or_false] at hp
  rw [handle_403_iff root_ fs cache_ req hget]
  rcases hp with hp | hp <;> rw [hp] <;> exact ⟨by decide, by decide⟩

/-- A witness of `forbidden_iff_two_dots`: the request `GET ../etc/passwd`. -/
theorem forbidden_iff_two_dots_witness :
    (handle "./static".toList FileSystem.vacant (LRUCache.init 100)
      (getRequest "../etc/passwd".toList)).status_code = 403 :=
  (forbidden_iff_two_dots "./static".toList FileSystem.vacant (LRUCache.init 100)
    (getRequest "../etc/passwd".toList) rfl).2.1 (by decide)

/-- C20 fails as stated: `GET /a..b.txt` and `GET /notes...txt` are answered 403,
and no component of their normalized paths equals `..`. -/
theorem dotted_file_name_forbidden :
    (handle "./static".toList FileSystem.vacant (LRUCache.init 100)
      (getRequest "/a..b.txt".toList)).status_code = 403 ∧
    (lexically_normal (defaultPath "/a..b.txt".toList)).splitOn '/' =
      [[], "a..b.txt".toList] ∧
    DOTDOT ∉ (lexically_normal (defaultPath "/a..b.txt".toList)).splitOn '/' ∧
    (handle "./static".toList FileSystem.vacant (LRUCache.init 100)
      (getRequest "/notes...txt".toList)).status_code = 403 ∧
    DOTDOT ∉ (lexically_normal (defaultPath "/notes...txt".toList)).splitOn '/' := by
  decide

/-! ## The peak-connections watermark -/

/-- Without interleaving, the constructor and the destructor of `ConnectionGuard`
do not lower the peak. -/
theorem peak_monotone_sequential (g : Metrics) :
    g.g_peak_connections ≤ (ConnectionGuard.enter g).g_peak_connections ∧
    (ConnectionGuard.leave g).g_peak_connections = g.g_peak_connections := by
  refine ⟨?_, rfl⟩
  unfold ConnectionGuard.enter
  simp only
  split
  · rename_i h
    exact Int.le_of_lt h
  · exact Int.le_refl _

/-- C16 fails on the code. Two handlers: the first adds itself (`curr = 1`) and
loads the peak `0`; the second adds itself (`curr = 2`), loads the peak `0` and
stores `2`; then the first stores its `1`. This last step lowers
`peak_connections` from `2` to `1`. -/
theorem peak_can_decrease :
    ∃ s t : GuardState,
      (GuardState.init 2).run [0, 0, 1, 1, 1] = some s ∧ s.step 0 = some t ∧
      s.peak = 2 ∧ t.peak = 1 ∧ t.peak < s.peak :=
  ⟨{ active := 2, peak := 2, threads := [GuardPc.storing 1, GuardPc.inside] },
   { active := 2, peak := 1, threads := [GuardPc.inside, GuardPc.inside] },
   by decide, by decide, rfl, rfl, by decide⟩

/-! ## The metrics document as a JSON text -/

theorem jsonElements_fuel_step (n : Nat)
    (ihv : ∀ s, jsonValue n s ≠ Parsed.outOfFuel → jsonValue (n + 1) s = jsonValue n s)
    (ihe : ∀ s, jsonElements n s ≠ Parsed.outOfFuel →
      jsonElements (n + 1) s = jsonElements n s)
    (s : Str) (h : jsonElements (n + 1) s ≠ Parsed.outOfFuel) :
    jsonElements (n + 1 + 1) s = jsonElements (n + 1) s := by
  rw [jsonElements] at h
  rw [jsonElements, jsonElements]
  cases hv : jsonValue n s with
  | outOfFuel => simp [hv] at h
  | malformed => rw [ihv s (by rw [hv]; exact Parsed.noConfusion), hv]
  | ok v r1 =>
    rw [ihv s (by rw [hv]; exact Parsed.noConfusion), hv]
    rw [hv] at h
    dsimp only at h ⊢
    split
    · rename_i r2 heq
      cases he : jsonElements n r2 with
      | outOfFuel => simp [heq, he] at h
      | malformed => rw [ihe r2 (by rw [he]; exact Parsed.noConfusion), he]
      | ok vs r3 => rw [ihe r2 (by rw [he]; exact Parsed.noConfusion), he]
    · rfl
    · rfl


theorem jsonMembers_fuel_step (n : Nat)
    (ihv : ∀ s, jsonValue n s ≠ Parsed.outOfFuel → jsonValue (n + 1) s = jsonValue n s)
    (ihm : ∀ s, jsonMembers n s ≠ Parsed.outOfFuel →
      jsonMembers (n + 1) s = jsonMembers n s)
    (s : Str) (h : jsonMembers (n + 1) s ≠ Parsed.outOfFuel) :
    jsonMembers (n + 1 + 1) s = jsonMembers (n + 1) s := by
  rw [jsonMembers] at h
  rw [jsonMembers, jsonMembers]
  split
  · rename_i r hr
    simp only [hr] at h
    split
    · rfl
    · rename_i k hk
      simp only [hk] at h
      split
      · rename_i r2 hr2
        simp only [hr2] at h
        cases hv : jsonValue n r2 with
        | outOfFuel => simp [hv] at h
        | malformed => rw [ihv r2 (by rw [hv]; exact Parsed.noConfusion), hv]
        | ok v r3 =>
          rw [ihv r2 (by rw [hv]; exact Parsed.noConfusion), hv]
          simp only [hv] at h
          dsimp only
          split
          · rename_i r4 hr4
            cases hm : jsonMembers n r4 with
            | outOfFuel => simp [hr4, hm] at h
            | malformed => rw [ihm r4 (by rw [hm]; exact Parsed.noConfusion), hm]
            | ok ms r5 => rw [ihm r4 (by rw [hm]; exact Parsed.noConfusion), hm]
          · rfl
          · rfl
      · rfl
  · rfl

theorem jsonValue_fuel_step (n : Nat)
    (ihm : ∀ s, jsonMembers n s ≠ Parsed.outOfFuel →
      jsonMembers (n + 1) s = jsonMembers n s)
    (ihe : ∀ s, jsonElements n s ≠ Parsed.outOfFuel →
      jsonElements (n + 1) s = jsonElements n s)
    (s : Str) (h : jsonValue (n + 1) s ≠ Parsed.outOfFuel) :
    jsonValue (n + 1 + 1) s = jsonValue (n + 1) s := by
  rw [jsonValue] at h
  rw [jsonValue, jsonValue]
  split
  · rename_i r hr
    simp only [hr] at h
    split
    · rfl
    · rename_i hne
      cases hm : jsonMembers n r with
      | outOfFuel =>
        exfalso
        apply h
        split
        · rename_i r1 hr1
          exact absurd hr1 (hne r1)
        · rw [hm]
      | malformed => rw [ihm r (by rw [hm]; exact Parsed.noConfusion), hm]
      | ok ms r1 => rw [ihm r (by rw [hm]; exact Parsed.noConfusion), hm]
  · rename_i r hr
    simp only [hr] at h
    split
    · rfl
    · rename_i hne
      cases he : jsonElements n r with
      | outOfFuel =>
        exfalso
        apply h
        split
        · rename_i r1 hr1
          exact absurd hr1 (hne r1)
        · rw [he]
      | malformed => rw [ihe r (by rw [he]; exact Parsed.noConfusion), he]
      | ok vs r1 => rw [ihe r (by rw [he]; exact Parsed.noConfusion), he]
  all_goals rfl

/-- More recursion depth does not change a reading that did not run out of it. -/
theorem json_fuel_succ (n : Nat) :
    (∀ s, jsonValue n s ≠ Parsed.outOfFuel → jsonValue (n + 1) s = jsonValue n s) ∧
    (∀ s, jsonMembers n s ≠ Parsed.outOfFuel →
      jsonMembers (n + 1) s = jsonMembers n s) ∧
    (∀ s, jsonElements n s ≠ Parsed.outOfFuel →
      jsonElements (n + 1) s = jsonElements n s) := by
  induction n with
  | zero =>
    exact ⟨fun s h => absurd rfl h, fun s h => absurd rfl h, fun s h => absurd rfl h⟩
  | succ n ih =>
    exact ⟨jsonValue_fuel_step n ih.2.1 ih.2.2, jsonMembers_fuel_step n ih.1 ih.2.1,
      jsonElements_fuel_step n ih.1 ih.2.2⟩

theorem jsonValue_fuel_add (n k : Nat) (s : Str) (h : jsonValue n s ≠ Parsed.outOfFuel) :
    jsonValue (n + k) s = jsonValue n s := by
  induction k with
  | zero => rfl
  | succ k ih =>
    have h1 : jsonValue (n + k) s ≠ Parsed.outOfFuel := by rw [ih]; exact h
    rw [← Nat.add_assoc, (json_fuel_succ (n + k)).1 s h1, ih]

/-- A text that the grammar rejects at some recursion depth is not well-formed
at any depth. -/
theorem not_wellFormed_of_malformed (s : Str) (n : Nat)
    (h : jsonValue n s = Parsed.malformed) : ¬ WellFormedJson s := by
  rintro ⟨m, v, rest, hm, -⟩
  have h1 := jsonValue_fuel_add n m s (by rw [h]; exact Parsed.noConfusion)
  have h2 := jsonValue_fuel_add m n s (by rw [hm]; exact Parsed.noConfusion)
  rw [Nat.add_comm, h1, h, hm] at h2
  exact Parsed.noConfusion h2

/-- A text read with text left over at some recursion depth is not well-formed
at any depth. -/
theorem not_wellFormed_of_rest (s : Str) (n : Nat) (v : Json) (rest : Str)
    (h : jsonValue n s = Parsed.ok v rest) (hrest : skipWs rest ≠ []) :
    ¬ WellFormedJson s := by
  rintro ⟨m, v1, rest1, hm, hr⟩
  have h1 := jsonValue_fuel_add n m s (by rw [h]; exact Parsed.noConfusion)
  have h2 := jsonValue_fuel_add m n s (by rw [hm]; exact Parsed.noConfusion)
  rw [Nat.add_comm, h1, h, hm] at h2
  injection h2 with _ h3
  exact hrest (h3 ▸ hr)

/-- What `parseJson` rejects is not well-formed. -/
theorem not_wellFormed_of_parseJson (s : Str) (h : (parseJson s).isMalformed = true) :
    ¬ WellFormedJson s := by
  unfold parseJson at h
  cases hv : jsonValue (s.length + 1) s with
  | outOfFuel => rw [hv] at h; exact absurd h (by decide)
  | malformed => exact not_wellFormed_of_malformed s _ hv
  | ok v rest =>
    rw [hv] at h
    by_cases hr : skipWs rest = []
    · simp [hr, Parsed.isMalformed] at h
    · exact not_wellFormed_of_rest s _ v rest hv hr

/-- What `parseJson` reads is well-formed. -/
theorem wellFormed_of_parseJson (s : Str) (h : (parseJson s).value.isSome = true) :
    WellFormedJson s := by
  unfold parseJson at h
  cases hv : jsonValue (s.length + 1) s with
  | outOfFuel => rw [hv] at h; exact absurd h (by decide)
  | malformed => rw [hv] at h; exact absurd h (by decide)
  | ok v rest =>
    rw [hv] at h
    by_cases hr : skipWs rest = []
    · exact ⟨_, v, rest, hv, hr⟩
    · simp [hr, Parsed.value] at h


theorem jsonStringBody_plain (s rest : Str) (h : ∀ c ∈ s, jsonPlain c = true) :
    jsonStringBody (s ++ '"' :: rest) = some (s, rest) := by
  induction s with
  | nil => rw [List.nil_append, jsonStringBody.eq_def]; simp
  | cons c s ih =>
    have hc := h c (List.mem_cons_self _ _)
    have ih1 := ih (fun x hx => h x (List.mem_cons_of_mem _ hx))
    simp only [jsonPlain, Bool.not_eq_true', Bool.or_eq_false_iff, decide_eq_false_iff_not,
      decide_eq_false_iff_not] at hc
    rw [List.cons_append, jsonStringBody.eq_def]
    simp only [if_neg hc.1.1, if_neg hc.1.2, if_neg hc.2, ih1]


theorem digitChar_mem (k : Nat) (h : k < 10) : Nat.digitChar k ∈ digitChars := by
  interval_cases k <;> decide

theorem digitChar_zero (k : Nat) (h : k < 10) (h0 : Nat.digitChar k = '0') : k = 0 := by
  interval_cases k <;> first | rfl | exact absurd h0 (by decide)

theorem isDigit_of_mem_digitChars (c : Char) (h : c ∈ digitChars) : c.isDigit = true := by
  simp only [digitChars, String.toList, List.mem_cons, List.mem_singleton] at h
  rcases h with h | h | h | h | h | h | h | h | h | h | h
  all_goals first | (subst h; rfl) | exact absurd h (List.not_mem_nil _)

theorem toDigitsCore_shape (fuel : Nat) : ∀ (n : Nat) (ds : Str), n < fuel →
    ∃ l, Nat.toDigitsCore 10 fuel n ds = l ++ ds ∧ l ≠ [] ∧ (∀ c ∈ l, c ∈ digitChars) ∧
      (l.head? = some '0' → n = 0) ∧ (n = 0 → l = ['0']) := by
  induction fuel with
  | zero => intro n ds h; exact absurd h (Nat.not_lt_zero _)
  | succ fuel ih =>
    intro n ds h
    by_cases hq : n / 10 = 0
    · have hn : n < 10 := by omega
      have hmod : n % 10 = n := Nat.mod_eq_of_lt hn
      refine ⟨[Nat.digitChar n], ?_, List.cons_ne_nil _ _, ?_, ?_, ?_⟩
      · simp [Nat.toDigitsCore, hq, hmod]
      · intro c hc
        rw [List.mem_singleton] at hc
        rw [hc]
        exact digitChar_mem n hn
      · intro h0
        simp only [List.head?_cons, Option.some.injEq] at h0
        exact digitChar_zero n hn h0
      · intro h0
        rw [h0]
        rfl
    · obtain ⟨l, hl, hne, hdig, hhead, -⟩ :=
        ih (n / 10) (Nat.digitChar (n % 10) :: ds) (by omega)
      refine ⟨l ++ [Nat.digitChar (n % 10)], ?_, ?_, ?_, ?_, ?_⟩
      · simp [Nat.toDigitsCore, hq, hl]
      · simp
      · intro c hc
        rw [List.mem_append, List.mem_singleton] at hc
        rcases hc with hc | hc
        · exact hdig c hc
        · rw [hc]
          exact digitChar_mem _ (Nat.mod_lt _ (by decide))
      · intro h0
        cases l with
        | nil => exact absurd rfl hne
        | cons a t => exact absurd (hhead h0) hq
      · intro h0
        rw [h0] at hq
        exact absurd rfl hq

/-- The decimal text of a natural number: digits, with no leading zero. -/
theorem decimal_shape (n : Nat) :
    decimal n ≠ [] ∧ (∀ c ∈ decimal n, c ∈ digitChars) ∧
      ((decimal n).head? = some '0' → decimal n = ['0']) := by
  obtain ⟨l, hl, hne, hdig, hhead, hzero⟩ := toDigitsCore_shape (n + 1) n [] (Nat.lt_succ_self n)
  have hd : decimal n = l := by
    unfold decimal Nat.repr Nat.toDigits
    rw [hl, List.append_nil]
    rfl
  rw [hd]
  exact ⟨hne, hdig, fun h0 => hzero (hhead h0)⟩


theorem digits_span (l rest : Str) (hl : ∀ c ∈ l, c ∈ digitChars)
    (hr : numberEnds rest = true) :
    (l ++ rest).takeWhile Char.isDigit = l ∧ (l ++ rest).dropWhile Char.isDigit = rest := by
  induction l with
  | nil =>
    cases rest with
    | nil => exact ⟨rfl, rfl⟩
    | cons c t =>
      have hc : c.isDigit = false := by
        simp only [numberEnds, Bool.not_eq_true', Bool.or_eq_false_iff] at hr
        exact hr.1.1.1
      simp [List.takeWhile, List.dropWhile, hc]
  | cons c t ih =>
    have hc := isDigit_of_mem_digitChars c (hl c (List.mem_cons_self _ _))
    have ih1 := ih (fun x hx => hl x (List.mem_cons_of_mem _ hx))
    simp [List.takeWhile, List.dropWhile, hc, ih1.1, ih1.2]

theorem jsonDigits_numeral (l rest : Str) (hne : l ≠ []) (hl : ∀ c ∈ l, c ∈ digitChars)
    (hr : numberEnds rest = true) : jsonDigits (l ++ rest) = some (l, rest) := by
  unfold jsonDigits
  rw [(digits_span l rest hl hr).1, (digits_span l rest hl hr).2, if_neg hne]

theorem jsonFrac_ends (rest : Str) (hr : numberEnds rest = true) :
    jsonFrac rest = some ([], rest) := by
  cases rest with
  | nil => rfl
  | cons c t =>
    have hc : c ≠ '.' := by
      intro h
      subst h
      simp [numberEnds] at hr
    unfold jsonFrac
    split
    · rename_i heq
      exact absurd (List.cons.inj heq).1 hc
    · rfl

theorem jsonExp_ends (rest : Str) (hr : numberEnds rest = true) :
    jsonExp rest = some ([], rest) := by
  cases rest with
  | nil => rfl
  | cons c t =>
    have hc : ¬ (c = 'e' ∨ c = 'E') := by
      rintro (h | h) <;> subst h <;> simp [numberEnds] at hr
    show (if c = 'e' ∨ c = 'E' then _ else _) = _
    rw [if_neg hc]

theorem jsonInt_numeral (l rest : Str) (hne : l ≠ []) (hl : ∀ c ∈ l, c ∈ digitChars)
    (h0 : l.head? = some '0' → l = ['0']) (hr : numberEnds rest = true) :
    jsonInt (l ++ rest) = some (l, rest) := by
  cases l with
  | nil => exact absurd rfl hne
  | cons c t =>
    by_cases hc : c = '0'
    · subst hc
      have ht : t = [] := (List.cons.inj (h0 rfl)).2
      subst ht
      rfl
    · have hd := jsonDigits_numeral (c :: t) rest hne hl hr
      have hmem := hl c (List.mem_cons_self _ _)
      simp only [digitChars, String.toList, List.mem_cons, List.mem_singleton] at hmem
      rcases hmem with h | h | h | h | h | h | h | h | h | h | h
      all_goals first
        | exact absurd h hc
        | (subst h; exact hd)
        | exact absurd h (List.not_mem_nil _)

theorem jsonUnsigned_numeral (l rest : Str) (hne : l ≠ []) (hl : ∀ c ∈ l, c ∈ digitChars)
    (h0 : l.head? = some '0' → l = ['0']) (hr : numberEnds rest = true) :
    jsonUnsigned (l ++ rest) = some (l, rest) := by
  unfold jsonUnsigned
  rw [jsonInt_numeral l rest hne hl h0 hr]
  simp only [jsonFrac_ends rest hr, jsonExp_ends rest hr, List.append_nil]

/-- The decimal text of a natural number is read as a number. -/
theorem jsonNumber_decimal (n : Nat) (rest : Str) (hr : numberEnds rest = true) :
    jsonNumber (decimal n ++ rest) = some (decimal n, rest) := by
  obtain ⟨hne, hl, h0⟩ := decimal_shape n
  have hu := jsonUnsigned_numeral (decimal n) rest hne hl h0 hr
  cases hd : decimal n with
  | nil => exact absurd hd hne
  | cons c t =>
    rw [hd] at hu hl
    have hmem := hl c (List.mem_cons_self _ _)
    simp only [digitChars, String.toList, List.mem_cons, List.mem_singleton] at hmem
    rcases hmem with h | h | h | h | h | h | h | h | h | h | h
    all_goals first
      | (subst h; exact hu)
      | exact absurd h (List.not_mem_nil _)

/-- The decimal text of an integer is read as a number. -/
theorem jsonNumber_decimalInt (i : Int) (rest : Str) (hr : numberEnds rest = true) :
    jsonNumber (decimalInt i ++ rest) = some (decimalInt i, rest) := by
  cases i with
  | ofNat n => exact jsonNumber_decimal n rest hr
  | negSucc n =>
    show jsonNumber ('-' :: (decimal (n + 1) ++ rest)) = _
    obtain ⟨hne, hl, h0⟩ := decimal_shape (n + 1)
    show Option.map _ (jsonUnsigned (decimal (n + 1) ++ rest)) = _
    rw [jsonUnsigned_numeral (decimal (n + 1)) rest hne hl h0 hr]
    rfl


theorem jsonValue_quote (m : Nat) (t : Str) :
    jsonValue (m + 1) ('"' :: t) =
      match jsonStringBody t with
      | some r => Parsed.ok (Json.str r.1) r.2
      | none => Parsed.malformed := by
  rfl

theorem jsonValue_brace (m : Nat) (t : Str) :
    jsonValue (m + 1) ('\x7b' :: '"' :: t) =
      match jsonMembers m ('"' :: t) with
      | Parsed.ok ms r => Parsed.ok (Json.obj ms) r
      | Parsed.malformed => Parsed.malformed
      | Parsed.outOfFuel => Parsed.outOfFuel := by
  rfl

theorem jsonValue_bracket (m : Nat) (t : Str) :
    jsonValue (m + 1) ('[' :: '\x7b' :: t) =
      match jsonElements m ('\x7b' :: t) with
      | Parsed.ok vs r => Parsed.ok (Json.arr vs) r
      | Parsed.malformed => Parsed.malformed
      | Parsed.outOfFuel => Parsed.outOfFuel := by
  rfl

theorem jsonValue_bracket_empty (m : Nat) (rest : Str) :
    jsonValue (m + 1) ('[' :: ']' :: rest) = Parsed.ok (Json.arr []) rest := by
  rfl

theorem jsonValue_numeric (m : Nat) (c : Char) (t : Str) (hc : c ∈ '-' :: digitChars) :
    jsonValue (m + 1) (c :: t) =
      match jsonNumber (c :: t) with
      | some r => Parsed.ok (Json.num r.1) r.2
      | none => Parsed.malformed := by
  simp only [digitChars, String.toList, List.mem_cons, List.mem_singleton] at hc
  rcases hc with h | h | h | h | h | h | h | h | h | h | h | h
  all_goals first
    | (subst h; rfl)
    | exact absurd h (List.not_mem_nil _)


theorem Doc.Reads.mono {d : Doc} {n k : Nat} (h : d.Reads n) (hk : n ≤ k) : d.Reads k :=
  fun m hm rest hr => h m (Nat.le_trans hk hm) rest hr

theorem decimalInt_head (i : Int) : ∃ c t, decimalInt i = c :: t ∧ c ∈ '-' :: digitChars := by
  cases i with
  | ofNat n =>
    obtain ⟨hne, hl, -⟩ := decimal_shape n
    show ∃ c t, decimal n = c :: t ∧ _
    cases hd : decimal n with
    | nil => exact absurd hd hne
    | cons c t =>
      rw [hd] at hl
      exact ⟨c, t, rfl, List.mem_cons_of_mem _ (hl c (List.mem_cons_self _ _))⟩
  | negSucc n => exact ⟨'-', decimal (n + 1), rfl, List.mem_cons_self _ _⟩

/-- An integer in decimal is read as a number. -/
theorem reads_decimalInt (i : Int) : (numDoc (decimalInt i)).Reads 1 := by
  intro m hm rest hr
  obtain ⟨k, rfl⟩ : ∃ k, m = k + 1 := ⟨m - 1, by omega⟩
  obtain ⟨c, t, hct, hc⟩ := decimalInt_head i
  show jsonValue (k + 1) (decimalInt i ++ rest) = Parsed.ok (Json.num (decimalInt i)) rest
  have hnum := jsonNumber_decimalInt i rest hr
  rw [hct] at hnum ⊢
  rw [List.cons_append] at hnum ⊢
  rw [jsonValue_numeric k c (t ++ rest) hc, hnum]

/-- A natural number in decimal is read as a number. -/
theorem reads_decimal (n : Nat) : (numDoc (decimal n)).Reads 1 :=
  reads_decimalInt (Int.ofNat n)

/-- A string of plain characters between quotes is read as that string. -/
theorem reads_plain (s : Str) (hs : ∀ c ∈ s, jsonPlain c = true) : (strDoc s).Reads 1 := by
  intro m hm rest _
  obtain ⟨k, rfl⟩ : ∃ k, m = k + 1 := ⟨m - 1, by omega⟩
  show jsonValue (k + 1) (('"' :: s ++ ['"']) ++ rest) = Parsed.ok (Json.str s) rest
  have e : ('"' :: s ++ ['"']) ++ rest = '"' :: (s ++ '"' :: rest) := by simp
  rw [e, jsonValue_quote, jsonStringBody_plain s rest hs]

theorem intercalate_pair (x y : Str) (l : List Str) :
    [','].intercalate (x :: y :: l) = x ++ ',' :: [','].intercalate (y :: l) := by
  simp [List.intercalate, List.intersperse]

theorem intercalate_single (x : Str) : [','].intercalate [x] = x := by
  simp [List.intercalate, List.intersperse]

theorem jsonMembers_step (m : Nat) (key : Str) (d : Doc) (more : Str)
    (hkey : ∀ c ∈ key, jsonPlain c = true) :
    jsonMembers (m + 1) (memberText (key, d) ++ more) =
      match jsonValue m (d.1 ++ more) with
      | Parsed.ok v r3 =>
        match skipWs r3 with
        | ',' :: r4 =>
          match jsonMembers m r4 with
          | Parsed.ok ms r5 => Parsed.ok ((key, v) :: ms) r5
          | Parsed.malformed => Parsed.malformed
          | Parsed.outOfFuel => Parsed.outOfFuel
        | '\x7d' :: r4 => Parsed.ok [(key, v)] r4
        | _ => Parsed.malformed
      | Parsed.malformed => Parsed.malformed
      | Parsed.outOfFuel => Parsed.outOfFuel := by
  have e : memberText (key, d) ++ more = '"' :: (key ++ '"' :: (':' :: (d.1 ++ more))) := by
    simp [memberText]
  rw [e, jsonMembers]
  have hs : skipWs ('"' :: (key ++ '"' :: (':' :: (d.1 ++ more)))) =
      '"' :: (key ++ '"' :: (':' :: (d.1 ++ more))) := rfl
  rw [hs]
  simp only [jsonStringBody_plain key _ hkey]
  rfl

/-- The members of a written object are read one after the other. -/
theorem jsonMembers_written (need : Nat) (ms : List (Str × Doc)) (hne : ms ≠ [])
    (h : ∀ x ∈ ms, (∀ c ∈ x.1, jsonPlain c = true) ∧ x.2.Reads need) :
    ∀ m, need + ms.length ≤ m → ∀ rest,
      jsonMembers m ([','].intercalate (ms.map memberText) ++ '\x7d' :: rest) =
        Parsed.ok (ms.map (fun x => (x.1, x.2.2))) rest := by
  induction ms with
  | nil => exact absurd rfl hne
  | cons x xs ih =>
    intro m hm rest
    obtain ⟨k, rfl⟩ : ∃ k, m = k + 1 := ⟨m - 1, by simp at hm; omega⟩
    have hx := h x (List.mem_cons_self _ _)
    cases xs with
    | nil =>
      rw [List.map_cons, List.map_nil, intercalate_single]
      have hv := hx.2 k (by simp at hm; omega) ('\x7d' :: rest) rfl
      rw [show x = (x.1, x.2) from rfl, jsonMembers_step k x.1 x.2 _ hx.1, hv]
      rfl
    | cons y ys =>
      have ih1 := ih (List.cons_ne_nil _ _) (fun z hz => h z (List.mem_cons_of_mem _ hz)) k
        (by simp at hm ⊢; omega) rest
      rw [List.map_cons, List.map_cons, intercalate_pair, List.append_assoc, List.cons_append]
      have hv := hx.2 k (by simp at hm; omega)
        (',' :: ([','].intercalate (memberText y :: ys.map memberText) ++ '\x7d' :: rest)) rfl
      rw [show x = (x.1, x.2) from rfl, jsonMembers_step k x.1 x.2 _ hx.1, hv]
      rw [List.map_cons] at ih1
      show (match jsonMembers k
          ([','].intercalate (memberText y :: ys.map memberText) ++ '\x7d' :: rest) with
        | Parsed.ok ms r5 => Parsed.ok ((x.1, x.2.2) :: ms) r5
        | Parsed.malformed => Parsed.malformed
        | Parsed.outOfFuel => Parsed.outOfFuel) = _
      rw [ih1]
      rfl

/-- A written object with at least one member, plain keys and values that are
read, is read as an object. -/
theorem reads_objDoc (need : Nat) (ms : List (Str × Doc)) (hne : ms ≠ [])
    (h : ∀ x ∈ ms, (∀ c ∈ x.1, jsonPlain c = true) ∧ x.2.Reads need) :
    (objDoc ms).Reads (need + ms.length + 1) := by
  intro m hm rest _
  obtain ⟨k, rfl⟩ : ∃ k, m = k + 1 := ⟨m - 1, by omega⟩
  have hmem := jsonMembers_written need ms hne h k (by omega) rest
  show jsonValue (k + 1) (('\x7b' :: [','].intercalate (ms.map memberText) ++ ['\x7d']) ++ rest)
    = Parsed.ok (Json.obj (ms.map (fun x => (x.1, x.2.2)))) rest
  have e : ('\x7b' :: [','].intercalate (ms.map memberText) ++ ['\x7d']) ++ rest =
      '\x7b' :: ([','].intercalate (ms.map memberText) ++ '\x7d' :: rest) := by simp
  rw [e]
  cases ms with
  | nil => exact absurd rfl hne
  | cons x xs =>
    have hq : ∃ t, [','].intercalate ((x :: xs).map memberText) ++ '\x7d' :: rest = '"' :: t := by
      cases xs with
      | nil => exact ⟨_, by rw [List.map_cons, List.map_nil, intercalate_single]; rfl⟩
      | cons y ys =>
        exact ⟨_, by rw [List.map_cons, List.map_cons, intercalate_pair]; rfl⟩
    obtain ⟨t, ht⟩ := hq
    rw [ht] at hmem ⊢
    rw [jsonValue_brace, hmem]

theorem jsonElements_written (need : Nat) (ds : List Doc) (hne : ds ≠ [])
    (h : ∀ d ∈ ds, d.Reads need) :
    ∀ m, need + ds.length ≤ m → ∀ rest,
      jsonElements m ([','].intercalate (ds.map Prod.fst) ++ ']' :: rest) =
        Parsed.ok (ds.map Prod.snd) rest := by
  induction ds with
  | nil => exact absurd rfl hne
  | cons x xs ih =>
    intro m hm rest
    obtain ⟨k, rfl⟩ : ∃ k, m = k + 1 := ⟨m - 1, by simp at hm; omega⟩
    have hx := h x (List.mem_cons_self _ _)
    cases xs with
    | nil =>
      rw [List.map_cons, List.map_nil, intercalate_single]
      have hv := hx k (by simp at hm; omega) (']' :: rest) rfl
      rw [jsonElements, hv]
      rfl
    | cons y ys =>
      have ih1 := ih (List.cons_ne_nil _ _) (fun z hz => h z (List.mem_cons_of_mem _ hz)) k
        (by simp at hm ⊢; omega) rest
      rw [List.map_cons, List.map_cons, intercalate_pair, List.append_assoc, List.cons_append]
      have hv := hx k (by simp at hm; omega)
        (',' :: ([','].intercalate (y.1 :: ys.map Prod.fst) ++ ']' :: rest)) rfl
      rw [jsonElements, hv]
      rw [List.map_cons] at ih1
      show (match jsonElements k ([','].intercalate (y.1 :: ys.map Prod.fst) ++ ']' :: rest) with
        | Parsed.ok vs r3 => Parsed.ok (x.2 :: vs) r3
        | Parsed.malformed => Parsed.malformed
        | Parsed.outOfFuel => Parsed.outOfFuel) = _
      rw [ih1]
      rfl

/-- A written array of objects that are read is read as an array. -/
theorem reads_arrDoc (need : Nat) (ds : List Doc) (h : ∀ d ∈ ds, d.Reads need)
    (hobj : ∀ d ∈ ds, ∃ t, d.1 = '\x7b' :: t) :
    (arrDoc ds).Reads (need + ds.length + 1) := by
  intro m hm rest _
  obtain ⟨k, rfl⟩ : ∃ k, m = k + 1 := ⟨m - 1, by omega⟩
  show jsonValue (k + 1) (('[' :: [','].intercalate (ds.map Prod.fst) ++ [']']) ++ rest)
    = Parsed.ok (Json.arr (ds.map Prod.snd)) rest
  have e : ('[' :: [','].intercalate (ds.map Prod.fst) ++ [']']) ++ rest =
      '[' :: ([','].intercalate (ds.map Prod.fst) ++ ']' :: rest) := by simp
  rw [e]
  cases ds with
  | nil => exact jsonValue_bracket_empty k rest
  | cons x xs =>
    have hmem := jsonElements_written need (x :: xs) (List.cons_ne_nil _ _) h k (by omega) rest
    obtain ⟨t, ht⟩ := hobj x (List.mem_cons_self _ _)
    have hq : ∃ u, [','].intercalate ((x :: xs).map Prod.fst) ++ ']' :: rest = '\x7b' :: u := by
      cases xs with
      | nil => exact ⟨_, by rw [List.map_cons, List.map_nil, intercalate_single, ht]; rfl⟩
      | cons y ys =>
        exact ⟨_, by rw [List.map_cons, List.map_cons, intercalate_pair, ht]; rfl⟩
    obtain ⟨u, hu⟩ := hq
    rw [hu] at hmem ⊢
    rw [jsonValue_bracket, hmem]


theorem recentJson_eq (e : RequestLogEntry) : recentJson e = (entryDoc e).1 := by
  simp [recentJson, entryDoc, objDoc, memberText, strDoc, numDoc, List.intercalate,
    List.intersperse]

set_option maxRecDepth 100000 in
/-- The text `build_metrics_json` returns is the text of the metrics document. -/
theorem build_metrics_json_eq (g : Metrics) (uptime : Int) :
    build_metrics_json g uptime = (metricsDoc g uptime).1 := by
  have hrec : g.g_recent_logs.map recentJson = (g.g_recent_logs.map entryDoc).map Prod.fst := by
    rw [List.map_map]
    exact List.map_congr_left (fun e _ => recentJson_eq e)
  unfold build_metrics_json
  rw [hrec]
  simp [metricsDoc, statusCountsDoc, objDoc, arrDoc, memberText, numDoc, List.intercalate,
    List.intersperse]

/-- The object written for an entry with plain strings is read as that entry. -/
theorem reads_entryDoc (e : RequestLogEntry) (h : PlainEntry e) : (entryDoc e).Reads 7 := by
  refine reads_objDoc 1 _ (List.cons_ne_nil _ _) ?_
  intro x hx
  simp only [List.mem_cons, List.mem_singleton, List.not_mem_nil, or_false] at hx
  rcases hx with rfl | rfl | rfl | rfl | rfl
  · exact ⟨(by decide : ∀ c ∈ "time".toList, jsonPlain c = true), reads_plain _ h.1⟩
  · exact ⟨(by decide : ∀ c ∈ "client".toList, jsonPlain c = true), reads_plain _ h.2.1⟩
  · exact ⟨(by decide : ∀ c ∈ "path".toList, jsonPlain c = true), reads_plain _ h.2.2⟩
  · exact ⟨(by decide : ∀ c ∈ "status".toList, jsonPlain c = true), reads_decimalInt _⟩
  · exact ⟨(by decide : ∀ c ∈ "bytes".toList, jsonPlain c = true), reads_decimal _⟩

/-- The `status_counts` object is read as an object of six numbers. -/
theorem reads_statusCountsDoc (g : Metrics) : (statusCountsDoc g).Reads 8 := by
  refine reads_objDoc 1 _ (List.cons_ne_nil _ _) ?_
  intro x hx
  simp only [List.mem_cons, List.mem_singleton, List.not_mem_nil, or_false] at hx
  rcases hx with rfl | rfl | rfl | rfl | rfl | rfl
  · exact ⟨(by decide : ∀ c ∈ "200".toList, jsonPlain c = true), reads_decimal _⟩
  · exact ⟨(by decide : ∀ c ∈ "400".toList, jsonPlain c = true), reads_decimal _⟩
  · exact ⟨(by decide : ∀ c ∈ "403".toList, jsonPlain c = true), reads_decimal _⟩
  · exact ⟨(by decide : ∀ c ∈ "404".toList, jsonPlain c = true), reads_decimal _⟩
  · exact ⟨(by decide : ∀ c ∈ "405".toList, jsonPlain c = true), reads_decimal _⟩
  · exact ⟨(by decide : ∀ c ∈ "500".toList, jsonPlain c = true), reads_decimal _⟩

/-- The array written for a buffer of entries with plain strings is read as the
array of these entries. -/
theorem reads_recent (es : List RequestLogEntry) (h : ∀ e ∈ es, PlainEntry e) :
    (arrDoc (es.map entryDoc)).Reads (es.length + 8) := by
  have hr := reads_arrDoc 7 (es.map entryDoc)
    (fun d hd => by
      obtain ⟨e, he, rfl⟩ := List.mem_map.1 hd
      exact reads_entryDoc e (h e he))
    (fun d hd => by
      obtain ⟨e, _, rfl⟩ := List.mem_map.1 hd
      exact ⟨_, rfl⟩)
  rw [List.length_map] at hr
  exact hr.mono (by omega)

/-- The metrics document of a state whose buffered entries have plain strings is
read as the object it is meant to stand for. -/
theorem reads_metricsDoc (g : Metrics) (uptime : Int)
    (h : ∀ e ∈ g.g_recent_logs, PlainEntry e) :
    (metricsDoc g uptime).Reads (g.g_recent_logs.length + 16) := by
  have hn : ∀ t : Doc, t.Reads 1 → t.Reads (g.g_recent_logs.length + 8) :=
    fun t ht => ht.mono (by omega)
  refine reads_objDoc (g.g_recent_logs.length + 8) _ (List.cons_ne_nil _ _) ?_
  intro x hx
  simp only [List.mem_cons, List.mem_singleton, List.not_mem_nil, or_false] at hx
  rcases hx with rfl | rfl | rfl | rfl | rfl | rfl | rfl
  · exact ⟨(by decide : ∀ c ∈ "total_requests".toList, jsonPlain c = true), hn _ (reads_decimal _)⟩
  · exact ⟨(by decide : ∀ c ∈ "uptime_seconds".toList, jsonPlain c = true), hn _ (reads_decimalInt _)⟩
  · exact ⟨(by decide : ∀ c ∈ "active_connections".toList, jsonPlain c = true), hn _ (reads_decimalInt _)⟩
  · exact ⟨(by decide : ∀ c ∈ "peak_connections".toList, jsonPlain c = true), hn _ (reads_decimalInt _)⟩
  · exact ⟨(by decide : ∀ c ∈ "bytes_sent".toList, jsonPlain c = true), hn _ (reads_decimal _)⟩
  · exact ⟨(by decide : ∀ c ∈ "status_counts".toList, jsonPlain c = true), (reads_statusCountsDoc g).mono (by omega)⟩
  · exact ⟨(by decide : ∀ c ∈ "recent".toList, jsonPlain c = true), reads_recent _ h⟩

/-- The text `build_metrics_json` returns for a state whose buffered entries have
plain strings is read, as a whole, as the metrics document. -/
theorem build_metrics_json_read (g : Metrics) (uptime : Int)
    (h : ∀ e ∈ g.g_recent_logs, PlainEntry e) :
    jsonValue (g.g_recent_logs.length + 16) (build_metrics_json g uptime) =
      Parsed.ok (metricsDoc g uptime).2 [] := by
  have hr := reads_metricsDoc g uptime h _ (Nat.le_refl _) [] rfl
  rw [List.append_nil] at hr
  rw [build_metrics_json_eq]
  exact hr

/-- The metrics document has the seven top-level members. -/
theorem metricsDoc_keys (g : Metrics) (uptime : Int) :
    (metricsDoc g uptime).2.keys =
      ["total_requests".toList, "uptime_seconds".toList, "active_connections".toList,
        "peak_connections".toList, "bytes_sent".toList, "status_counts".toList,
        "recent".toList] := by
  rfl

/-- The `status_counts` member of the metrics document has the six status keys. -/
theorem metricsDoc_status_keys (g : Metrics) (uptime : Int) :
    ((metricsDoc g uptime).2.field "status_counts".toList).map Json.keys =
      some (statusCodes.map decimalInt) := by
  rfl

/-- The `uptime_seconds` member of the metrics document is a natural number. -/
theorem metricsDoc_uptime (g : Metrics) (uptime : Int) :
    ((metricsDoc g uptime).2.field "uptime_seconds".toList).bind Json.text =
      some (decimal uptime.toNat) := by
  show some (decimalInt (if uptime < 0 then 0 else uptime)) = some (decimal uptime.toNat)
  by_cases hu : uptime < 0
  · rw [if_pos hu, Int.toNat_eq_zero.2 (Int.le_of_lt hu)]
    rfl
  · rw [if_neg hu]
    obtain ⟨n, rfl⟩ := Int.eq_ofNat_of_zero_le (Int.not_lt.1 hu)
    rfl

/-- The `recent` member of the metrics document has one object per buffered
entry, in the order of the buffer, each with the path of its entry. -/
theorem metricsDoc_recent (g : Metrics) (uptime : Int) :
    recentPaths (metricsDoc g uptime).2 = g.g_recent_logs.map (fun e => some e.path) := by
  show ((g.g_recent_logs.map entryDoc).map Prod.snd).map
    (fun e => (e.field "path".toList).bind Json.text) = _
  rw [List.map_map, List.map_map]
  exact List.map_congr_left (fun e _ => rfl)

theorem log_request_plain (g : Metrics) (client path : Str) (status : Int) (bytes : Nat)
    (ts : Str) (hg : ∀ e ∈ g.g_recent_logs, PlainEntry e)
    (hc : PlainEntry (⟨ts, client, path, status, bytes⟩ : RequestLogEntry)) :
    ∀ e ∈ (log_request g client path status bytes ts).g_recent_logs, PlainEntry e := by
  by_cases hp : path = ADMIN_METRICS
  · unfold log_request
    rw [if_pos hp]
    exact hg
  · rw [log_request_recent g client path status bytes ts hp]
    have hall : ∀ e ∈ g.g_recent_logs ++
        [(⟨ts, client, path, status, bytes⟩ : RequestLogEntry)], PlainEntry e := by
      intro e he
      rcases List.mem_append.1 he with h1 | h1
      · exact hg e h1
      · rw [List.mem_singleton.1 h1]
        exact hc
    split_ifs
    · exact fun e he => hall e (List.mem_of_mem_tail he)
    · exact hall

theorem logAll_plain (calls : List LogCall) (hc : ∀ c ∈ calls, PlainCall c) :
    ∀ (g : Metrics), (∀ e ∈ g.g_recent_logs, PlainEntry e) →
      ∀ e ∈ (logAll g calls).g_recent_logs, PlainEntry e := by
  induction calls with
  | nil => exact fun g hg => hg
  | cons c cs ih =>
    intro g hg
    exact ih (fun d hd => hc d (List.mem_cons_of_mem _ hd)) (logCall g c)
      (log_request_plain g c.client c.path c.status c.bytes c.ts hg
        (hc c (List.mem_cons_self _ _)))

/-- After any calls of `log_request` whose time stamps, client addresses and paths
hold no quote, backslash or control character, `build_metrics_json` returns a
well-formed JSON text: it is read as an object with the seven top-level members,
a natural number as `uptime_seconds`, the six keys of `status_counts`, and a
`recent` array with one object per buffered entry, in the order of the buffer,
whose `path` string decodes to the logged path. -/
theorem metrics_json_of_plain_calls (calls : List LogCall) (uptime : Int)
    (hc : ∀ c ∈ calls, PlainCall c) :
    WellFormedJson (build_metrics_json (logAll Metrics.init calls) uptime) ∧
    ∃ fuel doc, jsonValue fuel (build_metrics_json (logAll Metrics.init calls) uptime) =
        Parsed.ok doc [] ∧
      doc.keys =
        ["total_requests".toList, "uptime_seconds".toList, "active_connections".toList,
          "peak_connections".toList, "bytes_sent".toList, "status_counts".toList,
          "recent".toList] ∧
      (doc.field "uptime_seconds".toList).bind Json.text = some (decimal uptime.toNat) ∧
      (doc.field "status_counts".toList).map Json.keys =
        some (statusCodes.map decimalInt) ∧
      recentPaths doc =
        (logAll Metrics.init calls).g_recent_logs.map (fun e => some e.path) := by
  have hplain := logAll_plain calls hc Metrics.init
    (fun e he => absurd he (List.not_mem_nil _))
  have hread := build_metrics_json_read (logAll Metrics.init calls) uptime hplain
  exact ⟨⟨_, _, _, hread, rfl⟩, _, (metricsDoc (logAll Metrics.init calls) uptime).2, hread,
    metricsDoc_keys _ _, metricsDoc_uptime _ _, metricsDoc_status_keys _ _,
    metricsDoc_recent _ _⟩

/-- An instance of `metrics_json_of_plain_calls`: two requests for `/x`. -/
theorem metrics_json_of_plain_calls_sample :
    WellFormedJson
      (build_metrics_json (logAll Metrics.init [sampleCall 200, sampleCall 404]) 5) :=
  (metrics_json_of_plain_calls [sampleCall 200, sampleCall 404] 5
    (by
      intro c hc
      simp only [List.mem_cons, List.mem_singleton, List.not_mem_nil, or_false] at hc
      rcases hc with rfl | rfl <;> (unfold PlainCall PlainEntry; decide))).1

/-- A negative uptime is written as `0`. -/
theorem build_metrics_json_uptime_clamped (g : Metrics) (uptime : Int) (h : uptime < 0) :
    build_metrics_json g uptime = build_metrics_json g 0 := by
  unfold build_metrics_json
  simp only [h, if_true]
  rfl

/-- The JSON string that starts the `path` member written for the logged path
`/a"b` ends at the quote inside the path: it decodes to `/a`, and `b"` is left
over where a comma or a closing brace has to follow. -/
theorem path_string_ends_early :
    jsonStringBody ("/a\"b".toList ++ "\",\"status\":404".toList) =
      some ("/a".toList, "b\",\"status\":404".toList) := by
  decide

set_option maxRecDepth 1000000 in
/-- The log entry a fresh server keeps for `GET /a"b HTTP/1.0`. -/
theorem quote_request_logged :
    (handle_client (Server.init "./static".toList) LOCALHOST
        (getConnection "/a\"b".toList)).server.g.g_recent_logs =
      [(⟨"2024-01-01 00:00:00".toList, LOCALHOST, "/a\"b".toList, 404, 101⟩ :
        RequestLogEntry)] := by
  rfl

set_option maxRecDepth 1000000 in
/-- The metrics body sent after `GET /a"b HTTP/1.0`, as `build_metrics_json`
returns it for the state that request left. -/
theorem quote_body_built :
    metricsBodyAfter "/a\"b".toList =
      build_metrics_json (ConnectionGuard.enter
        (handle_client (Server.init "./static".toList) LOCALHOST
          (getConnection "/a\"b".toList)).server.g) 5 := by
  rfl

set_option maxRecDepth 1000000 in
/-- The text of the metrics body sent after `GET /a"b HTTP/1.0`. -/
theorem quote_body_text :
    metricsBodyAfter "/a\"b".toList =
      ("\x7b\"total_requests\":1,\"uptime_seconds\":5,\"active_connections\":1," ++
       "\"peak_connections\":1,\"bytes_sent\":101,\"status_counts\":\x7b\"200\":0," ++
       "\"400\":0,\"403\":0,\"404\":1,\"405\":0,\"500\":0\x7d,\"recent\":[\x7b" ++
       "\"time\":\"2024-01-01 00:00:00\",\"client\":\"127.0.0.1\"," ++
       "\"path\":\"/a\"b\",\"status\":404,\"bytes\":101\x7d]\x7d").toList := by
  rfl

set_option maxRecDepth 1000000 in
/-- The JSON grammar rejects the metrics body sent after `GET /a"b HTTP/1.0`. -/
theorem quote_body_rejected :
    (parseJson (metricsBodyAfter "/a\"b".toList)).isMalformed = true := by
  rfl

set_option maxRecDepth 1000000 in
/-- After `GET /ab HTTP/1.0` the metrics body is a JSON object with the seven
top-level members, the six status keys, uptime `5`, and one `recent` object whose
`path` string decodes to `/ab`. -/
theorem plain_body_read :
    WellFormedJson (metricsBodyAfter "/ab".toList) ∧
    (parseJson (metricsBodyAfter "/ab".toList)).value.map Json.keys =
      some ["total_requests".toList, "uptime_seconds".toList,
        "active_connections".toList, "peak_connections".toList, "bytes_sent".toList,
        "status_counts".toList, "recent".toList] ∧
    ((parseJson (metricsBodyAfter "/ab".toList)).value.bind
        (Json.field "status_counts".toList)).map Json.keys =
      some (statusCodes.map decimalInt) ∧
    ((parseJson (metricsBodyAfter "/ab".toList)).value.bind
        (Json.field "uptime_seconds".toList)).bind Json.text = some "5".toList ∧
    (parseJson (metricsBodyAfter "/ab".toList)).value.map recentPaths =
      some [some "/ab".toList] := by
  refine ⟨wellFormed_of_parseJson _ ?_, ?_, ?_, ?_, ?_⟩ <;> rfl

set_option maxRecDepth 1000000 in
/-- After `GET /A HTTP/1.0` the metrics body is well-formed, but the `path`
string of its `recent` object decodes to `/A`, which is not the logged path: a
backslash of the path is written as it is and read as the start of an escape. -/
theorem backslash_body_read :
    WellFormedJson (metricsBodyAfter "/\\u0041".toList) ∧
    (handle_client (Server.init "./static".toList) LOCALHOST
        (getConnection "/\\u0041".toList)).server.g.g_recent_logs.map
          RequestLogEntry.path = ["/\\u0041".toList] ∧
    (parseJson (metricsBodyAfter "/\\u0041".toList)).value.map recentPaths =
      some [some "/A".toList] := by
  refine ⟨wellFormed_of_parseJson _ ?_, ?_, ?_⟩ <;> rfl

/-- C21, at the failing input.  A fresh server that has answered
`GET /a"b HTTP/1.0` holds the path `/a"b` in its recent-log buffer.  The body it
then sends for `GET /admin/metrics` is what `build_metrics_json` returns for that
state; it writes the path between quotes as it is, and it is not a well-formed
JSON text. -/
theorem metrics_json_unescaped_quote :
    (handle_client (Server.init "./static".toList) LOCALHOST
        (getConnection "/a\"b".toList)).server.g.g_recent_logs =
      [(⟨"2024-01-01 00:00:00".toList, LOCALHOST, "/a\"b".toList, 404, 101⟩ :
        RequestLogEntry)] ∧
    metricsBodyAfter "/a\"b".toList =
      build_metrics_json (ConnectionGuard.enter
        (handle_client (Server.init "./static".toList) LOCALHOST
          (getConnection "/a\"b".toList)).server.g) 5 ∧
    metricsBodyAfter "/a\"b".toList =
      ("\x7b\"total_requests\":1,\"uptime_seconds\":5,\"active_connections\":1," ++
       "\"peak_connections\":1,\"bytes_sent\":101,\"status_counts\":\x7b\"200\":0," ++
       "\"400\":0,\"403\":0,\"404\":1,\"405\":0,\"500\":0\x7d,\"recent\":[\x7b" ++
       "\"time\":\"2024-01-01 00:00:00\",\"client\":\"127.0.0.1\"," ++
       "\"path\":\"/a\"b\",\"status\":404,\"bytes\":101\x7d]\x7d").toList ∧
    ¬ WellFormedJson (metricsBodyAfter "/a\"b".toList) :=
  ⟨quote_request_logged, quote_body_built, quote_body_text,
    not_wellFormed_of_parseJson _ quote_body_rejected⟩

/-! ## The router when a status query fails -/

/-- As long as the status of the resolved path can be queried, `Router::handle`
returns, and returns what `handle` says for the file system as it is. -/
theorem handle_returns_of_status (root_ : Str) (fs : StatFileSystem) (cache_ : LRUCache)
    (req : HttpRequest) (h : fs.status_error (resolvedPath root_ req.path) = false) :
    Throwing.handle root_ fs cache_ req =
      Outcome.returned (handle root_ fs.toFileSystem cache_ req) := by
  unfold Throwing.handle handle
  by_cases hm : req.method ≠ "GET".toList
  · rw [if_pos hm, if_pos hm]
  · rw [if_neg hm, if_neg hm]
    simp only
    by_cases hd : (find DOTDOT (lexically_normal (defaultPath req.path))).isSome = true
    · rw [if_pos hd, if_pos hd]
    · rw [if_neg hd, if_neg hd]
      unfold resolvedPath at h
      unfold Throwing.serve_file serve_file StatFileSystem.fs_exists
        StatFileSystem.fs_is_directory
      simp only [h, Bool.false_eq_true, if_false]
      cases he : fs.exists_ (pathAppend root_
          (relative_path (lexically_normal (defaultPath req.path))))
      · simp
      · cases hdir : fs.is_directory (pathAppend root_
            (relative_path (lexically_normal (defaultPath req.path))))
        · simp only [Bool.true_eq_false, if_false]
          rcases hg : cache_.get (pathAppend root_
            (relative_path (lexically_normal (defaultPath req.path)))) with ⟨_ | data, c1⟩
          · cases hr : fs.open_read (pathAppend root_
              (relative_path (lexically_normal (defaultPath req.path)))) <;> rfl
          · rfl
        · simp

/-- A `filesystem_error` leaves `Router::handle` exactly when the request is a
`GET` that passes the traversal check and the status of the resolved path cannot
be queried; the only query made is then `fs::exists` on that path. -/
theorem handle_throws_iff (root_ : Str) (fs : StatFileSystem) (cache_ : LRUCache)
    (req : HttpRequest) :
    ((Throwing.handle root_ fs cache_ req).isThrown = true ↔
      req.method = "GET".toList ∧ PassesTraversalCheck req.path ∧
        fs.status_error (resolvedPath root_ req.path) = true) ∧
    ((Throwing.handle root_ fs cache_ req).isThrown = true →
      Throwing.handle root_ fs cache_ req =
        Outcome.thrown [FsCall.exists_ (resolvedPath root_ req.path)]) := by
  by_cases herr : fs.status_error (resolvedPath root_ req.path) = true
  · by_cases hm : req.method ≠ "GET".toList
    · have hh : (Throwing.handle root_ fs cache_ req).isThrown = false := by
        unfold Throwing.handle
        rw [if_pos hm]
        rfl
      rw [hh]
      exact ⟨⟨fun h => absurd h (by decide), fun h => absurd h.1 hm⟩,
        fun h => absurd h (by decide)⟩
    · by_cases hd : (find DOTDOT (lexically_normal (defaultPath req.path))).isSome = true
      · have hh : (Throwing.handle root_ fs cache_ req).isThrown = false := by
          unfold Throwing.handle
          rw [if_neg hm]
          simp only
          rw [if_pos hd]
          rfl
        rw [hh]
        refine ⟨⟨fun h => absurd h (by decide), fun h => ?_⟩,
          fun h => absurd h (by decide)⟩
        have hp := h.2.1
        unfold PassesTraversalCheck at hp
        rw [hp] at hd
        exact absurd hd (by simp)
      · have hh : Throwing.handle root_ fs cache_ req =
            Outcome.thrown [FsCall.exists_ (resolvedPath root_ req.path)] := by
          unfold Throwing.handle
          rw [if_neg hm]
          simp only
          rw [if_neg hd]
          unfold Throwing.serve_file StatFileSystem.fs_exists
          unfold resolvedPath at herr
          simp only [herr, if_true]
          rfl
        rw [hh]
        refine ⟨⟨fun _ => ⟨by simpa using hm, ?_, herr⟩, fun _ => rfl⟩, fun _ => rfl⟩
        unfold PassesTraversalCheck
        simpa using hd
  · have hf : fs.status_error (resolvedPath root_ req.path) = false := by simpa using herr
    rw [handle_returns_of_status root_ fs cache_ req hf]
    exact ⟨⟨fun h => absurd h (by simp [Outcome.isThrown]), fun h => absurd h.2.2 herr⟩,
      fun h => absurd h (by simp [Outcome.isThrown])⟩

/-- For every `GET` request that passes the traversal check and whose resolved
path can be queried and does not exist or is a directory, `Router::handle`
returns status 404 with content type `text/plain` and body `Not Found\n`, makes no
cache call and leaves the cache as it was. -/
theorem not_found_of_status (root_ : Str) (fs : StatFileSystem) (cache_ : LRUCache)
    (req : HttpRequest) (hget : req.method = "GET".toList)
    (hpass : PassesTraversalCheck req.path)
    (hstat : fs.status_error (resolvedPath root_ req.path) = false)
    (h : fs.exists_ (resolvedPath root_ req.path) = false ∨
      fs.is_directory (resolvedPath root_ req.path) = true) :
    ∃ res, Throwing.handle root_ fs cache_ req = Outcome.returned res ∧
      res.status_code = 404 ∧ res.content_type = "text/plain".toList ∧
      res.body = "Not Found\n".toList ∧ res.cacheCalls = 0 ∧ res.cache = cache_ := by
  refine ⟨_, handle_returns_of_status root_ fs cache_ req hstat, ?_⟩
  rw [handle_served root_ fs.toFileSystem cache_ req hget hpass]
  exact serve_file_absent root_ fs.toFileSystem cache_ _ h

/-- An instance of `not_found_of_status`: `GET /missing.txt` with no file present,
while the cache still holds an entry for `./static/missing.txt`. -/
theorem not_found_of_status_sample :
    (Throwing.handle "./static".toList StatFileSystem.vacant
      ((LRUCache.init 100).put "./static/missing.txt".toList "old".toList)
      (getRequest "/missing.txt".toList)).status = some 404 := by
  obtain ⟨res, hres, h404, -⟩ := not_found_of_status "./static".toList StatFileSystem.vacant
    ((LRUCache.init 100).put "./static/missing.txt".toList "old".toList)
    (getRequest "/missing.txt".toList) rfl (by unfold PassesTraversalCheck; decide)
    (by decide) (Or.inl rfl)
  rw [hres]
  exact congrArg some h404

set_option maxRecDepth 1000000 in
/-- The path of 256 letters passes the traversal check and resolves to a name of
256 letters under the root. -/
theorem longNamePath_resolved :
    PassesTraversalCheck longNamePath ∧
    resolvedPath "./static".toList longNamePath =
      "./static/".toList ++ List.replicate 256 'a' := by
  unfold PassesTraversalCheck
  exact ⟨by decide, by decide⟩

set_option maxRecDepth 1000000 in
/-- The status of the resolved long name cannot be queried. -/
theorem longNamePath_status :
    StatFileSystem.vacant.status_error ("./static/".toList ++ List.replicate 256 'a') = true ∧
    StatFileSystem.vacant.status_error
      ("./static/".toList ++ List.replicate 255 'a') = false := by
  exact ⟨by decide, by decide⟩

/-- C12, at the failing input.  The request `GET /aaa...a` with a name of 256
letters is a `GET` that passes the traversal check, and its resolved path
`./static/aaa...a` does not exist in the file system; yet `Router::handle` does
not return 404: `fs::exists` throws on the name, which is longer than the file
system allows, and the `filesystem_error` leaves `handle` with no status
assigned. -/
theorem not_found_throws_on_long_name :
    (getRequest longNamePath).method = "GET".toList ∧
    PassesTraversalCheck (getRequest longNamePath).path ∧
    resolvedPath "./static".toList (getRequest longNamePath).path =
      "./static/".toList ++ List.replicate 256 'a' ∧
    StatFileSystem.vacant.exists_
      (resolvedPath "./static".toList (getRequest longNamePath).path) = false ∧
    Throwing.handle "./static".toList StatFileSystem.vacant (LRUCache.init 100)
        (getRequest longNamePath) =
      Outcome.thrown [FsCall.exists_ ("./static/".toList ++ List.replicate 256 'a')] ∧
    (Throwing.handle "./static".toList StatFileSystem.vacant (LRUCache.init 100)
        (getRequest longNamePath)).status ≠ some 404 := by
  have hthrow := (handle_throws_iff "./static".toList StatFileSystem.vacant
    (LRUCache.init 100) (getRequest longNamePath)).2
    ((handle_throws_iff "./static".toList StatFileSystem.vacant (LRUCache.init 100)
      (getRequest longNamePath)).1.2
      ⟨rfl, longNamePath_resolved.1, by
        show StatFileSystem.vacant.status_error (resolvedPath "./static".toList longNamePath)
          = true
        rw [longNamePath_resolved.2]
        exact longNamePath_status.1⟩)
  have hres : resolvedPath "./static".toList (getRequest longNamePath).path =
      "./static/".toList ++ List.replicate 256 'a' := longNamePath_resolved.2
  refine ⟨rfl, longNamePath_resolved.1, hres, rfl, ?_, ?_⟩
  · rw [hthrow, hres]
  · rw [hthrow]
    exact fun h => Option.noConfusion h

end MiniWebserver
